import Mathlib

/-!
Verification of the `c-bigint-mult` big-integer multiplication library.

The C sources (`header.c`) implement unsigned multi-digit arithmetic on arrays of
`bigint` (`unsigned long`) digits, least-significant digit first.  This
development embeds the library in Lean and proves properties of the embedding.

Embedding conventions:

* A digit is a natural number below `2 ^ w`, where `w` is the bit width of
  `unsigned long`.  Every arithmetic operation the source performs on a digit is
  reduced modulo `2 ^ w` explicitly.
* A pointer into a digit array is the list of the digits from the pointed-to
  position onwards, so `p + off` is `p.drop off`.  A function that receives a
  pointer and a length `n` processes the first `n` digits of the list it is given
  and returns the list with those digits updated; the caller puts the updated
  region back with `List.take off p ++ _`.
* Lengths and indices (`bigintlength`, and the `int` expressions `1 << k`,
  `length * 2`) are natural numbers.  The `long` shift `1L << k` of
  `getFittingExponent` and of the error test of `mbiMultiplikation` is given
  twice.  `shiftOne` is its value for a count below the width of `long`, where
  it is `2 ^ k`; the definitions built on it describe the source for operand
  lengths that a representable power of two reaches, and only such lengths
  occur in the statements about them.  `cShiftOne` also records that C leaves
  the shift undefined for any other count, and `getFittingExponentStrict` and
  `mbiMultiplikationStrict` follow the source with it.
* The schoolbook multiplier forms the product of two digits in a `long long` and
  reads it back as two digits.  The embedding takes `long long` to be exactly two
  digits wide with the low digit first, the platform the source is written for
  (32-bit `unsigned long`, 64-bit `long long`, little-endian).
* `assert` failures abort the program: functions containing assertions on
  computed data return `Option`, with `none` for an abort.
* Functions that index one array throughout (`mbiCompare2`, the digit shifts,
  `mbiGetNumericalLength`) receive the array as a whole list and read digit `i`
  with `List.getD`; writes are `List.set`.  In `mbiCompare2`, whose loops read
  `z[n-1]` before they test `n`, a read outside the array is `none`.
* The C shift operators are defined only for a count below the width of the
  type; `cShiftLeft` and `cShiftRight` return `none` for any other count.
-/

namespace BigIntMult

/-! ## Data model -/

/-- Value of a digit sequence in base `2 ^ w`, least-significant digit first. -/
def val (w : Nat) : List Nat → Nat
  | [] => 0
  | d :: ds => d + 2 ^ w * val w ds

/-- Every element of the list is a digit, that is a value of the `w`-bit type `bigint`. -/
def Digits (w : Nat) (z : List Nat) : Prop := ∀ d ∈ z, d < 2 ^ w

instance (w : Nat) (z : List Nat) : Decidable (Digits w z) :=
  inferInstanceAs (Decidable (∀ d ∈ z, d < 2 ^ w))

/-- Outcome of a carry-threading primitive: the updated destination digits, the flag left in
`*carry`, and the value returned by the function. -/
structure CarryOut where
  dest : List Nat
  carry : Bool
  ret : Bool
deriving DecidableEq

/-! ## Elementary operations -/

/-- Embeds `mbiCopy`: `for( i = 0; i < n; i++ ) dest[i] = src[i];` -/
def mbiCopy : Nat → List Nat → List Nat → List Nat
  | n + 1, _ :: dest, s :: src => s :: mbiCopy n dest src
  | _, dest, _ => dest

/-- Embeds `mbiSetZero`: `for( i = 0; i < n; i++ ) dest[i] = (bigint)0;` -/
def mbiSetZero : Nat → List Nat → List Nat
  | n + 1, _ :: dest => 0 :: mbiSetZero n dest
  | _, dest => dest

/-- Embeds `mbiCompare`: the loop runs `n` downwards and inspects digit `n-1`. -/
def mbiCompare : Nat → List Nat → List Nat → Int
  | 0, _, _ => 0
  | n + 1, z1, z2 =>
    if z1.getD n 0 > z2.getD n 0 then 1
    else if z2.getD n 0 > z1.getD n 0 then -1
    else mbiCompare n z1 z2

/-! ## Elementary arithmetic -/

/-- Loop of `mbiAdd`, one iteration per digit:
`dest[i] += add[i]; if( *carry ) dest[i]++;` followed by the update of `*carry`. -/
def mbiAddLoop (w : Nat) : Nat → List Nat → List Nat → Bool → List Nat × Bool
  | n + 1, d :: dest, a :: add, carry =>
    let d1 := (d + a) % 2 ^ w
    let d2 := if carry then (d1 + 1) % 2 ^ w else d1
    let carry' := (!carry && decide (a > d2)) || (carry && decide (a ≥ d2))
    let r := mbiAddLoop w n dest add carry'
    (d2 :: r.1, r.2)
  | _, dest, _, carry => (dest, carry)

/-- Embeds `mbiAdd( n, dest, add, carry )`; the function ends with `return *carry;`. -/
def mbiAdd (w n : Nat) (dest add : List Nat) (carry : Bool) : CarryOut :=
  let r := mbiAddLoop w n dest add carry
  ⟨r.1, r.2, r.2⟩

/-- Loop of `mbiCopyAdd`: `dest[i] = add1[i] + add2[i]; if( *carry ) dest[i]++;`
followed by the update of `*carry`, which compares `add2[i]` with the new digit. -/
def mbiCopyAddLoop (w : Nat) : Nat → List Nat → List Nat → List Nat → Bool → List Nat × Bool
  | n + 1, _ :: dest, a1 :: add1, a2 :: add2, carry =>
    let d1 := (a1 + a2) % 2 ^ w
    let d2 := if carry then (d1 + 1) % 2 ^ w else d1
    let carry' := (!carry && decide (a2 > d2)) || (carry && decide (a2 ≥ d2))
    let r := mbiCopyAddLoop w n dest add1 add2 carry'
    (d2 :: r.1, r.2)
  | _, dest, _, _, carry => (dest, carry)

/-- Embeds `mbiCopyAdd( n, dest, add1, add2, carry )`. -/
def mbiCopyAdd (w n : Nat) (dest add1 add2 : List Nat) (carry : Bool) : CarryOut :=
  let r := mbiCopyAddLoop w n dest add1 add2 carry
  ⟨r.1, r.2, r.2⟩

/-- Loop of `mbiInc` from `i = 1`: it runs while `*carry == true && i < n`; the first argument
is the number of digits left, `n - i`. -/
def mbiIncLoop (w : Nat) : Nat → List Nat → Bool → List Nat × Bool
  | m + 1, d :: dest, true =>
    let d' := (d + 1) % 2 ^ w
    let r := mbiIncLoop w m dest (if d' = 0 then true else false)
    (d' :: r.1, r.2)
  | _, dest, carry => (dest, carry)

/-- Embeds `mbiInc( n, dest, carry )`: `dest[0]++; if( dest[0] == 0 ) *carry = true;`, then the
loop from `i = 1`. -/
def mbiInc (w n : Nat) (dest : List Nat) (carry : Bool) : CarryOut :=
  match dest with
  | [] => ⟨[], carry, carry⟩
  | d :: rest =>
    let d' := (d + 1) % 2 ^ w
    let carry1 := if d' = 0 then true else carry
    let r := mbiIncLoop w (n - 1) rest carry1
    ⟨d' :: r.1, r.2, r.2⟩

/-- Loop of `mbiSub`: `z = dest[i]; z -= sub[i]; if( *carry ) z--;`, the update of `*carry`
comparing the old digit with `z`, then `dest[i] = z`. -/
def mbiSubLoop (w : Nat) : Nat → List Nat → List Nat → Bool → List Nat × Bool
  | n + 1, d :: dest, s :: sub, carry =>
    let z1 := (d + 2 ^ w - s % 2 ^ w) % 2 ^ w
    let z := if carry then (z1 + 2 ^ w - 1) % 2 ^ w else z1
    let carry' := (!carry && decide (d < z)) || (carry && decide (d ≤ z))
    let r := mbiSubLoop w n dest sub carry'
    (z :: r.1, r.2)
  | _, dest, _, carry => (dest, carry)

/-- Embeds `mbiSub( n, dest, sub, carry )`. -/
def mbiSub (w n : Nat) (dest sub : List Nat) (carry : Bool) : CarryOut :=
  let r := mbiSubLoop w n dest sub carry
  ⟨r.1, r.2, r.2⟩

/-! ## Schoolbook multiplication -/

/-- Body of the inner loop of `mbiNaivMultiplication` for the pair `(i, j)`, acting on the pair
`(p, overflows)`.  `w3 = w1*w2` is a `long long` of two digits, read back as the digit pair
`(bigint*)&w3`, low digit first; `mbiAdd( 2, p+(i+j), (bigint*)&w3, &carry )` adds it at offset
`i+j`, and `if(carry) overflows[i+j+2]++;` counts the escaping carry. -/
def naivStep (w : Nat) (a b : List Nat) (i j : Nat) (st : List Nat × List Nat) :
    List Nat × List Nat :=
  let w3 := (a.getD i 0 * b.getD j 0) % 2 ^ (2 * w)
  let r := mbiAdd w 2 (st.1.drop (i + j)) [w3 % 2 ^ w, w3 / 2 ^ w] false
  let p := st.1.take (i + j) ++ r.dest
  let overflows :=
    if r.carry then st.2.set (i + j + 2) ((st.2.getD (i + j + 2) 0 + 1) % 2 ^ w) else st.2
  (p, overflows)

/-- The two nested loops of `mbiNaivMultiplication` (`i` outer, `j` inner, both from `0` to
`length - 1`), started from the state `st`. -/
def naivLoops (w length : Nat) (a b : List Nat) (st : List Nat × List Nat) :
    List Nat × List Nat :=
  (List.range length).foldl
    (fun st i => (List.range length).foldl (fun st j => naivStep w a b i j st) st) st

/-- The part of `mbiNaivMultiplication` up to and including the final
`mbiAdd( 2*length, p, overflows, &carry )`: returns `p` and the carry that the subsequent
`assert(!carry)` inspects.  The `malloc`ed buffer `overflows` has `2*length` digits and is
zeroed by `mbiSetZero` before use. -/
def naivCore (w k : Nat) (p a b : List Nat) : List Nat × Bool :=
  let length := 2 ^ k
  let p := mbiSetZero (length * 2) p
  let overflows := mbiSetZero (length * 2) (List.replicate (length * 2) 0)
  let st := naivLoops w length a b (p, overflows)
  let r := mbiAdd w (2 * length) st.1 st.2 false
  (r.dest, r.carry)

/-- Embeds `mbiNaivMultiplication( k, p, a, b )`; `none` is the failure of `assert(!carry)`. -/
def mbiNaivMultiplication (w k : Nat) (p a b : List Nat) : Option (List Nat) :=
  let r := naivCore w k p a b
  if r.2 then none else some r.1

/-! ## Karatsuba multiplication -/

/-- First part of the recursive case of `mbiMultiply` (from "Calculate the two sums" to
`if( carrya && carryb ) overflow++;`), with `mult` standing for the recursive call
`mbiMultiply( k-1, ., ., . )`.  Returns the destination `p`, the `length`-digit array `heap`
and the counter `overflow`.  `heap` is an uninitialised local array in the source; it is
entered here as zeros and is wholly written by the recursive call. -/
def karatsubaCross (w k : Nat) (mult : List Nat → List Nat → List Nat → Option (List Nat))
    (p a b : List Nat) : Option (List Nat × List Nat × Nat) :=
  let length := 2 ^ k
  let al := a
  let bl := b
  let ah := a.drop (length / 2)
  let bh := b.drop (length / 2)
  let heap := List.replicate length 0
  let overflow := 0
  -- mbiCopyAdd( length/2, u4, al, ah, &carrya ) with u4 = p + length + length/2
  let ra := mbiCopyAdd w (length / 2) (p.drop (length + length / 2)) al ah false
  let p := p.take (length + length / 2) ++ ra.dest
  let carrya := ra.carry
  -- mbiCopyAdd( length/2, u1, bl, bh, &carryb ) with u1 = p
  let rb := mbiCopyAdd w (length / 2) p bl bh false
  let p := rb.dest
  let carryb := rb.carry
  -- mbiMultiply( k-1, aux1, u1, u4 ) with aux1 = heap
  match mult heap p (p.drop (length + length / 2)) with
  | none => none
  | some heap =>
    -- if( carryb ) mbiAdd( length/2, aux2, u4, &carryt ) with aux2 = heap + length/2
    let rt :=
      if carryb then
        mbiAdd w (length / 2) (heap.drop (length / 2)) (p.drop (length + length / 2)) false
      else ⟨heap.drop (length / 2), false, false⟩
    let heap := heap.take (length / 2) ++ rt.dest
    let overflow := if rt.carry then (overflow + 1) % 2 ^ w else overflow
    -- if( carrya ) mbiAdd( length/2, aux2, u1, &carryt )
    let rt :=
      if carrya then mbiAdd w (length / 2) (heap.drop (length / 2)) p false
      else ⟨heap.drop (length / 2), false, false⟩
    let heap := heap.take (length / 2) ++ rt.dest
    let overflow := if rt.carry then (overflow + 1) % 2 ^ w else overflow
    let overflow := if carrya && carryb then (overflow + 1) % 2 ^ w else overflow
    some (p, heap, overflow)

/-- Second part of the recursive case of `mbiMultiply` (from "Calculate albl" to
`if( carryq ) overflow++;`): the two products written into the destination, the two
subtractions from `heap`, and the addition of `heap` at `u2 = p + length/2`.  Returns the
destination and the counter `overflow`, an unsigned digit, as it stands before the final
`if( overflow == 1 ) ... else if( overflow == 2 ) ...`. -/
def karatsubaMerge (w k : Nat) (mult : List Nat → List Nat → List Nat → Option (List Nat))
    (p a b heap : List Nat) (overflow : Nat) : Option (List Nat × Nat) :=
  let length := 2 ^ k
  let al := a
  let bl := b
  let ah := a.drop (length / 2)
  let bh := b.drop (length / 2)
  -- mbiMultiply( k-1, albl, al, bl ) with albl = u1 = p
  match mult p al bl with
  | none => none
  | some p =>
    -- mbiMultiply( k-1, ahbh, ah, bh ) with ahbh = u3 = p + length
    match mult (p.drop length) ah bh with
    | none => none
    | some u3 =>
      let p := p.take length ++ u3
      -- mbiSub( length, heap, albl, &carrys )
      let rs := mbiSub w length heap p false
      let heap := rs.dest
      let overflow := if rs.carry then (overflow + 2 ^ w - 1) % 2 ^ w else overflow
      -- mbiSub( length, heap, ahbh, &carrys )
      let rs := mbiSub w length heap (p.drop length) false
      let heap := rs.dest
      let overflow := if rs.carry then (overflow + 2 ^ w - 1) % 2 ^ w else overflow
      -- mbiAdd( length, u2, heap, &carryq ) with u2 = p + length/2
      let rq := mbiAdd w length (p.drop (length / 2)) heap false
      let p := p.take (length / 2) ++ rq.dest
      let overflow := if rq.carry then (overflow + 1) % 2 ^ w else overflow
      some (p, overflow)

/-- Last part of the recursive case of `mbiMultiply`: the increments of
`u4 = p + length + length/2` selected by `overflow == 1` and `overflow == 2`. -/
def karatsubaApply (w k : Nat) (p : List Nat) (overflow : Nat) : List Nat :=
  let length := 2 ^ k
  if overflow = 1 then
    p.take (length + length / 2) ++
      (mbiInc w (length / 2) (p.drop (length + length / 2)) false).dest
  else if overflow = 2 then
    let p := p.take (length + length / 2) ++
      (mbiInc w (length / 2) (p.drop (length + length / 2)) false).dest
    p.take (length + length / 2) ++
      (mbiInc w (length / 2) (p.drop (length + length / 2)) false).dest
  else p

/-- Recursive case of `mbiMultiply` for exponent `k`, with `mult` the function called for
exponent `k-1`. -/
def karatsubaStep (w k : Nat) (mult : List Nat → List Nat → List Nat → Option (List Nat))
    (p a b : List Nat) : Option (List Nat) :=
  match karatsubaCross w k mult p a b with
  | none => none
  | some (p, heap, overflow) =>
    match karatsubaMerge w k mult p a b heap overflow with
    | none => none
    | some (p, overflow) => some (karatsubaApply w k p overflow)

/-- Embeds `mbiMultiply( k, p, a, b )`: the schoolbook method for `k <= 5`, the recursive case
otherwise. -/
def mbiMultiply (w : Nat) : Nat → List Nat → List Nat → List Nat → Option (List Nat)
  | 0, p, a, b => mbiNaivMultiplication w 0 p a b
  | k + 1, p, a, b =>
    if k + 1 ≤ 5 then mbiNaivMultiplication w (k + 1) p a b
    else karatsubaStep w (k + 1) (mbiMultiply w k) p a b

/-! ## Arbitrary-length wrapper -/

/-- The value of `(bigintlength)(1L << k)` for a count `k` below the width `w` of `long`,
where it is `2 ^ k`.  For any other count C leaves the shift undefined (see `cShiftOne`);
the expression below is `0` there, a value that stands for nothing the source computes. -/
def shiftOne (w k : Nat) : Nat := 2 ^ k % 2 ^ w

/-- Loop of `getFittingExponent`:
`while ( (bigintlength)(1L<<k) < n && k <= (bigintexpo)254 ) k++;`.
The first argument bounds the number of iterations. -/
def getFittingExponentLoop (w n : Nat) : Nat → Nat → Nat
  | 0, k => k
  | fuel + 1, k =>
    if shiftOne w k < n ∧ k ≤ 254 then getFittingExponentLoop w n fuel (k + 1) else k

/-- Embeds `getFittingExponent( n )`.  The loop leaves at the latest when `k` reaches 255, so
256 iterations are never exhausted. -/
def getFittingExponent (w n : Nat) : Nat := getFittingExponentLoop w n 256 0

/-- Outcome of `mbiMultiplikation`: the destination digits and whether the error message
"Error: Summands are to long" was printed. -/
structure MultOut where
  dest : List Nat
  error : Bool
deriving DecidableEq

/-- Embeds `mbiMultiplikation( dest, n1, fak1, n2, fak2 )`.  The `calloc`ed block holds
`(1<<k)*4` zero digits: the result area `tempdest` of `2 * 2^k` digits, then `tempfak1` and
`tempfak2` of `2^k` digits each. -/
def mbiMultiplikation (w : Nat) (dest : List Nat) (n1 : Nat) (fak1 : List Nat) (n2 : Nat)
    (fak2 : List Nat) : Option MultOut :=
  let nmax := if n1 > n2 then n1 else n2
  let k := getFittingExponent w nmax
  if shiftOne w k = 0 then some ⟨dest, true⟩
  else
    let tempdest := List.replicate (2 ^ k * 4) 0
    -- mbiCopy( n1, tempfak1, fak1 ) with tempfak1 = tempdest + (1<<k)*2
    let tempdest := tempdest.take (2 ^ k * 2) ++ mbiCopy n1 (tempdest.drop (2 ^ k * 2)) fak1
    -- mbiCopy( n2, tempfak2, fak2 ) with tempfak2 = tempdest + (1<<k)*3
    let tempdest := tempdest.take (2 ^ k * 3) ++ mbiCopy n2 (tempdest.drop (2 ^ k * 3)) fak2
    match mbiMultiply w k tempdest (tempdest.drop (2 ^ k * 2)) (tempdest.drop (2 ^ k * 3)) with
    | none => none
    | some tempdest => some ⟨mbiCopy (n1 + n2) dest tempdest, false⟩

/-! ## Comparison of operands of different lengths, shifts, numerical length -/

/-- Zero-stripping loop of `mbiCompare2`, `while( z[n-1] == 0 && n > lo ) n--;`, started at
length `n`; the result is the length at which the loop stops.  The test reads `z[n-1]` before
it compares the lengths; `none` stands for a read outside the array `z` (for `n = 0` the
index `n-1` is not an index of the array). -/
def mbiCompare2Strip (z : List Nat) (lo : Nat) : Nat → Option Nat
  | 0 => none
  | n + 1 =>
    match z[n]? with
    | none => none
    | some d => if d = 0 ∧ n + 1 > lo then mbiCompare2Strip z lo n else some (n + 1)

/-- Final loop of `mbiCompare2`, the comparison of the digits `n1-1` down to `0`; `none`
stands for a read outside one of the arrays. -/
def mbiCompare2Loop (z1 z2 : List Nat) : Nat → Option Int
  | 0 => some 0
  | n + 1 =>
    match z1[n]?, z2[n]? with
    | some d1, some d2 =>
      if d1 > d2 then some 1
      else if d2 > d1 then some (-1)
      else mbiCompare2Loop z1 z2 n
    | _, _ => none

/-- Embeds `mbiCompare2( n1, z1, n2, z2 )`; here the lists `z1` and `z2` are the whole
arrays, and `none` stands for a read outside them. -/
def mbiCompare2 (n1 : Nat) (z1 : List Nat) (n2 : Nat) (z2 : List Nat) : Option Int :=
  let stripped : Option (Nat × Nat) :=
    if n1 > n2 then (mbiCompare2Strip z1 n2 n1).map (fun m => (m, n2))
    else if n2 > n1 then (mbiCompare2Strip z2 n1 n2).map (fun m => (n1, m))
    else some (n1, n2)
  match stripped with
  | none => none
  | some (m1, m2) =>
    if m1 > m2 then some 1
    else if m2 > m1 then some (-1)
    else mbiCompare2Loop z1 z2 m1

/-- Loop of `mbiLeftShift`, `for( i = n-r; i > 0; i-- ) z[r+i-1] = z[i-1];`; the first
argument is the loop variable `i`. -/
def mbiLeftShiftLoop (r : Nat) : Nat → List Nat → List Nat
  | 0, z => z
  | i + 1, z => mbiLeftShiftLoop r i (z.set (r + i) (z.getD i 0))

/-- Embeds `mbiLeftShift( n, z, r )` for `r <= n` (for larger `r` the unsigned difference
`n-r` of the source wraps, which natural-number subtraction does not show). -/
def mbiLeftShift (n : Nat) (z : List Nat) (r : Nat) : List Nat :=
  mbiSetZero r (mbiLeftShiftLoop r (n - r) z)

/-- Loop of `mbiRightShift`, `for( i = r; i < n; i++ ) z[i-r] = z[i];`; the first argument is
the number of iterations left, `n - i`, the second the loop variable `i`. -/
def mbiRightShiftLoop (r : Nat) : Nat → Nat → List Nat → List Nat
  | 0, _, z => z
  | m + 1, i, z => mbiRightShiftLoop r m (i + 1) (z.set (i - r) (z.getD i 0))

/-- Embeds `mbiRightShift( n, z, r, setzero )`; `none` is the failure of
`assert( r <= n )`.  The last statement is `mbiSetZero( r, z + n - r )`. -/
def mbiRightShift (n : Nat) (z : List Nat) (r : Nat) (setzero : Bool) : Option (List Nat) :=
  if r ≤ n then
    let z := mbiRightShiftLoop r (n - r) r z
    if setzero then some (z.take (n - r) ++ mbiSetZero r (z.drop (n - r))) else some z
  else none

/-- First loop of `mbiGetNumericalLength`: `*bytes` runs from `n` downwards past the zero
digits `z[*bytes-1]`. -/
def numericalBytes (z : List Nat) : Nat → Nat
  | 0 => 0
  | m + 1 => if z.getD m 0 = 0 then numericalBytes z m else m + 1

/-- Second loop of `mbiGetNumericalLength`,
`for( ; t != 0; t /= 2, (*bits)-- ) if( ( z[*bytes-1] & t ) != 0 ) break;`, for the digit
`d = z[*bytes-1]`.  The first argument bounds the number of iterations; `*bits` is an
`unsigned long`, so the decrement is taken modulo `2 ^ w`. -/
def numericalBitsLoop (w d : Nat) : Nat → Nat → Nat → Nat
  | 0, _, bits => bits
  | fuel + 1, t, bits =>
    if t ≠ 0 then
      if d &&& t ≠ 0 then bits
      else numericalBitsLoop w d fuel (t / 2) ((bits + 2 ^ w - 1) % 2 ^ w)
    else bits

/-- Embeds `mbiGetNumericalLength( n, z, bytes, bits )`, returning the pair
`(*bytes, *bits)`; `w` is `sizeof(bigint)*8`.  `t` starts as `((bigint)1) << (w-1)` and is
halved at most `w` times, so `w + 1` iterations are never exhausted; `none` is the failure of
`assert( *bits <= 8*sizeof(bigint) )`. -/
def mbiGetNumericalLength (w n : Nat) (z : List Nat) : Option (Nat × Nat) :=
  let bytes := numericalBytes z n
  if bytes = 0 then some (0, 0)
  else
    let bits := numericalBitsLoop w (z.getD (bytes - 1) 0) (w + 1) (2 ^ (w - 1) % 2 ^ w) w
    if bits ≤ w then some (bytes, bits) else none

/-! ## Subtraction into a separate destination -/

/-- Loop of `mbiCopySub`: `z = add1[i]; z -= add2[i]; if( *carry ) z--;`, the update of
`*carry` comparing `add1[i]` with `z`, then `dest[i] = z`. -/
def mbiCopySubLoop (w : Nat) : Nat → List Nat → List Nat → List Nat → Bool → List Nat × Bool
  | n + 1, _ :: dest, a1 :: add1, a2 :: add2, carry =>
    let z1 := (a1 + 2 ^ w - a2 % 2 ^ w) % 2 ^ w
    let z := if carry then (z1 + 2 ^ w - 1) % 2 ^ w else z1
    let carry' := (!carry && decide (a1 < z)) || (carry && decide (a1 ≤ z))
    let r := mbiCopySubLoop w n dest add1 add2 carry'
    (z :: r.1, r.2)
  | _, dest, _, _, carry => (dest, carry)

/-- Embeds `mbiCopySub( n, dest, add1, add2, carry )` for a destination that shares no
memory with the operands. -/
def mbiCopySub (w n : Nat) (dest add1 add2 : List Nat) (carry : Bool) : CarryOut :=
  let r := mbiCopySubLoop w n dest add1 add2 carry
  ⟨r.1, r.2, r.2⟩

/-- Loop of `mbiCopySub` for the call in which `add1` and `dest` are the same array: each
read of `add1[i]` is a read of the digit `dest[i]`, which the iteration overwrites only in
its last statement `dest[i] = z`. -/
def mbiCopySubInPlaceLoop (w : Nat) : Nat → List Nat → List Nat → Bool → List Nat × Bool
  | n + 1, d :: dest, a2 :: add2, carry =>
    let z1 := (d + 2 ^ w - a2 % 2 ^ w) % 2 ^ w
    let z := if carry then (z1 + 2 ^ w - 1) % 2 ^ w else z1
    let carry' := (!carry && decide (d < z)) || (carry && decide (d ≤ z))
    let r := mbiCopySubInPlaceLoop w n dest add2 carry'
    (z :: r.1, r.2)
  | _, dest, _, carry => (dest, carry)

/-- Embeds the call `mbiCopySub( n, dest, dest, add2, carry )`, the minuend being the
destination itself. -/
def mbiCopySubInPlace (w n : Nat) (dest add2 : List Nat) (carry : Bool) : CarryOut :=
  let r := mbiCopySubInPlaceLoop w n dest add2 carry
  ⟨r.1, r.2, r.2⟩

/-! ## Schoolbook multiplication with a local overflow buffer -/

/-- The part of `mbiNaivMultiplicationRestricted` between its two leading assertions and its
final `assert(!carry)`.  `overflows0` is the initial content of the local array
`bigint overflows[256]`, which the source leaves uninitialised; its first `2*length` digits
are zeroed by `mbiSetZero` before use. -/
def naivRestrictedCore (w k : Nat) (overflows0 p a b : List Nat) : List Nat × Bool :=
  let length := 2 ^ k
  let p := mbiSetZero (length * 2) p
  let overflows := mbiSetZero (length * 2) overflows0
  let st := naivLoops w length a b (p, overflows)
  let r := mbiAdd w (2 * length) st.1 st.2 false
  (r.dest, r.carry)

/-- Embeds `mbiNaivMultiplicationRestricted( k, p, a, b )`; `none` is the failure of one of
`assert( k <= 7 )`, `assert( length <= 128 )` and `assert(!carry)`.  The uninitialised local
array `overflows` is entered as 256 zeros. -/
def mbiNaivMultiplicationRestricted (w k : Nat) (p a b : List Nat) : Option (List Nat) :=
  if k ≤ 7 then
    if 2 ^ k ≤ 128 then
      let r := naivRestrictedCore w k (List.replicate 256 0) p a b
      if r.2 then none else some r.1
    else none
  else none

/-! ## The overflow counter of the Karatsuba multiplication -/

/-- The recursive case of `mbiMultiply` up to the point where the counter `overflow` is
applied: the destination and the counter as they stand before
`if( overflow == 1 ) ... else if( overflow == 2 ) ...`. -/
def karatsubaCounter (w k : Nat) (mult : List Nat → List Nat → List Nat → Option (List Nat))
    (p a b : List Nat) : Option (List Nat × Nat) :=
  match karatsubaCross w k mult p a b with
  | none => none
  | some (p, heap, overflow) => karatsubaMerge w k mult p a b heap overflow

/-- The value of a `w`-bit unsigned digit read as a signed (two's complement) number. -/
def signedValue (w x : Nat) : Int :=
  if 2 * x < 2 ^ w then (x : Int) else (x : Int) - (2 : Int) ^ w

/-! ## Shifts by bits -/

/-- The C operator `x << r` on an `unsigned long` of `w` bits.  C defines the result only
for a count below the width of the type; `none` stands for a count that is not. -/
def cShiftLeft (w x r : Nat) : Option Nat :=
  if r < w then some (x * 2 ^ r % 2 ^ w) else none

/-- The C operator `x >> r` on an `unsigned long` of `w` bits; `none` stands for a count
that is not below the width of the type. -/
def cShiftRight (w x r : Nat) : Option Nat :=
  if r < w then some (x / 2 ^ r) else none

/-- Loop of `mbiBitRightShift` on the digits from `z + i` on, the first argument being
`n - i`: `z[i] = z[i] >> r`, and, if `i+1 < n`, `mem = maske & z[i+1]`,
`mem = mem << (sizeof(bigint)*8-r)`, `z[i] |= mem`. -/
def mbiBitRightShiftLoop (w r maske : Nat) : Nat → List Nat → Option (List Nat)
  | m + 2, d :: d1 :: rest =>
    match cShiftRight w d r, cShiftLeft w (maske &&& d1) (w - r) with
    | some x, some mem =>
      (mbiBitRightShiftLoop w r maske (m + 1) (d1 :: rest)).map (fun t => (x ||| mem) :: t)
    | _, _ => none
  | 1, d :: rest =>
    match cShiftRight w d r with
    | some x => some (x :: rest)
    | none => none
  | _, z => some z

/-- Embeds `mbiBitRightShift( n, z, r, setzero )`; `w` is `8*sizeof(bigint)`.  `none` stands
for the failure of an assertion (`r <= n` in `mbiRightShift`, `r <= 8*sizeof(bigint)`) or for
a shift whose count is not below the width of the type.  `maske` is computed as
`~( ~0 << r )`. -/
def mbiBitRightShift (w n : Nat) (z : List Nat) (r : Nat) (setzero : Bool) :
    Option (List Nat) :=
  let shifted : Option (List Nat × Nat) :=
    if r > w then (mbiRightShift n z (r / w) setzero).map (fun z => (z, r % w))
    else some (z, r)
  match shifted with
  | none => none
  | some (z, r) =>
    if r ≤ w then
      match cShiftLeft w (2 ^ w - 1) r with
      | none => none
      | some m => mbiBitRightShiftLoop w r (2 ^ w - 1 - m) n z
    else none

/-! ## Intermediate states -/

/-- The block `tempdest` of `mbiMultiplikation` as it stands after the call of
`mbiMultiply`, before `mbiCopy( n1+n2, dest, tempdest )`: its first `2 * 2^k` digits are the
result area.  `none` stands for the error return and for an abort. -/
def mbiMultiplikationTemp (w : Nat) (n1 : Nat) (fak1 : List Nat) (n2 : Nat)
    (fak2 : List Nat) : Option (List Nat) :=
  let nmax := if n1 > n2 then n1 else n2
  let k := getFittingExponent w nmax
  if shiftOne w k = 0 then none
  else
    let tempdest := List.replicate (2 ^ k * 4) 0
    let tempdest := tempdest.take (2 ^ k * 2) ++ mbiCopy n1 (tempdest.drop (2 ^ k * 2)) fak1
    let tempdest := tempdest.take (2 ^ k * 3) ++ mbiCopy n2 (tempdest.drop (2 ^ k * 3)) fak2
    mbiMultiply w k tempdest (tempdest.drop (2 ^ k * 2)) (tempdest.drop (2 ^ k * 3))

/-- The pair `(p, overflows)` of the schoolbook multiplication on entry to the iteration
`(i, j)` of the two nested loops, started from the pair `st`: the rows `0 .. i-1` and the
columns `0 .. j-1` of row `i` have been accumulated. -/
def naivStateAt (w length : Nat) (a b : List Nat) (st : List Nat × List Nat) (i j : Nat) :
    List Nat × List Nat :=
  (List.range j).foldl (fun st j => naivStep w a b i j st)
    ((List.range i).foldl
      (fun st i => (List.range length).foldl (fun st j => naivStep w a b i j st) st) st)

/-- The carry returned by `mbiAdd( 2, p+i+j, w1, &carry )` in the iteration `(i, j)` of the
schoolbook multiplication, entered with the pair `st`. -/
def naivCarry (w : Nat) (a b : List Nat) (i j : Nat) (st : List Nat × List Nat) : Bool :=
  let w3 := (a.getD i 0 * b.getD j 0) % 2 ^ (2 * w)
  (mbiAdd w 2 (st.1.drop (i + j)) [w3 % 2 ^ w, w3 / 2 ^ w] false).carry

/-! ## The exponent test with the shift as C defines it -/

/-- The expression `(bigintlength)(1L << k)` as C defines it: `2^k` for a count below the
width `w` of `long` (for `k = w - 1` the bit pattern of `2^(w-1)`, which the cast reads as
`2^(w-1)`); `none` stands for a count that is not below the width, for which the shift is
undefined. -/
def cShiftOne (w k : Nat) : Option Nat := cShiftLeft w 1 k

/-- Loop of `getFittingExponent`,
`while ( (bigintlength)(1L<<k) < n && k <= (bigintexpo)254 ) k++;`, with the shift as C
defines it.  The shift is the left operand of `&&` and is evaluated in every test of the
condition, before `k <= 254`; `none` stands for a test that evaluates an undefined shift.
The first argument bounds the number of iterations. -/
def getFittingExponentLoopStrict (w n : Nat) : Nat → Nat → Option Nat
  | 0, k => some k
  | fuel + 1, k =>
    match cShiftOne w k with
    | none => none
    | some s =>
      if s < n ∧ k ≤ 254 then getFittingExponentLoopStrict w n fuel (k + 1) else some k

/-- Embeds `getFittingExponent( n )` with the shift as C defines it. -/
def getFittingExponentStrict (w n : Nat) : Option Nat := getFittingExponentLoopStrict w n 256 0

/-- Embeds `mbiMultiplikation( dest, n1, fak1, n2, fak2 )` with the shifts `1L<<k` of
`getFittingExponent` and of the error test `(1L<<k) == 0` as C defines them; `none` stands
for an undefined shift or an abort. -/
def mbiMultiplikationStrict (w : Nat) (dest : List Nat) (n1 : Nat) (fak1 : List Nat)
    (n2 : Nat) (fak2 : List Nat) : Option MultOut :=
  let nmax := if n1 > n2 then n1 else n2
  match getFittingExponentStrict w nmax with
  | none => none
  | some k =>
    match cShiftOne w k with
    | none => none
    | some s =>
      if s = 0 then some ⟨dest, true⟩
      else
        let tempdest := List.replicate (2 ^ k * 4) 0
        let tempdest := tempdest.take (2 ^ k * 2) ++ mbiCopy n1 (tempdest.drop (2 ^ k * 2)) fak1
        let tempdest := tempdest.take (2 ^ k * 3) ++ mbiCopy n2 (tempdest.drop (2 ^ k * 3)) fak2
        match mbiMultiply w k tempdest (tempdest.drop (2 ^ k * 2))
            (tempdest.drop (2 ^ k * 3)) with
        | none => none
        | some tempdest => some ⟨mbiCopy (n1 + n2) dest tempdest, false⟩

/-! ## Contracts -/

/-- Contract of a multiplication routine for operands of `h` digits: called on a destination
of at least `2*h` digits and operands of at least `h` digits it returns, the first `2*h`
digits of the destination hold the product of the first `h` digits of the operands, and the
remaining digits of the destination are untouched. -/
def MultSpec (w h : Nat) (mult : List Nat → List Nat → List Nat → Option (List Nat)) : Prop :=
  ∀ p a b, 2 * h ≤ p.length → h ≤ a.length → h ≤ b.length →
    Digits w p → Digits w a → Digits w b →
    ∃ q, q.length = 2 * h ∧ Digits w q ∧ mult p a b = some (q ++ p.drop (2 * h)) ∧
      val w q = val w (a.take h) * val w (b.take h)

/-! # Proofs -/

/-! ## Digit sequences and their values -/

theorem val_append (w : Nat) (xs ys : List Nat) :
    val w (xs ++ ys) = val w xs + (2 ^ w) ^ xs.length * val w ys := by
  induction xs with
  | nil => simp [val]
  | cons x xs ih =>
    show x + 2 ^ w * val w (xs ++ ys)
      = (x + 2 ^ w * val w xs) + (2 ^ w) ^ (xs.length + 1) * val w ys
    rw [ih, pow_succ]
    ring

theorem val_replicate_zero (w n : Nat) : val w (List.replicate n 0) = 0 := by
  induction n with
  | zero => rfl
  | succ n ih => simp [List.replicate_succ, val, ih]

theorem Digits.nil (w : Nat) : Digits w [] := by
  intro d hd; simp at hd

theorem Digits.cons {w d : Nat} {z : List Nat} (hd : d < 2 ^ w) (hz : Digits w z) :
    Digits w (d :: z) := by
  intro x hx
  rcases List.mem_cons.mp hx with h | h
  · exact h ▸ hd
  · exact hz x h

theorem Digits.head {w d : Nat} {z : List Nat} (h : Digits w (d :: z)) : d < 2 ^ w :=
  h d (List.mem_cons_self d z)

theorem Digits.tail {w d : Nat} {z : List Nat} (h : Digits w (d :: z)) : Digits w z :=
  fun x hx => h x (List.mem_cons_of_mem d hx)

theorem Digits.append {w : Nat} {xs ys : List Nat} (hx : Digits w xs) (hy : Digits w ys) :
    Digits w (xs ++ ys) := by
  intro d hd
  rcases List.mem_append.mp hd with h | h
  · exact hx d h
  · exact hy d h

theorem Digits.left {w : Nat} {xs ys : List Nat} (h : Digits w (xs ++ ys)) : Digits w xs :=
  fun d hd => h d (List.mem_append_left ys hd)

theorem Digits.right {w : Nat} {xs ys : List Nat} (h : Digits w (xs ++ ys)) : Digits w ys :=
  fun d hd => h d (List.mem_append_right xs hd)

theorem Digits.take {w : Nat} {z : List Nat} (h : Digits w z) (n : Nat) : Digits w (z.take n) :=
  fun d hd => h d (List.mem_of_mem_take hd)

theorem Digits.drop {w : Nat} {z : List Nat} (h : Digits w z) (n : Nat) : Digits w (z.drop n) :=
  fun d hd => h d (List.mem_of_mem_drop hd)

theorem Digits.replicate_zero (w n : Nat) : Digits w (List.replicate n 0) := by
  intro d hd
  rw [List.eq_of_mem_replicate hd]
  exact Nat.two_pow_pos w

theorem Digits.getD {w : Nat} {z : List Nat} (h : Digits w z) (i : Nat) : z.getD i 0 < 2 ^ w := by
  rw [List.getD_eq_getElem?_getD]
  rcases Nat.lt_or_ge i z.length with hi | hi
  · rw [List.getElem?_eq_getElem hi]
    exact h _ (List.getElem_mem hi)
  · rw [List.getElem?_eq_none hi]
    exact Nat.two_pow_pos w

/-- A sequence of `n` digits has a value below `B ^ n`. -/
theorem val_lt {w : Nat} {z : List Nat} (h : Digits w z) : val w z < (2 ^ w) ^ z.length := by
  induction z with
  | nil => simp [val]
  | cons d z ih =>
    have hd := h.head
    have hz := ih h.tail
    simp only [val, List.length_cons, pow_succ]
    calc d + 2 ^ w * val w z < 2 ^ w + 2 ^ w * val w z := by omega
      _ = 2 ^ w * (val w z + 1) := by ring
      _ ≤ 2 ^ w * (2 ^ w) ^ z.length := Nat.mul_le_mul_left _ hz
      _ = (2 ^ w) ^ z.length * 2 ^ w := by ring

/-- Two sequences of digits of the same length and the same value are equal. -/
theorem val_inj {w : Nat} : ∀ {xs ys : List Nat}, Digits w xs → Digits w ys →
    xs.length = ys.length → val w xs = val w ys → xs = ys
  | [], [], _, _, _, _ => rfl
  | [], _ :: _, _, _, hl, _ => by simp at hl
  | _ :: _, [], _, _, hl, _ => by simp at hl
  | x :: xs, y :: ys, hx, hy, hl, hv => by
    have hB : 0 < 2 ^ w := Nat.two_pow_pos w
    simp only [val] at hv
    have h1 : (x + 2 ^ w * val w xs) % 2 ^ w = (y + 2 ^ w * val w ys) % 2 ^ w := by rw [hv]
    rw [Nat.add_mul_mod_self_left, Nat.add_mul_mod_self_left, Nat.mod_eq_of_lt hx.head,
      Nat.mod_eq_of_lt hy.head] at h1
    subst h1
    have h2 : val w xs = val w ys := by
      have := Nat.add_left_cancel hv
      exact Nat.eq_of_mul_eq_mul_left hB this
    have hl' : xs.length = ys.length := by simpa using hl
    rw [val_inj hx.tail hy.tail hl' h2]

theorem val_take_add_drop (w : Nat) (z : List Nat) (n : Nat) :
    val w (z.take n) + (2 ^ w) ^ (z.take n).length * val w (z.drop n) = val w z := by
  rw [← val_append, List.take_append_drop]

/-- The value of the first `n+1` digits in terms of the first `n` and digit `n`. -/
theorem val_take_succ (w : Nat) (z : List Nat) (n : Nat) :
    val w (z.take (n + 1)) = val w (z.take n) + (2 ^ w) ^ n * z.getD n 0 := by
  induction z generalizing n with
  | nil => simp [val]
  | cons d z ih =>
    cases n with
    | zero => simp [val]
    | succ n =>
      simp only [List.take_succ_cons, val, ih n, List.getD_cons_succ, pow_succ]
      ring

/-! ## `mbiCopy` and `mbiSetZero` -/

theorem mbiSetZero_eq (n : Nat) (dest : List Nat) (h : n ≤ dest.length) :
    mbiSetZero n dest = List.replicate n 0 ++ dest.drop n := by
  induction n generalizing dest with
  | zero => cases dest <;> simp [mbiSetZero]
  | succ n ih =>
    cases dest with
    | nil => simp at h
    | cons d dest =>
      simp only [List.length_cons, Nat.add_le_add_iff_right] at h
      simp [mbiSetZero, ih dest h, List.replicate_succ]

theorem mbiCopy_eq (n : Nat) (dest src : List Nat) (h : n ≤ dest.length) (hs : n ≤ src.length) :
    mbiCopy n dest src = src.take n ++ dest.drop n := by
  induction n generalizing dest src with
  | zero => cases dest <;> simp [mbiCopy]
  | succ n ih =>
    cases dest with
    | nil => simp at h
    | cons d dest =>
      cases src with
      | nil => simp at hs
      | cons s src =>
        simp only [List.length_cons, Nat.add_le_add_iff_right] at h hs
        simp [mbiCopy, ih dest src h hs]

/-! ## Single-digit arithmetic -/

theorem mod_two_cases (x B : Nat) (h : x < 2 * B) :
    (x < B ∧ x % B = x) ∨ (B ≤ x ∧ x % B = x - B) := by
  rcases Nat.lt_or_ge x B with h1 | h1
  · exact Or.inl ⟨h1, Nat.mod_eq_of_lt h1⟩
  · refine Or.inr ⟨h1, ?_⟩
    rw [Nat.mod_eq_sub_mod h1, Nat.mod_eq_of_lt (by omega)]

theorem toNat_decide (p : Prop) [Decidable p] : (decide p).toNat = if p then 1 else 0 := by
  by_cases h : p <;> simp [h]

/-- One iteration of the addition loops: the new digit and the new carry add up to the sum of
the two digits and the old carry. -/
theorem add_digit (B d a : Nat) (c : Bool) (hd : d < B) (ha : a < B) :
    (if c then ((d + a) % B + 1) % B else (d + a) % B) < B ∧
    (if c then ((d + a) % B + 1) % B else (d + a) % B) +
      ((!c && decide (a > (if c then ((d + a) % B + 1) % B else (d + a) % B))) ||
        (c && decide (a ≥ (if c then ((d + a) % B + 1) % B else (d + a) % B)))).toNat * B
      = d + a + c.toNat := by
  rcases mod_two_cases (d + a) B (by omega) with ⟨h1, h2⟩ | ⟨h1, h2⟩
  · rw [h2]
    rcases mod_two_cases (d + a + 1) B (by omega) with ⟨h3, h4⟩ | ⟨h3, h4⟩ <;>
    · rw [h4]
      cases c <;>
        simp only [Bool.false_eq_true, if_false, if_true, Bool.not_false, Bool.not_true,
          Bool.true_and, Bool.false_and, Bool.or_false, Bool.false_or, Bool.toNat_false,
          Bool.toNat_true, toNat_decide] <;>
        split_ifs <;> omega
  · rw [h2]
    have h5 : (d + a - B + 1) % B = d + a - B + 1 := Nat.mod_eq_of_lt (by omega)
    rw [h5]
    cases c <;>
      simp only [Bool.false_eq_true, if_false, if_true, Bool.not_false, Bool.not_true,
        Bool.true_and, Bool.false_and, Bool.or_false, Bool.false_or, Bool.toNat_false,
        Bool.toNat_true, toNat_decide] <;>
      split_ifs <;> omega

/-- One iteration of the subtraction loops: the new digit and the new borrow. -/
theorem sub_digit (B d s : Nat) (c : Bool) (hd : d < B) (hs : s < B) :
    (if c then ((d + B - s % B) % B + B - 1) % B else (d + B - s % B) % B) < B ∧
    (if c then ((d + B - s % B) % B + B - 1) % B else (d + B - s % B) % B) + s + c.toNat
      = d + ((!c && decide (d < (if c then ((d + B - s % B) % B + B - 1) % B
                else (d + B - s % B) % B))) ||
          (c && decide (d ≤ (if c then ((d + B - s % B) % B + B - 1) % B
                else (d + B - s % B) % B)))).toNat * B := by
  have hs' : s % B = s := Nat.mod_eq_of_lt hs
  rw [hs']
  rcases mod_two_cases (d + B - s) B (by omega) with ⟨h1, h2⟩ | ⟨h1, h2⟩
  · rw [h2]
    rcases mod_two_cases (d + B - s + B - 1) B (by omega) with ⟨h3, h4⟩ | ⟨h3, h4⟩ <;>
    · rw [h4]
      cases c <;>
        simp only [Bool.false_eq_true, if_false, if_true, Bool.not_false, Bool.not_true,
          Bool.true_and, Bool.false_and, Bool.or_false, Bool.false_or, Bool.toNat_false,
          Bool.toNat_true, toNat_decide] <;>
        split_ifs <;> omega
  · rw [h2]
    rcases mod_two_cases (d + B - s - B + B - 1) B (by omega) with ⟨h3, h4⟩ | ⟨h3, h4⟩ <;>
    · rw [h4]
      cases c <;>
        simp only [Bool.false_eq_true, if_false, if_true, Bool.not_false, Bool.not_true,
          Bool.true_and, Bool.false_and, Bool.or_false, Bool.false_or, Bool.toNat_false,
          Bool.toNat_true, toNat_decide] <;>
        split_ifs <;> omega

/-! ## The carry-threading loops -/

/-- Chaining a digit step with the rest of an addition. -/
theorem carry_chain {B P x X t y Y z Z u cc : Nat} (h4 : X + t * P = Y + Z + cc)
    (heq : x + cc * B = y + z + u) :
    x + B * X + t * (P * B) = y + B * Y + (z + B * Z) + u := by
  have e1 : x + B * X + t * (P * B) = x + B * (X + t * P) := by ring
  have e2 : x + B * (Y + Z + cc) = (x + cc * B) + B * (Y + Z) := by ring
  rw [e1, h4, e2, heq]
  ring

/-- Chaining a digit step with the rest of a subtraction. -/
theorem borrow_chain {B P x X t y Y z Z u cc : Nat} (h4 : X + Z + cc = Y + t * P)
    (heq : x + z + u = y + cc * B) :
    x + B * X + (z + B * Z) + u = y + B * Y + t * (P * B) := by
  have e1 : x + B * X + (z + B * Z) + u = (x + z + u) + B * (X + Z) := by ring
  have e2 : y + cc * B + B * (X + Z) = y + B * (X + Z + cc) := by ring
  rw [e1, heq, e2, h4]
  ring

/-- Specification of the loop of `mbiAdd` on the first `n` digits. -/
theorem mbiAddLoop_spec (w : Nat) : ∀ (n : Nat) (dest add : List Nat) (c : Bool),
    n ≤ dest.length → n ≤ add.length → Digits w dest → Digits w add →
    (mbiAddLoop w n dest add c).1.length = dest.length ∧
    Digits w (mbiAddLoop w n dest add c).1 ∧
    (mbiAddLoop w n dest add c).1.drop n = dest.drop n ∧
    val w ((mbiAddLoop w n dest add c).1.take n) + (mbiAddLoop w n dest add c).2.toNat * (2 ^ w) ^ n
      = val w (dest.take n) + val w (add.take n) + c.toNat
  | 0, dest, add, c, _, _, hd, _ => by
    cases dest <;> cases add <;> simp [mbiAddLoop, val, hd]
  | n + 1, [], _, _, h, _, _, _ => by simp at h
  | n + 1, _ :: _, [], _, _, h, _, _ => by simp at h
  | n + 1, d :: dest, a :: add, c, hn, ha, hd, hadd => by
    simp only [List.length_cons, Nat.add_le_add_iff_right] at hn ha
    obtain ⟨hlt, heq⟩ := add_digit (2 ^ w) d a c hd.head hadd.head
    obtain ⟨h1, h2, h3, h4⟩ := mbiAddLoop_spec w n dest add
      ((!c && decide (a > (if c then ((d + a) % 2 ^ w + 1) % 2 ^ w else (d + a) % 2 ^ w))) ||
        (c && decide (a ≥ (if c then ((d + a) % 2 ^ w + 1) % 2 ^ w else (d + a) % 2 ^ w))))
      hn ha hd.tail hadd.tail
    simp only [mbiAddLoop, List.length_cons, List.drop_succ_cons, List.take_succ_cons, val,
      pow_succ]
    exact ⟨by rw [h1], Digits.cons hlt h2, h3, carry_chain h4 heq⟩

/-- Specification of the loop of `mbiCopyAdd` on the first `n` digits. -/
theorem mbiCopyAddLoop_spec (w : Nat) : ∀ (n : Nat) (dest add1 add2 : List Nat) (c : Bool),
    n ≤ dest.length → n ≤ add1.length → n ≤ add2.length →
    Digits w dest → Digits w add1 → Digits w add2 →
    (mbiCopyAddLoop w n dest add1 add2 c).1.length = dest.length ∧
    Digits w (mbiCopyAddLoop w n dest add1 add2 c).1 ∧
    (mbiCopyAddLoop w n dest add1 add2 c).1.drop n = dest.drop n ∧
    val w ((mbiCopyAddLoop w n dest add1 add2 c).1.take n)
        + (mbiCopyAddLoop w n dest add1 add2 c).2.toNat * (2 ^ w) ^ n
      = val w (add1.take n) + val w (add2.take n) + c.toNat
  | 0, dest, add1, add2, c, _, _, _, hd, _, _ => by
    cases dest <;> cases add1 <;> cases add2 <;> simp [mbiCopyAddLoop, val, hd]
  | n + 1, [], _, _, _, h, _, _, _, _, _ => by simp at h
  | n + 1, _ :: _, [], _, _, _, h, _, _, _, _ => by simp at h
  | n + 1, _ :: _, _ :: _, [], _, _, _, h, _, _, _ => by simp at h
  | n + 1, d :: dest, a1 :: add1, a2 :: add2, c, hn, ha1, ha2, hd, hadd1, hadd2 => by
    simp only [List.length_cons, Nat.add_le_add_iff_right] at hn ha1 ha2
    obtain ⟨hlt, heq⟩ := add_digit (2 ^ w) a1 a2 c hadd1.head hadd2.head
    obtain ⟨h1, h2, h3, h4⟩ := mbiCopyAddLoop_spec w n dest add1 add2
      ((!c && decide (a2 > (if c then ((a1 + a2) % 2 ^ w + 1) % 2 ^ w else (a1 + a2) % 2 ^ w))) ||
        (c && decide (a2 ≥ (if c then ((a1 + a2) % 2 ^ w + 1) % 2 ^ w else (a1 + a2) % 2 ^ w))))
      hn ha1 ha2 hd.tail hadd1.tail hadd2.tail
    simp only [mbiCopyAddLoop, List.length_cons, List.drop_succ_cons, List.take_succ_cons, val,
      pow_succ]
    exact ⟨by rw [h1], Digits.cons hlt h2, h3, carry_chain h4 heq⟩

/-- Specification of the loop of `mbiSub` on the first `n` digits. -/
theorem mbiSubLoop_spec (w : Nat) : ∀ (n : Nat) (dest sub : List Nat) (c : Bool),
    n ≤ dest.length → n ≤ sub.length → Digits w dest → Digits w sub →
    (mbiSubLoop w n dest sub c).1.length = dest.length ∧
    Digits w (mbiSubLoop w n dest sub c).1 ∧
    (mbiSubLoop w n dest sub c).1.drop n = dest.drop n ∧
    val w ((mbiSubLoop w n dest sub c).1.take n) + val w (sub.take n) + c.toNat
      = val w (dest.take n) + (mbiSubLoop w n dest sub c).2.toNat * (2 ^ w) ^ n
  | 0, dest, sub, c, _, _, hd, _ => by
    cases dest <;> cases sub <;> simp [mbiSubLoop, val, hd]
  | n + 1, [], _, _, h, _, _, _ => by simp at h
  | n + 1, _ :: _, [], _, _, h, _, _ => by simp at h
  | n + 1, d :: dest, s :: sub, c, hn, hs, hd, hsub => by
    simp only [List.length_cons, Nat.add_le_add_iff_right] at hn hs
    obtain ⟨hlt, heq⟩ := sub_digit (2 ^ w) d s c hd.head hsub.head
    obtain ⟨h1, h2, h3, h4⟩ := mbiSubLoop_spec w n dest sub
      ((!c && decide (d < (if c then ((d + 2 ^ w - s % 2 ^ w) % 2 ^ w + 2 ^ w - 1) % 2 ^ w
            else (d + 2 ^ w - s % 2 ^ w) % 2 ^ w))) ||
        (c && decide (d ≤ (if c then ((d + 2 ^ w - s % 2 ^ w) % 2 ^ w + 2 ^ w - 1) % 2 ^ w
            else (d + 2 ^ w - s % 2 ^ w) % 2 ^ w))))
      hn hs hd.tail hsub.tail
    simp only [mbiSubLoop, List.length_cons, List.drop_succ_cons, List.take_succ_cons, val,
      pow_succ]
    exact ⟨by rw [h1], Digits.cons hlt h2, h3, borrow_chain h4 heq⟩

/-- Specification of the loop of `mbiInc` on the `m` digits that follow digit `0`. -/
theorem mbiIncLoop_spec (w : Nat) : ∀ (m : Nat) (dest : List Nat) (c : Bool),
    m ≤ dest.length → Digits w dest →
    (mbiIncLoop w m dest c).1.length = dest.length ∧
    Digits w (mbiIncLoop w m dest c).1 ∧
    (mbiIncLoop w m dest c).1.drop m = dest.drop m ∧
    val w ((mbiIncLoop w m dest c).1.take m) + (mbiIncLoop w m dest c).2.toNat * (2 ^ w) ^ m
      = val w (dest.take m) + c.toNat
  | 0, dest, c, _, hd => by
    cases dest <;> cases c <;> simp [mbiIncLoop, val, hd]
  | m + 1, [], _, h, _ => by simp at h
  | m + 1, d :: dest, false, _, hd => by
    simp [mbiIncLoop, hd]
  | m + 1, d :: dest, true, hm, hd => by
    simp only [List.length_cons, Nat.add_le_add_iff_right] at hm
    obtain ⟨h1, h2, h3, h4⟩ := mbiIncLoop_spec w m dest
      (if (d + 1) % 2 ^ w = 0 then true else false) hm hd.tail
    have hB : 0 < 2 ^ w := Nat.two_pow_pos w
    have hlt : (d + 1) % 2 ^ w < 2 ^ w := Nat.mod_lt _ hB
    simp only [mbiIncLoop, List.length_cons, List.drop_succ_cons, List.take_succ_cons, val,
      pow_succ]
    refine ⟨by rw [h1], Digits.cons hlt h2, h3, ?_⟩
    have hdig : (d + 1) % 2 ^ w + (if (d + 1) % 2 ^ w = 0 then true else false).toNat * 2 ^ w
        = d + 0 + 1 := by
      have hd0 := hd.head
      rcases mod_two_cases (d + 1) (2 ^ w) (by omega) with ⟨h5, h6⟩ | ⟨h5, h6⟩
      · rw [h6]; simp
      · rw [h6]
        have : d + 1 - 2 ^ w = 0 := by omega
        simp [this]; omega
    have := @carry_chain _ _ _ _ _ _ _ _ 0 _ _ h4 hdig
    simpa using this

/-- Effect of `mbiInc` called with `*carry == false` on a destination of at least `n >= 1`
digits. -/
theorem mbiInc_spec (w n : Nat) (dest : List Nat) (h0 : 0 < n) (hn : n ≤ dest.length)
    (hd : Digits w dest) :
    (mbiInc w n dest false).dest.length = dest.length ∧
    Digits w (mbiInc w n dest false).dest ∧
    (mbiInc w n dest false).dest.drop n = dest.drop n ∧
    val w ((mbiInc w n dest false).dest.take n) + (mbiInc w n dest false).carry.toNat * (2 ^ w) ^ n
      = val w (dest.take n) + 1 := by
  cases dest with
  | nil => simp at hn; omega
  | cons d dest =>
    obtain ⟨m, rfl⟩ : ∃ m, n = m + 1 := ⟨n - 1, by omega⟩
    simp only [List.length_cons, Nat.add_le_add_iff_right] at hn
    obtain ⟨h1, h2, h3, h4⟩ := mbiIncLoop_spec w m dest
      (if (d + 1) % 2 ^ w = 0 then true else false) hn hd.tail
    have hB : 0 < 2 ^ w := Nat.two_pow_pos w
    have hlt : (d + 1) % 2 ^ w < 2 ^ w := Nat.mod_lt _ hB
    simp only [mbiInc, Nat.add_sub_cancel, List.length_cons, List.drop_succ_cons,
      List.take_succ_cons, val, pow_succ]
    refine ⟨by rw [h1], Digits.cons hlt h2, h3, ?_⟩
    have hdig : (d + 1) % 2 ^ w + (if (d + 1) % 2 ^ w = 0 then true else false).toNat * 2 ^ w
        = d + 0 + 1 := by
      have hd0 := hd.head
      rcases mod_two_cases (d + 1) (2 ^ w) (by omega) with ⟨h5, h6⟩ | ⟨h5, h6⟩
      · rw [h6]; simp
      · rw [h6]
        have : d + 1 - 2 ^ w = 0 := by omega
        simp [this]; omega
    have := @carry_chain _ _ _ _ _ _ _ _ 0 _ _ h4 hdig
    simpa using this

/-! ## `mbiCompare` -/

/-- The result of `mbiCompare` on the first `n` digits is the sign of the difference of the
values. -/
theorem mbiCompare_eq (w : Nat) : ∀ (n : Nat) (z1 z2 : List Nat),
    Digits w z1 → Digits w z2 →
    mbiCompare n z1 z2 =
      if val w (z2.take n) < val w (z1.take n) then 1
      else if val w (z1.take n) = val w (z2.take n) then 0 else -1
  | 0, z1, z2, _, _ => by simp [mbiCompare, val]
  | n + 1, z1, z2, h1, h2 => by
    have ih := mbiCompare_eq w n z1 z2 h1 h2
    have l1 : val w (z1.take n) < (2 ^ w) ^ n :=
      lt_of_lt_of_le (val_lt (h1.take n)) (Nat.pow_le_pow_right (Nat.two_pow_pos w)
        (by simp))
    have l2 : val w (z2.take n) < (2 ^ w) ^ n :=
      lt_of_lt_of_le (val_lt (h2.take n)) (Nat.pow_le_pow_right (Nat.two_pow_pos w)
        (by simp))
    rw [mbiCompare, val_take_succ, val_take_succ, ih]
    generalize val w (z1.take n) = X1 at *
    generalize val w (z2.take n) = X2 at *
    generalize z1.getD n 0 = d1 at *
    generalize z2.getD n 0 = d2 at *
    generalize (2 ^ w) ^ n = P at *
    rcases Nat.lt_trichotomy d1 d2 with h | h | h
    · have hm : P * (d1 + 1) ≤ P * d2 := Nat.mul_le_mul_left _ h
      rw [Nat.mul_succ] at hm
      have c1 : ¬ d1 > d2 := by omega
      have c2 : d2 > d1 := h
      have c3 : ¬ (X2 + P * d2 < X1 + P * d1) := by omega
      have c4 : ¬ (X1 + P * d1 = X2 + P * d2) := by omega
      simp only [c1, c2, c3, c4, if_true, if_false]
    · subst h
      have c1 : ¬ d1 > d1 := by omega
      simp only [c1, if_false, Nat.add_lt_add_iff_right, Nat.add_right_cancel_iff]
    · have hm : P * (d2 + 1) ≤ P * d1 := Nat.mul_le_mul_left _ h
      rw [Nat.mul_succ] at hm
      have c1 : d1 > d2 := h
      have c3 : X2 + P * d2 < X1 + P * d1 := by omega
      simp only [c1, c3, if_true]

theorem take_of_length_eq {z : List Nat} {n : Nat} (h : z.length = n) : z.take n = z := by
  rw [← h, List.take_length]

/-! ## Properties of the elementary operations -/

/-- On `n`-digit operands `mbiAdd` leaves `n` digits `dest'` and returns a carry `c'` with
`val dest' + c' * B^n = val dest + val add + c`; `dest'` is the sum modulo `B^n`, `c'` is true
exactly when the sum does not fit `n` digits, and the flag left in `*carry` is the returned
value. -/
theorem mbiAdd_full (w n : Nat) (dest add : List Nat) (c : Bool)
    (hdl : dest.length = n) (hal : add.length = n) (hd : Digits w dest) (ha : Digits w add) :
    (mbiAdd w n dest add c).dest.length = n ∧
    Digits w (mbiAdd w n dest add c).dest ∧
    val w (mbiAdd w n dest add c).dest + (mbiAdd w n dest add c).ret.toNat * (2 ^ w) ^ n
      = val w dest + val w add + c.toNat ∧
    val w (mbiAdd w n dest add c).dest = (val w dest + val w add + c.toNat) % (2 ^ w) ^ n ∧
    ((mbiAdd w n dest add c).ret = true ↔ (2 ^ w) ^ n ≤ val w dest + val w add + c.toNat) ∧
    (mbiAdd w n dest add c).carry = (mbiAdd w n dest add c).ret := by
  obtain ⟨h1, h2, _, h4⟩ := mbiAddLoop_spec w n dest add c (by omega) (by omega) hd ha
  have hlen : (mbiAddLoop w n dest add c).1.length = n := by rw [h1, hdl]
  rw [take_of_length_eq hlen, take_of_length_eq hdl, take_of_length_eq hal] at h4
  have hlt := val_lt h2
  rw [hlen] at hlt
  simp only [mbiAdd]
  refine ⟨hlen, h2, h4, ?_, ?_, trivial⟩
  · rw [← h4]
    cases (mbiAddLoop w n dest add c).2
    · simp [Nat.mod_eq_of_lt hlt]
    · simp [Nat.mod_eq_of_lt hlt]
  · rw [← h4]
    cases (mbiAddLoop w n dest add c).2
    · simp only [Bool.toNat_false, zero_mul, add_zero, Bool.false_eq_true, false_iff]; omega
    · simp

/-- On `n`-digit operands `mbiSub` leaves `n` digits `dest'` and returns a borrow `c'` with
`val dest' + val sub + c = val dest + c' * B^n`; `dest'` is the difference modulo `B^n` and
`c'` is true exactly when `val dest < val sub + c`. -/
theorem mbiSub_full (w n : Nat) (dest sub : List Nat) (c : Bool)
    (hdl : dest.length = n) (hsl : sub.length = n) (hd : Digits w dest) (hs : Digits w sub) :
    (mbiSub w n dest sub c).dest.length = n ∧
    Digits w (mbiSub w n dest sub c).dest ∧
    val w (mbiSub w n dest sub c).dest + val w sub + c.toNat
      = val w dest + (mbiSub w n dest sub c).ret.toNat * (2 ^ w) ^ n ∧
    ((val w (mbiSub w n dest sub c).dest : Int)
      = ((val w dest : Int) - (val w sub : Int) - (c.toNat : Int)) % (((2 ^ w) ^ n : Nat) : Int)) ∧
    ((mbiSub w n dest sub c).ret = true ↔ val w dest < val w sub + c.toNat) ∧
    (mbiSub w n dest sub c).carry = (mbiSub w n dest sub c).ret := by
  obtain ⟨h1, h2, _, h4⟩ := mbiSubLoop_spec w n dest sub c (by omega) (by omega) hd hs
  have hlen : (mbiSubLoop w n dest sub c).1.length = n := by rw [h1, hdl]
  rw [take_of_length_eq hlen, take_of_length_eq hdl, take_of_length_eq hsl] at h4
  have hlt := val_lt h2
  rw [hlen] at hlt
  have hdlt := val_lt hd
  rw [hdl] at hdlt
  simp only [mbiSub]
  refine ⟨hlen, h2, h4, ?_, ?_, trivial⟩
  · have e : ((val w dest : Int) - (val w sub : Int) - (c.toNat : Int))
        = (val w (mbiSubLoop w n dest sub c).1 : Int)
          + (((2 ^ w) ^ n : Nat) : Int) * (-((mbiSubLoop w n dest sub c).2.toNat : Int)) := by
      have := congrArg (fun x : Nat => (x : Int)) h4
      simp only [Nat.cast_add, Nat.cast_mul] at this
      linarith
    rw [e, Int.add_mul_emod_self_left, Int.emod_eq_of_lt (by positivity) (by exact_mod_cast hlt)]
  · revert h4
    cases (mbiSubLoop w n dest sub c).2
    · simp only [Bool.toNat_false, zero_mul, add_zero, Bool.false_eq_true, false_iff]; omega
    · simp only [Bool.toNat_true, one_mul, true_iff]; omega

/-- The addition `mbiAdd` with initial flag `c` followed by `mbiSub` with initial flag `c` restores every
digit of `a`, and the borrow returned by `mbiSub` equals the carry returned by `mbiAdd`. -/
theorem mbiAdd_mbiSub_full (w n : Nat) (a b : List Nat) (c : Bool)
    (hal : a.length = n) (hbl : b.length = n) (ha : Digits w a) (hb : Digits w b) :
    (mbiSub w n (mbiAdd w n a b c).dest b c).dest = a ∧
    (mbiSub w n (mbiAdd w n a b c).dest b c).ret = (mbiAdd w n a b c).ret := by
  obtain ⟨p1, p2, p3, _, _, _⟩ := mbiAdd_full w n a b c hal hbl ha hb
  obtain ⟨q1, q2, q3, _, _, _⟩ :=
    mbiSub_full w n (mbiAdd w n a b c).dest b c p1 hbl p2 hb
  have la := val_lt ha
  rw [hal] at la
  have lq := val_lt q2
  rw [q1] at lq
  generalize (mbiSub w n (mbiAdd w n a b c).dest b c).ret = c2 at *
  generalize (mbiAdd w n a b c).ret = c1 at *
  have hv : val w (mbiSub w n (mbiAdd w n a b c).dest b c).dest = val w a ∧ c2 = c1 := by
    cases c1 <;> cases c2 <;> simp only [Bool.toNat_false, Bool.toNat_true, zero_mul, one_mul,
      add_zero] at p3 q3 <;> refine ⟨?_, ?_⟩ <;> first | rfl | omega
  exact ⟨val_inj q2 ha (by rw [q1, hal]) hv.1, hv.2⟩

/-- On `n`-digit operands `mbiCompare` returns `1`, `0` or `-1` as `val z1` is greater
than, equal to or less than `val z2`; hence it returns `0` on equal arguments, is antisymmetric,
and the relation `mbiCompare n x y ≤ 0` is a total order on `n`-digit numbers. -/
theorem mbiCompare_full (w n : Nat) (z1 z2 z3 : List Nat)
    (h1l : z1.length = n) (h2l : z2.length = n) (h3l : z3.length = n)
    (h1 : Digits w z1) (h2 : Digits w z2) (h3 : Digits w z3) :
    (val w z1 > val w z2 → mbiCompare n z1 z2 = 1) ∧
    (val w z1 = val w z2 → mbiCompare n z1 z2 = 0) ∧
    (val w z1 < val w z2 → mbiCompare n z1 z2 = -1) ∧
    mbiCompare n z1 z1 = 0 ∧
    mbiCompare n z1 z2 = - mbiCompare n z2 z1 ∧
    (mbiCompare n z1 z2 ≤ 0 ↔ val w z1 ≤ val w z2) ∧
    (mbiCompare n z1 z2 ≤ 0 → mbiCompare n z2 z1 ≤ 0 → z1 = z2) ∧
    (mbiCompare n z1 z2 ≤ 0 → mbiCompare n z2 z3 ≤ 0 → mbiCompare n z1 z3 ≤ 0) ∧
    (mbiCompare n z1 z2 ≤ 0 ∨ mbiCompare n z2 z1 ≤ 0) := by
  have e12 := mbiCompare_eq w n z1 z2 h1 h2
  have e21 := mbiCompare_eq w n z2 z1 h2 h1
  have e23 := mbiCompare_eq w n z2 z3 h2 h3
  have e13 := mbiCompare_eq w n z1 z3 h1 h3
  have e11 := mbiCompare_eq w n z1 z1 h1 h1
  rw [take_of_length_eq h1l, take_of_length_eq h2l] at e12 e21
  rw [take_of_length_eq h2l, take_of_length_eq h3l] at e23
  rw [take_of_length_eq h1l, take_of_length_eq h3l] at e13
  rw [take_of_length_eq h1l] at e11
  have key : ∀ x y : Nat, ((if y < x then (1 : Int) else if x = y then 0 else -1) ≤ 0) ↔ x ≤ y := by
    intro x y
    split_ifs <;> simp <;> omega
  refine ⟨?_, ?_, ?_, ?_, ?_, ?_, ?_, ?_, ?_⟩
  · intro h; rw [e12, if_pos h]
  · intro h; rw [e12, if_neg (by omega), if_pos h]
  · intro h; rw [e12, if_neg (by omega), if_neg (by omega)]
  · rw [e11]; simp
  · rw [e12, e21]; split_ifs <;> first | rfl | omega
  · rw [e12]; exact key _ _
  · rw [e12, e21, key, key]
    intro ha hb
    exact val_inj h1 h2 (by rw [h1l, h2l]) (by omega)
  · rw [e12, e23, e13, key, key, key]
    intro ha hb; omega
  · rw [e12, e21, key, key]; omega

/-! ## Operations on a window of a longer array -/

theorem val_set (w : Nat) : ∀ (z : List Nat) (m v : Nat), m < z.length →
    val w (z.set m v) + (2 ^ w) ^ m * z.getD m 0 = val w z + (2 ^ w) ^ m * v
  | [], _, _, h => by simp at h
  | d :: z, 0, v, _ => by simp [val]; ring
  | d :: z, m + 1, v, h => by
    have ih := val_set w z m v (by simpa using h)
    simp only [List.set_cons_succ, val, List.getD_cons_succ, pow_succ]
    have e1 : d + 2 ^ w * val w (z.set m v) + (2 ^ w) ^ m * 2 ^ w * z.getD m 0
        = d + 2 ^ w * (val w (z.set m v) + (2 ^ w) ^ m * z.getD m 0) := by ring
    rw [e1, ih]
    ring

theorem getD_set_eq (z : List Nat) (m v : Nat) (h : m < z.length) :
    (z.set m v).getD m 0 = v := by
  simp [List.getD_eq_getElem?_getD, List.getElem?_set, h]

theorem getD_set_ne (z : List Nat) (m m' v : Nat) (h : m ≠ m') :
    (z.set m v).getD m' 0 = z.getD m' 0 := by
  simp [List.getD_eq_getElem?_getD, List.getElem?_set_ne h]

theorem Digits.set {w : Nat} {z : List Nat} (h : Digits w z) (m : Nat) {v : Nat}
    (hv : v < 2 ^ w) : Digits w (z.set m v) := by
  intro d hd
  rcases List.mem_or_eq_of_mem_set hd with h1 | h1
  · exact h d h1
  · exact h1 ▸ hv

theorem val_take_le (w : Nat) (z : List Nat) (n : Nat) : val w (z.take n) ≤ val w z := by
  have := val_take_add_drop w z n
  omega

theorem val_take_mono (w : Nat) (z : List Nat) {i j : Nat} (h : i ≤ j) :
    val w (z.take i) ≤ val w (z.take j) := by
  have := val_take_le w (z.take j) i
  rwa [List.take_take, Nat.min_eq_left h] at this

/-- A list that keeps the length of `xs ++ t` and agrees with it after position `xs.length`
is an updated `xs` followed by `t`. -/
theorem eq_take_append_of_drop {r xs t : List Nat} {n : Nat} (hx : xs.length = n)
    (hdrop : r.drop n = (xs ++ t).drop n) : r = r.take n ++ t := by
  rw [List.drop_left' hx] at hdrop
  conv_lhs => rw [← List.take_append_drop n r, hdrop]

/-- The loop of `mbiAdd` on an array `xs ++ t` whose first `n` digits are `xs`. -/
theorem mbiAddLoop_window (w n : Nat) (xs t add : List Nat) (c : Bool) (hx : xs.length = n)
    (ha : n ≤ add.length) (hd : Digits w (xs ++ t)) (hadd : Digits w add) :
    ∃ xs', xs'.length = n ∧ Digits w xs' ∧
      (mbiAddLoop w n (xs ++ t) add c).1 = xs' ++ t ∧
      val w xs' + (mbiAddLoop w n (xs ++ t) add c).2.toNat * (2 ^ w) ^ n
        = val w xs + val w (add.take n) + c.toNat := by
  obtain ⟨h1, h2, h3, h4⟩ :=
    mbiAddLoop_spec w n (xs ++ t) add c (by simp [hx]) ha hd hadd
  have e := eq_take_append_of_drop hx h3
  refine ⟨(mbiAddLoop w n (xs ++ t) add c).1.take n, ?_, h2.take n, e, ?_⟩
  · rw [List.length_take, h1]; simp [hx]
  · rw [h4, List.take_left' hx]

/-- The loop of `mbiCopyAdd` on an array `xs ++ t` whose first `n` digits are `xs`. -/
theorem mbiCopyAddLoop_window (w n : Nat) (xs t add1 add2 : List Nat) (c : Bool)
    (hx : xs.length = n) (ha1 : n ≤ add1.length) (ha2 : n ≤ add2.length)
    (hd : Digits w (xs ++ t)) (hadd1 : Digits w add1) (hadd2 : Digits w add2) :
    ∃ xs', xs'.length = n ∧ Digits w xs' ∧
      (mbiCopyAddLoop w n (xs ++ t) add1 add2 c).1 = xs' ++ t ∧
      val w xs' + (mbiCopyAddLoop w n (xs ++ t) add1 add2 c).2.toNat * (2 ^ w) ^ n
        = val w (add1.take n) + val w (add2.take n) + c.toNat := by
  obtain ⟨h1, h2, h3, h4⟩ :=
    mbiCopyAddLoop_spec w n (xs ++ t) add1 add2 c (by simp [hx]) ha1 ha2 hd hadd1 hadd2
  have e := eq_take_append_of_drop hx h3
  refine ⟨(mbiCopyAddLoop w n (xs ++ t) add1 add2 c).1.take n, ?_, h2.take n, e, h4⟩
  rw [List.length_take, h1]; simp [hx]

/-- The loop of `mbiSub` on an array `xs ++ t` whose first `n` digits are `xs`. -/
theorem mbiSubLoop_window (w n : Nat) (xs t sub : List Nat) (c : Bool) (hx : xs.length = n)
    (hs : n ≤ sub.length) (hd : Digits w (xs ++ t)) (hsub : Digits w sub) :
    ∃ xs', xs'.length = n ∧ Digits w xs' ∧
      (mbiSubLoop w n (xs ++ t) sub c).1 = xs' ++ t ∧
      val w xs' + val w (sub.take n) + c.toNat
        = val w xs + (mbiSubLoop w n (xs ++ t) sub c).2.toNat * (2 ^ w) ^ n := by
  obtain ⟨h1, h2, h3, h4⟩ :=
    mbiSubLoop_spec w n (xs ++ t) sub c (by simp [hx]) hs hd hsub
  have e := eq_take_append_of_drop hx h3
  refine ⟨(mbiSubLoop w n (xs ++ t) sub c).1.take n, ?_, h2.take n, e, ?_⟩
  · rw [List.length_take, h1]; simp [hx]
  · rw [h4, List.take_left' hx]

/-- The call of `mbiInc` with `*carry == false` on an array `xs ++ t` whose first `n >= 1` digits are
`xs`. -/
theorem mbiInc_window (w n : Nat) (xs t : List Nat) (h0 : 0 < n) (hx : xs.length = n)
    (hd : Digits w (xs ++ t)) :
    ∃ xs', xs'.length = n ∧ Digits w xs' ∧
      (mbiInc w n (xs ++ t) false).dest = xs' ++ t ∧
      val w xs' + (mbiInc w n (xs ++ t) false).carry.toNat * (2 ^ w) ^ n = val w xs + 1 := by
  obtain ⟨h1, h2, h3, h4⟩ := mbiInc_spec w n (xs ++ t) h0 (by simp [hx]) hd
  have e := eq_take_append_of_drop hx h3
  refine ⟨(mbiInc w n (xs ++ t) false).dest.take n, ?_, h2.take n, e, ?_⟩
  · rw [List.length_take, h1]; simp [hx]
  · rw [h4, List.take_left' hx]

/-! ## Schoolbook multiplication: one accumulation step -/

theorem pow_lt_pow_exp {B s t : Nat} (hB : 0 < B) (h : B ^ s < B ^ t) : s < t := by
  by_contra hn
  have : B ^ t ≤ B ^ s := Nat.pow_le_pow_right hB (by omega)
  omega

/-- The two digits of the `long long` product of two digits hold the product exactly. -/
theorem product_digits (w x y : Nat) (hx : x < 2 ^ w) (hy : y < 2 ^ w) :
    (x * y) % 2 ^ (2 * w) = x * y ∧ Digits w [(x * y) % 2 ^ w, (x * y) / 2 ^ w] ∧
    val w [(x * y) % 2 ^ w, (x * y) / 2 ^ w] = x * y := by
  have hB : 0 < 2 ^ w := Nat.two_pow_pos w
  have hxy : x * y < 2 ^ w * 2 ^ w := Nat.mul_lt_mul'' hx hy
  refine ⟨?_, ?_, ?_⟩
  · apply Nat.mod_eq_of_lt
    rw [two_mul, pow_add]
    exact hxy
  · apply Digits.cons (Nat.mod_lt _ hB)
    apply Digits.cons _ (Digits.nil w)
    exact Nat.div_lt_of_lt_mul hxy
  · simp only [val, mul_zero, add_zero]
    exact Nat.mod_add_div _ _

/-- One iteration of the inner loop of the schoolbook multiplication.  `q` is the `2*L`-digit
result area, `rest` whatever follows it in memory, `ov` the overflow buffer. -/
theorem naivStep_spec (w L : Nat) (a b q rest ov : List Nat) (i j : Nat)
    (hq : q.length = 2 * L) (hov : ov.length = 2 * L)
    (hdq : Digits w (q ++ rest)) (hdov : Digits w ov) (ha : Digits w a) (hb : Digits w b)
    (hi : i < L) (hj : j < L) (hLB : L < 2 ^ w)
    (hb1 : ∀ m, ov.getD m 0 ≤ i + 1) (hb2 : ∀ m, i + j + 2 ≤ m → ov.getD m 0 ≤ i)
    (hS : val w q + val w ov + (2 ^ w) ^ (i + j) * (a.getD i 0 * b.getD j 0)
      < (2 ^ w) ^ (2 * L)) :
    ∃ q' ov', naivStep w a b i j (q ++ rest, ov) = (q' ++ rest, ov') ∧
      q'.length = 2 * L ∧ ov'.length = 2 * L ∧ Digits w (q' ++ rest) ∧ Digits w ov' ∧
      val w q' + val w ov'
        = val w q + val w ov + (2 ^ w) ^ (i + j) * (a.getD i 0 * b.getD j 0) ∧
      (∀ m, ov'.getD m 0 ≤ i + 1) ∧ (∀ m, i + j + 3 ≤ m → ov'.getD m 0 ≤ i) := by
  have hB : 0 < 2 ^ w := Nat.two_pow_pos w
  obtain ⟨hw3, hdadd, hvadd⟩ := product_digits w (a.getD i 0) (b.getD j 0) (ha.getD i) (hb.getD j)
  generalize hxy : a.getD i 0 * b.getD j 0 = xy at *
  -- the window of two digits at offset `i + j`
  have hsplit : q = q.take (i + j) ++ ((q.drop (i + j)).take 2 ++ q.drop (i + j + 2)) := by
    have e : q.drop (i + j + 2) = (q.drop (i + j)).drop 2 := by rw [List.drop_drop]
    rw [e, List.take_append_drop, List.take_append_drop]
  have hAlen : (q.take (i + j)).length = i + j := by rw [List.length_take, hq]; omega
  have hWlen : ((q.drop (i + j)).take 2).length = 2 := by
    rw [List.length_take, List.length_drop, hq]; omega
  generalize q.take (i + j) = A at *
  generalize (q.drop (i + j)).take 2 = W at *
  generalize q.drop (i + j + 2) = T at *
  subst hsplit
  have hdrop : (A ++ (W ++ T) ++ rest).drop (i + j) = W ++ (T ++ rest) := by
    rw [List.append_assoc, List.drop_left' hAlen, List.append_assoc]
  have htake : (A ++ (W ++ T) ++ rest).take (i + j) = A := by
    rw [List.append_assoc, List.take_left' hAlen]
  have hdWT : Digits w (W ++ (T ++ rest)) := by
    rw [← hdrop]; exact hdq.drop _
  obtain ⟨W', hW'len, hdW', hwin, hval⟩ := mbiAddLoop_window w 2 W (T ++ rest)
    [xy % 2 ^ w, xy / 2 ^ w] false hWlen (by simp) hdWT hdadd
  have hvadd' : val w (List.take 2 [xy % 2 ^ w, xy / 2 ^ w]) = xy := by
    simpa using hvadd
  rw [hvadd'] at hval
  have hdq' : Digits w (A ++ (W' ++ T) ++ rest) := by
    have h1 : Digits w A := (hdq.left).left
    have h2 : Digits w T := ((hdq.left).right).right
    exact ((h1.append (hdW'.append h2)).append hdq.right)
  have hlen' : (A ++ (W' ++ T)).length = 2 * L := by
    simp only [List.length_append] at hq ⊢
    omega
  have hvq : val w (A ++ (W ++ T)) = val w A + (2 ^ w) ^ (i + j) * (val w W + (2 ^ w) ^ 2 * val w T)
      := by rw [val_append, val_append, hAlen, hWlen]
  have hvq' : val w (A ++ (W' ++ T))
      = val w A + (2 ^ w) ^ (i + j) * (val w W' + (2 ^ w) ^ 2 * val w T) := by
    rw [val_append, val_append, hAlen, hW'len]
  have hstep : naivStep w a b i j (A ++ (W ++ T) ++ rest, ov)
      = (A ++ (W' ++ T) ++ rest,
          if (mbiAddLoop w 2 (W ++ (T ++ rest)) [xy % 2 ^ w, xy / 2 ^ w] false).2 then
            ov.set (i + j + 2) ((ov.getD (i + j + 2) 0 + 1) % 2 ^ w) else ov) := by
    simp only [naivStep, mbiAdd, hxy, hw3, hdrop, htake, hwin]
    simp only [List.append_assoc]
  rw [hstep]
  generalize (mbiAddLoop w 2 (W ++ (T ++ rest)) [xy % 2 ^ w, xy / 2 ^ w] false).2 = c at *
  cases c with
  | false =>
    refine ⟨A ++ (W' ++ T), ov, rfl, hlen', hov, hdq', hdov, ?_, hb1, ?_⟩
    · simp only [Bool.toNat_false, zero_mul, add_zero] at hval
      rw [hvq, hvq', hval]; ring
    · intro m hm; exact hb2 m (by omega)
  | true =>
    simp only [Bool.toNat_true, Bool.toNat_false, one_mul, add_zero] at hval
    have hcarry : val w (A ++ (W' ++ T)) + (2 ^ w) ^ (i + j + 2)
        = val w (A ++ (W ++ T)) + (2 ^ w) ^ (i + j) * xy := by
      rw [hvq, hvq', pow_add (2 ^ w) (i + j) 2]
      have : val w A + (2 ^ w) ^ (i + j) * (val w W' + (2 ^ w) ^ 2 * val w T)
            + (2 ^ w) ^ (i + j) * (2 ^ w) ^ 2
          = val w A + (2 ^ w) ^ (i + j) * ((val w W' + (2 ^ w) ^ 2) + (2 ^ w) ^ 2 * val w T) := by
        ring
      rw [this, hval]; ring
    have hm : i + j + 2 < 2 * L := by
      apply pow_lt_pow_exp hB
      omega
    have hsmall : ov.getD (i + j + 2) 0 ≤ i := hb2 _ (le_refl _)
    have hmod : (ov.getD (i + j + 2) 0 + 1) % 2 ^ w = ov.getD (i + j + 2) 0 + 1 :=
      Nat.mod_eq_of_lt (by omega)
    have hvs := val_set w ov (i + j + 2) (ov.getD (i + j + 2) 0 + 1) (by omega)
    refine ⟨A ++ (W' ++ T), ov.set (i + j + 2) ((ov.getD (i + j + 2) 0 + 1) % 2 ^ w), rfl,
      hlen', by simp [hov], hdq', hdov.set _ (Nat.mod_lt _ hB), ?_, ?_, ?_⟩
    · rw [hmod]
      rw [Nat.mul_add, Nat.mul_one] at hvs
      omega
    · intro m
      by_cases hmm : i + j + 2 = m
      · subst hmm
        rw [getD_set_eq _ _ _ (by omega), hmod]; omega
      · rw [getD_set_ne _ _ _ _ hmm]; exact hb1 m
    · intro m hm3
      rw [getD_set_ne _ _ _ _ (by omega)]
      exact hb2 m (by omega)

/-! ## Schoolbook multiplication: the loops -/

theorem val_take_lt {w : Nat} {z : List Nat} (h : Digits w z) (L : Nat) :
    val w (z.take L) < (2 ^ w) ^ L :=
  lt_of_lt_of_le (val_lt (h.take L))
    (Nat.pow_le_pow_right (Nat.two_pow_pos w) (List.length_take_le L z))

/-- Every partial sum of the schoolbook method is at most the full product. -/
theorem rowSum_le_total (w L : Nat) (a b : List Nat) (i J : Nat) (hi : i < L) (hJ : J ≤ L) :
    val w (a.take i) * val w (b.take L) + (2 ^ w) ^ i * a.getD i 0 * val w (b.take J)
      ≤ val w (a.take L) * val w (b.take L) := by
  have h1 : val w (b.take J) ≤ val w (b.take L) := val_take_mono w b hJ
  have h2 : val w (a.take (i + 1)) ≤ val w (a.take L) := val_take_mono w a hi
  rw [val_take_succ] at h2
  calc val w (a.take i) * val w (b.take L) + (2 ^ w) ^ i * a.getD i 0 * val w (b.take J)
      ≤ val w (a.take i) * val w (b.take L) + (2 ^ w) ^ i * a.getD i 0 * val w (b.take L) :=
        Nat.add_le_add_left (Nat.mul_le_mul_left _ h1) _
    _ = (val w (a.take i) + (2 ^ w) ^ i * a.getD i 0) * val w (b.take L) := by ring
    _ ≤ val w (a.take L) * val w (b.take L) := Nat.mul_le_mul_right _ h2

theorem total_lt (w L : Nat) (a b : List Nat) (ha : Digits w a) (hb : Digits w b) :
    val w (a.take L) * val w (b.take L) < (2 ^ w) ^ (2 * L) := by
  rw [two_mul, pow_add]
  exact Nat.mul_lt_mul'' (val_take_lt ha L) (val_take_lt hb L)

/-- The inner loop of the schoolbook multiplication for row `i`, run for the columns
`0 .. J-1`. -/
theorem naivInner_spec (w L : Nat) (a b rest : List Nat) (i : Nat)
    (ha : Digits w a) (hb : Digits w b) (hi : i < L) (hLB : L < 2 ^ w)
    (q ov : List Nat) (hq : q.length = 2 * L) (hov : ov.length = 2 * L)
    (hdq : Digits w (q ++ rest)) (hdov : Digits w ov)
    (hb0 : ∀ m, ov.getD m 0 ≤ i)
    (hinv : val w q + val w ov = val w (a.take i) * val w (b.take L)) :
    ∀ J, J ≤ L →
    ∃ q' ov', (List.range J).foldl (fun st j => naivStep w a b i j st) (q ++ rest, ov)
        = (q' ++ rest, ov') ∧
      q'.length = 2 * L ∧ ov'.length = 2 * L ∧ Digits w (q' ++ rest) ∧ Digits w ov' ∧
      val w q' + val w ov'
        = val w (a.take i) * val w (b.take L) + (2 ^ w) ^ i * a.getD i 0 * val w (b.take J) ∧
      (∀ m, ov'.getD m 0 ≤ i + 1) ∧ (∀ m, i + J + 2 ≤ m → ov'.getD m 0 ≤ i) := by
  intro J
  induction J with
  | zero =>
    intro _
    refine ⟨q, ov, rfl, hq, hov, hdq, hdov, ?_, ?_, ?_⟩
    · simp [val, hinv]
    · intro m; exact Nat.le_succ_of_le (hb0 m)
    · intro m _; exact hb0 m
  | succ J ih =>
    intro hJ
    obtain ⟨q1, ov1, e1, hq1, hov1, hdq1, hdov1, hv1, hb1, hb2⟩ := ih (by omega)
    have hnew : val w q1 + val w ov1 + (2 ^ w) ^ (i + J) * (a.getD i 0 * b.getD J 0)
        = val w (a.take i) * val w (b.take L)
          + (2 ^ w) ^ i * a.getD i 0 * val w (b.take (J + 1)) := by
      rw [hv1, val_take_succ, pow_add]; ring
    have hS : val w q1 + val w ov1 + (2 ^ w) ^ (i + J) * (a.getD i 0 * b.getD J 0)
        < (2 ^ w) ^ (2 * L) := by
      rw [hnew]
      exact lt_of_le_of_lt (rowSum_le_total w L a b i (J + 1) hi hJ) (total_lt w L a b ha hb)
    obtain ⟨q2, ov2, e2, hq2, hov2, hdq2, hdov2, hv2, hb1', hb2'⟩ :=
      naivStep_spec w L a b q1 rest ov1 i J hq1 hov1 hdq1 hdov1 ha hb hi (by omega) hLB hb1 hb2 hS
    refine ⟨q2, ov2, ?_, hq2, hov2, hdq2, hdov2, ?_, hb1', ?_⟩
    · rw [List.range_succ, List.foldl_append, e1]
      simpa using e2
    · rw [hv2, hnew]
    · intro m hm; exact hb2' m (by omega)

/-- The two nested loops of the schoolbook multiplication, the outer one run for the rows
`0 .. I-1`. -/
theorem naivOuter_spec (w L : Nat) (a b rest : List Nat)
    (ha : Digits w a) (hb : Digits w b) (hLB : L < 2 ^ w)
    (q ov : List Nat) (hq : q.length = 2 * L) (hov : ov.length = 2 * L)
    (hdq : Digits w (q ++ rest)) (hdov : Digits w ov)
    (hb0 : ∀ m, ov.getD m 0 ≤ 0) (hinv : val w q + val w ov = 0) :
    ∀ I, I ≤ L →
    ∃ q' ov', (List.range I).foldl
        (fun st i => (List.range L).foldl (fun st j => naivStep w a b i j st) st) (q ++ rest, ov)
        = (q' ++ rest, ov') ∧
      q'.length = 2 * L ∧ ov'.length = 2 * L ∧ Digits w (q' ++ rest) ∧ Digits w ov' ∧
      val w q' + val w ov' = val w (a.take I) * val w (b.take L) ∧
      (∀ m, ov'.getD m 0 ≤ I) := by
  intro I
  induction I with
  | zero =>
    intro _
    refine ⟨q, ov, rfl, hq, hov, hdq, hdov, ?_, hb0⟩
    simp [val, hinv]
  | succ I ih =>
    intro hI
    obtain ⟨q1, ov1, e1, hq1, hov1, hdq1, hdov1, hv1, hb1⟩ := ih (by omega)
    obtain ⟨q2, ov2, e2, hq2, hov2, hdq2, hdov2, hv2, hb2, _⟩ :=
      naivInner_spec w L a b rest I ha hb (by omega) hLB q1 ov1 hq1 hov1 hdq1 hdov1 hb1 hv1
        L (le_refl L)
    refine ⟨q2, ov2, ?_, hq2, hov2, hdq2, hdov2, ?_, hb2⟩
    · rw [List.range_succ, List.foldl_append, e1]
      simpa using e2
    · rw [hv2, val_take_succ]; ring

/-- The function `naivCore` on a destination of at least `2 * 2^k` digits: the first `2 * 2^k` digits
become the digits of the product, the digits behind them are untouched, and the final
addition of the overflow buffer leaves no carry. -/
theorem naivCore_spec (w k : Nat) (p a b : List Nat) (hk : k < w)
    (hp : 2 * 2 ^ k ≤ p.length) (hdp : Digits w p) (ha : Digits w a) (hb : Digits w b) :
    ∃ q, q.length = 2 * 2 ^ k ∧ Digits w q ∧
      naivCore w k p a b = (q ++ p.drop (2 * 2 ^ k), false) ∧
      val w q = val w (a.take (2 ^ k)) * val w (b.take (2 ^ k)) := by
  have hB : 0 < 2 ^ w := Nat.two_pow_pos w
  have hLB : 2 ^ k < 2 ^ w := Nat.pow_lt_pow_right (by decide) hk
  have hz1 : mbiSetZero (2 ^ k * 2) p = List.replicate (2 * 2 ^ k) 0 ++ p.drop (2 * 2 ^ k) := by
    rw [Nat.mul_comm (2 ^ k) 2]; exact mbiSetZero_eq _ _ hp
  have hz2 : mbiSetZero (2 ^ k * 2) (List.replicate (2 ^ k * 2) 0)
      = List.replicate (2 * 2 ^ k) 0 := by
    rw [Nat.mul_comm (2 ^ k) 2, mbiSetZero_eq _ _ (by simp)]
    simp
  have hdrest : Digits w (p.drop (2 * 2 ^ k)) := hdp.drop _
  obtain ⟨q1, ov1, e1, hq1, hov1, hdq1, hdov1, hv1, _⟩ :=
    naivOuter_spec w (2 ^ k) a b (p.drop (2 * 2 ^ k)) ha hb hLB
      (List.replicate (2 * 2 ^ k) 0) (List.replicate (2 * 2 ^ k) 0) (by simp) (by simp)
      ((Digits.replicate_zero w _).append hdrest) (Digits.replicate_zero w _)
      (by
        intro m
        rw [List.getD_eq_getElem?_getD]
        rcases Nat.lt_or_ge m (2 * 2 ^ k) with h | h
        · rw [List.getElem?_eq_getElem (by simpa using h)]; simp
        · rw [List.getElem?_eq_none (by simpa using h)]; simp)
      (by simp [val_replicate_zero]) (2 ^ k) (le_refl _)
  obtain ⟨q2, hq2, hdq2, e2, hv2⟩ := mbiAddLoop_window w (2 * 2 ^ k) q1 (p.drop (2 * 2 ^ k))
    ov1 false hq1 (by omega) hdq1 hdov1
  have htk : ov1.take (2 * 2 ^ k) = ov1 := take_of_length_eq hov1
  rw [htk, hv1] at hv2
  have htot := total_lt w (2 ^ k) a b ha hb
  have hq2lt : val w q2 < (2 ^ w) ^ (2 * 2 ^ k) := by
    have := val_lt hdq2
    rwa [hq2] at this
  have hcore : naivCore w k p a b
      = ((mbiAddLoop w (2 * 2 ^ k) (q1 ++ p.drop (2 * 2 ^ k)) ov1 false).1,
         (mbiAddLoop w (2 * 2 ^ k) (q1 ++ p.drop (2 * 2 ^ k)) ov1 false).2) := by
    simp only [naivCore, naivLoops, hz1, hz2, e1, mbiAdd]
  rw [hcore, e2]
  generalize (mbiAddLoop w (2 * 2 ^ k) (q1 ++ p.drop (2 * 2 ^ k)) ov1 false).2 = c at *
  cases c with
  | true =>
    simp only [Bool.toNat_true, Bool.toNat_false, one_mul, add_zero] at hv2
    omega
  | false =>
    simp only [Bool.toNat_false, zero_mul, add_zero] at hv2
    exact ⟨q2, hq2, hdq2, rfl, hv2⟩

/-- The call of `mbiNaivMultiplication` returns, and the destination then holds the product. -/
theorem mbiNaivMultiplication_spec (w k : Nat) (p a b : List Nat) (hk : k < w)
    (hp : 2 * 2 ^ k ≤ p.length) (hdp : Digits w p) (ha : Digits w a) (hb : Digits w b) :
    ∃ q, q.length = 2 * 2 ^ k ∧ Digits w q ∧
      mbiNaivMultiplication w k p a b = some (q ++ p.drop (2 * 2 ^ k)) ∧
      val w q = val w (a.take (2 ^ k)) * val w (b.take (2 ^ k)) := by
  obtain ⟨q, hq, hdq, e, hv⟩ := naivCore_spec w k p a b hk hp hdp ha hb
  refine ⟨q, hq, hdq, ?_, hv⟩
  simp [mbiNaivMultiplication, e]

/-! ## Karatsuba multiplication: arithmetic of the overflow counter -/

theorem inc_mod {B x : Nat} (h : x + 1 < B) : (x + 1) % B = x + 1 := Nat.mod_eq_of_lt h

theorem dec_mod {B x : Nat} (h1 : 1 ≤ x) (h2 : x < B) : (x + B - 1) % B = x - 1 := by
  have e : x + B - 1 = (x - 1) + B := by omega
  rw [e, Nat.add_mod_right, Nat.mod_eq_of_lt (by omega)]

/-- The counter `overflow` after the two subtractions and the addition of the merge step.
`Y` is `B^length`, `hp` the value of `heap` after the subtractions, `M` the true middle term
`al*bh + ah*bl`.  The unsigned counter never wraps and ends as `0`, `1` or `2`. -/
theorem counter_arith (B Y hp M ov3 : Nat) (cs1 cs2 cq : Bool) (hB : 4 ≤ B) (hov : ov3 ≤ 3)
    (hh : hp < Y) (hM : M < 2 * Y)
    (heq : hp + ov3 * Y = M + (cs1.toNat + cs2.toNat) * Y) :
    (if cq then
        ((if cs2 then ((if cs1 then (ov3 + B - 1) % B else ov3) + B - 1) % B
          else (if cs1 then (ov3 + B - 1) % B else ov3)) + 1) % B
      else (if cs2 then ((if cs1 then (ov3 + B - 1) % B else ov3) + B - 1) % B
          else (if cs1 then (ov3 + B - 1) % B else ov3)))
      + cs1.toNat + cs2.toNat = ov3 + cq.toNat ∧
    (if cq then
        ((if cs2 then ((if cs1 then (ov3 + B - 1) % B else ov3) + B - 1) % B
          else (if cs1 then (ov3 + B - 1) % B else ov3)) + 1) % B
      else (if cs2 then ((if cs1 then (ov3 + B - 1) % B else ov3) + B - 1) % B
          else (if cs1 then (ov3 + B - 1) % B else ov3))) ≤ 2 := by
  have hfeas : cs1.toNat + cs2.toNat ≤ ov3 ∧ ov3 ≤ cs1.toNat + cs2.toNat + 1 := by
    interval_cases ov3 <;> cases cs1 <;> cases cs2 <;>
      simp only [Bool.toNat_false, Bool.toNat_true, zero_mul, one_mul, add_zero, zero_add]
        at heq ⊢ <;> omega
  have e1 : (if cs1 then (ov3 + B - 1) % B else ov3) = ov3 - cs1.toNat := by
    cases cs1
    · simp
    · simp only [if_true, Bool.toNat_true] at hfeas ⊢
      exact dec_mod (by omega) (by omega)
  rw [e1]
  have e2 : (if cs2 then (ov3 - cs1.toNat + B - 1) % B else ov3 - cs1.toNat)
      = ov3 - cs1.toNat - cs2.toNat := by
    cases cs2
    · simp
    · simp only [if_true, Bool.toNat_true] at hfeas ⊢
      exact dec_mod (by omega) (by omega)
  rw [e2]
  have e3 : (if cq then (ov3 - cs1.toNat - cs2.toNat + 1) % B
      else ov3 - cs1.toNat - cs2.toNat) = ov3 - cs1.toNat - cs2.toNat + cq.toNat := by
    cases cq
    · simp
    · simp only [if_true, Bool.toNat_true]
      exact inc_mod (by omega)
  rw [e3]
  have : cq.toNat ≤ 1 := by cases cq <;> simp
  omega

/-- The Karatsuba identity in the form in which the merge step realises it.  `X` is
`B^(length/2)`; `h3, h4, h5` are the values of `heap` before and after the two subtractions;
`q1 = q1l + X*q1h` and `q2 = q2l + X*q2h` are the two products in the destination; `mid` is
the middle window after the addition and `ovf` the final counter. -/
theorem karatsuba_identity (X al ah bl bh h3 h4 h5 q1l q1h q2l q2h mid ov3 ovf c1 c2 cq : Nat)
    (E1 : h3 + ov3 * (X * X) = (al + ah) * (bl + bh))
    (D1 : q1l + X * q1h = al * bl) (D2 : q2l + X * q2h = ah * bh)
    (E2 : h4 + (q1l + X * q1h) = h3 + c1 * (X * X))
    (E3 : h5 + (q2l + X * q2h) = h4 + c2 * (X * X))
    (E4 : mid + cq * (X * X) = (q1h + X * q2l) + h5)
    (E5 : ovf + c1 + c2 = ov3 + cq) :
    q1l + X * mid + X * X * X * (q2h + ovf) = (al + X * ah) * (bl + X * bh) := by
  zify at *
  linear_combination X * E4 + (1 - X) * D1 + (X * X - X) * D2 + X * X * X * E5 + X * E3 + X * E2
    + X * E1

/-- The middle term of the Karatsuba identity is below `2 * X^2`. -/
theorem middle_lt (X al ah bl bh : Nat) (h1 : al < X) (h2 : ah < X) (h3 : bl < X)
    (h4 : bh < X) : al * bh + ah * bl < 2 * (X * X) := by
  have e1 : al * bh < X * X := Nat.mul_lt_mul'' h1 h4
  have e2 : ah * bl < X * X := Nat.mul_lt_mul'' h2 h3
  omega

/-! ## Karatsuba multiplication: splitting arrays into halves and quarters -/

theorem split2 (z : List Nat) (h : Nat) (hz : 2 * h ≤ z.length) :
    ∃ zl zh t, z = zl ++ (zh ++ t) ∧ zl.length = h ∧ zh.length = h ∧ t = z.drop (2 * h) := by
  refine ⟨z.take h, (z.drop h).take h, z.drop (2 * h), ?_, ?_, ?_, rfl⟩
  · have e : z.drop (2 * h) = (z.drop h).drop h := by rw [List.drop_drop]; congr 1; omega
    rw [e, List.take_append_drop, List.take_append_drop]
  · rw [List.length_take]; omega
  · rw [List.length_take, List.length_drop]; omega

theorem split4 (z : List Nat) (h : Nat) (hz : 2 * (2 * h) ≤ z.length) :
    ∃ u1 u2 u3 u4 t, z = u1 ++ (u2 ++ (u3 ++ (u4 ++ t))) ∧ u1.length = h ∧ u2.length = h ∧
      u3.length = h ∧ u4.length = h ∧ t = z.drop (2 * (2 * h)) := by
  obtain ⟨u1, u2, t1, e1, l1, l2, ht1⟩ := split2 z h (by omega)
  obtain ⟨u3, u4, t2, e2, l3, l4, ht2⟩ := split2 t1 h (by rw [ht1, List.length_drop]; omega)
  refine ⟨u1, u2, u3, u4, t2, ?_, l1, l2, l3, l4, ?_⟩
  · rw [e1, e2]
  · rw [ht2, ht1, List.drop_drop]; congr 1; omega

theorem drop_app2 {u1 u2 t : List Nat} {h : Nat} (h1 : u1.length = h) (h2 : u2.length = h) :
    (u1 ++ (u2 ++ t)).drop (2 * h) = t := by
  rw [← List.append_assoc]
  exact List.drop_left' (by simp [h1, h2]; omega)

theorem take_app2 {u1 u2 t : List Nat} {h : Nat} (h1 : u1.length = h) (h2 : u2.length = h) :
    (u1 ++ (u2 ++ t)).take (2 * h) = u1 ++ u2 := by
  rw [← List.append_assoc]
  exact List.take_left' (by simp [h1, h2]; omega)

theorem drop_app3 {u1 u2 u3 t : List Nat} {h : Nat} (h1 : u1.length = h) (h2 : u2.length = h)
    (h3 : u3.length = h) : (u1 ++ (u2 ++ (u3 ++ t))).drop (2 * h + h) = t := by
  have e : u1 ++ (u2 ++ (u3 ++ t)) = (u1 ++ (u2 ++ u3)) ++ t := by simp
  rw [e]
  exact List.drop_left' (by simp [h1, h2, h3]; omega)

theorem take_app3 {u1 u2 u3 t : List Nat} {h : Nat} (h1 : u1.length = h) (h2 : u2.length = h)
    (h3 : u3.length = h) : (u1 ++ (u2 ++ (u3 ++ t))).take (2 * h + h) = u1 ++ (u2 ++ u3) := by
  have e : u1 ++ (u2 ++ (u3 ++ t)) = (u1 ++ (u2 ++ u3)) ++ t := by simp
  rw [e]
  exact List.take_left' (by simp [h1, h2, h3]; omega)

/-! ## Karatsuba multiplication: primitives on arrays of exactly `n` digits -/

theorem mbiAddLoop_exact (w n : Nat) (xs add : List Nat) (c : Bool) (hx : xs.length = n)
    (ha : n ≤ add.length) (hd : Digits w xs) (hadd : Digits w add) :
    (mbiAddLoop w n xs add c).1.length = n ∧ Digits w (mbiAddLoop w n xs add c).1 ∧
      val w (mbiAddLoop w n xs add c).1 + (mbiAddLoop w n xs add c).2.toNat * (2 ^ w) ^ n
        = val w xs + val w (add.take n) + c.toNat := by
  obtain ⟨h1, h2, _, h4⟩ := mbiAddLoop_spec w n xs add c (by omega) ha hd hadd
  have hl : (mbiAddLoop w n xs add c).1.length = n := by rw [h1, hx]
  rw [take_of_length_eq hl, take_of_length_eq hx] at h4
  exact ⟨hl, h2, h4⟩

theorem mbiSubLoop_exact (w n : Nat) (xs sub : List Nat) (c : Bool) (hx : xs.length = n)
    (hs : n ≤ sub.length) (hd : Digits w xs) (hsub : Digits w sub) :
    (mbiSubLoop w n xs sub c).1.length = n ∧ Digits w (mbiSubLoop w n xs sub c).1 ∧
      val w (mbiSubLoop w n xs sub c).1 + val w (sub.take n) + c.toNat
        = val w xs + (mbiSubLoop w n xs sub c).2.toNat * (2 ^ w) ^ n := by
  obtain ⟨h1, h2, _, h4⟩ := mbiSubLoop_spec w n xs sub c (by omega) hs hd hsub
  have hl : (mbiSubLoop w n xs sub c).1.length = n := by rw [h1, hx]
  rw [take_of_length_eq hl, take_of_length_eq hx] at h4
  exact ⟨hl, h2, h4⟩

/-- The guarded additions `if( carryb ) mbiAdd( length/2, aux2, ., &carryt )` of the cross
term: the upper half `hh` of `heap` receives the addend exactly when the guard is set. -/
theorem condAdd_exact (w n : Nat) (g : Bool) (hh add : List Nat) (hx : hh.length = n)
    (ha : n ≤ add.length) (hd : Digits w hh) (hadd : Digits w add) :
    (if g then mbiAdd w n hh add false else ⟨hh, false, false⟩).dest.length = n ∧
    Digits w (if g then mbiAdd w n hh add false else ⟨hh, false, false⟩).dest ∧
    val w (if g then mbiAdd w n hh add false else ⟨hh, false, false⟩).dest
        + (if g then mbiAdd w n hh add false else ⟨hh, false, false⟩).carry.toNat * (2 ^ w) ^ n
      = val w hh + g.toNat * val w (add.take n) := by
  cases g with
  | false => simp [hx, hd]
  | true =>
    obtain ⟨h1, h2, h3⟩ := mbiAddLoop_exact w n hh add false hx ha hd hadd
    simp only [if_true, mbiAdd, Bool.toNat_true, one_mul]
    simp only [Bool.toNat_false, add_zero] at h3
    exact ⟨h1, h2, h3⟩

/-! ## Karatsuba multiplication: the cross term -/

theorem length_take_half {z : List Nat} {h : Nat} (hz : z.length = 2 * h) :
    (z.take h).length = h := by
  rw [List.length_take, hz]; omega

theorem length_drop_half {z : List Nat} {h : Nat} (hz : z.length = 2 * h) :
    (z.drop h).length = h := by
  rw [List.length_drop, hz]; omega

theorem length_append_half {x y : List Nat} {h : Nat} (hx : x.length = h) (hy : y.length = h) :
    (x ++ y).length = 2 * h := by
  rw [List.length_append, hx, hy, two_mul]

theorem toNat_le_three (a b c : Bool) : a.toNat + b.toNat + c.toNat ≤ 3 := by
  cases a <;> cases b <;> cases c <;> simp

theorem toNat_and (a b : Bool) : (a && b).toNat = a.toNat * b.toNat := by
  cases a <;> cases b <;> simp

theorem cross_counter (B : Nat) (ct1 ct2 g : Bool) (hB : 4 ≤ B) :
    (if g then
        ((if ct2 then ((if ct1 then (0 + 1) % B else 0) + 1) % B
          else (if ct1 then (0 + 1) % B else 0)) + 1) % B
      else (if ct2 then ((if ct1 then (0 + 1) % B else 0) + 1) % B
          else (if ct1 then (0 + 1) % B else 0)))
      = ct1.toNat + ct2.toNat + g.toNat := by
  have e1 : (1 : Nat) % B = 1 := Nat.mod_eq_of_lt (by omega)
  have e2 : (2 : Nat) % B = 2 := Nat.mod_eq_of_lt (by omega)
  have e3 : (3 : Nat) % B = 3 := Nat.mod_eq_of_lt (by omega)
  cases ct1 <;> cases ct2 <;> cases g <;> simp [e1, e2, e3]

theorem cross_identity (X SA SB sa sb hl hh hh1 hh2 ca cb ct1 ct2 : Nat)
    (V1 : sa + ca * X = SA) (V2 : sb + cb * X = SB) (V3 : hl + X * hh = sb * sa)
    (V4 : hh1 + ct1 * X = hh + cb * sa) (V5 : hh2 + ct2 * X = hh1 + ca * sb) :
    hl + X * hh2 + (ct1 + ct2 + ca * cb) * (X * X) = SA * SB := by
  zify at *
  linear_combination X * V5 + X * V4 + V3 + SB * V1 + (sa + ca * X) * V2

/-- The first part of the recursive case: afterwards `u1` and `u4` hold the truncated sums
`sb` and `sa`, and `heap` together with the counter holds the product of the full sums. -/
theorem karatsubaCross_spec (w k h : Nat) (hk : 2 ^ k = 2 * h) (hw : 4 ≤ 2 ^ w)
    (mult : List Nat → List Nat → List Nat → Option (List Nat)) (Hm : MultSpec w h mult)
    (u1 u2 u3 u4 R al ah Ra bl bh Rb : List Nat)
    (l1 : u1.length = h) (l2 : u2.length = h) (l3 : u3.length = h) (l4 : u4.length = h)
    (lal : al.length = h) (lah : ah.length = h) (lbl : bl.length = h) (lbh : bh.length = h)
    (hdp : Digits w (u1 ++ (u2 ++ (u3 ++ (u4 ++ R)))))
    (hda : Digits w (al ++ (ah ++ Ra))) (hdb : Digits w (bl ++ (bh ++ Rb))) :
    ∃ sb sa heap ov, sb.length = h ∧ sa.length = h ∧ heap.length = 2 * h ∧
      Digits w sb ∧ Digits w sa ∧ Digits w heap ∧ ov ≤ 3 ∧
      karatsubaCross w k mult (u1 ++ (u2 ++ (u3 ++ (u4 ++ R)))) (al ++ (ah ++ Ra))
          (bl ++ (bh ++ Rb))
        = some (sb ++ (u2 ++ (u3 ++ (sa ++ R))), heap, ov) ∧
      val w heap + ov * ((2 ^ w) ^ h * (2 ^ w) ^ h)
        = (val w al + val w ah) * (val w bl + val w bh) := by
  have half : 2 * h / 2 = h := Nat.mul_div_cancel_left h (by decide)
  have f1 : (u1 ++ (u2 ++ (u3 ++ (u4 ++ R)))).drop (2 * h + h) = u4 ++ R := drop_app3 l1 l2 l3
  have f2 : (al ++ (ah ++ Ra)).drop h = ah ++ Ra := List.drop_left' lal
  have f3 : (bl ++ (bh ++ Rb)).drop h = bh ++ Rb := List.drop_left' lbl
  have f4 : (u1 ++ (u2 ++ (u3 ++ (u4 ++ R)))).take (2 * h + h) = u1 ++ (u2 ++ u3) :=
    take_app3 l1 l2 l3
  have hdR : Digits w R := hdp.right.right.right.right
  have hdu2 : Digits w u2 := hdp.right.left
  have hdu3 : Digits w u3 := hdp.right.right.left
  -- the sum `al + ah`, written to `u4`
  obtain ⟨sa, lsa, hdsa, e_sa, V1⟩ := mbiCopyAddLoop_window w h u4 R (al ++ (ah ++ Ra))
    (ah ++ Ra) false l4 (by simp [lal]) (by simp [lah]) hdp.right.right.right hda hda.right
  rw [List.take_left' lal, List.take_left' lah] at V1
  have hdp1 : Digits w (u1 ++ (u2 ++ (u3 ++ (sa ++ R)))) :=
    hdp.left.append (hdu2.append (hdu3.append (hdsa.append hdR)))
  -- the sum `bl + bh`, written to `u1`
  obtain ⟨sb, lsb, hdsb, e_sb, V2⟩ := mbiCopyAddLoop_window w h u1 (u2 ++ (u3 ++ (sa ++ R)))
    (bl ++ (bh ++ Rb)) (bh ++ Rb) false l1 (by simp [lbl]) (by simp [lbh]) hdp1 hdb hdb.right
  rw [List.take_left' lbl, List.take_left' lbh] at V2
  have hdp2 : Digits w (sb ++ (u2 ++ (u3 ++ (sa ++ R)))) :=
    hdsb.append (hdu2.append (hdu3.append (hdsa.append hdR)))
  have f6 : (sb ++ (u2 ++ (u3 ++ (sa ++ R)))).drop (2 * h + h) = sa ++ R := drop_app3 lsb l2 l3
  -- the product of the truncated sums, written to `heap`
  obtain ⟨hp1, lhp1, hdhp1, e_m, V3⟩ := Hm (List.replicate (2 * h) 0)
    (sb ++ (u2 ++ (u3 ++ (sa ++ R)))) (sa ++ R) (by simp) (by simp [lsb]) (by simp [lsa])
    (Digits.replicate_zero w _) hdp2 (hdsa.append hdR)
  rw [List.take_left' lsb, List.take_left' lsa] at V3
  have e_m' : mult (List.replicate (2 * h) 0) (sb ++ (u2 ++ (u3 ++ (sa ++ R)))) (sa ++ R)
      = some hp1 := by
    rw [e_m]; simp
  have lhl : (hp1.take h).length = h := length_take_half lhp1
  have lhh : (hp1.drop h).length = h := length_drop_half lhp1
  have V3' : val w (hp1.take h) + (2 ^ w) ^ h * val w (hp1.drop h) = val w sb * val w sa := by
    rw [← V3]
    have := val_take_add_drop w hp1 h
    rwa [lhl] at this
  -- the two guarded corrections of the upper half of `heap`
  obtain ⟨lt1, hdt1, V4⟩ := condAdd_exact w h
    (mbiCopyAddLoop w h (u1 ++ (u2 ++ (u3 ++ (sa ++ R)))) (bl ++ (bh ++ Rb)) (bh ++ Rb) false).2
    (hp1.drop h) (sa ++ R) lhh (by simp [lsa]) (hdhp1.drop h) (hdsa.append hdR)
  rw [List.take_left' lsa] at V4
  generalize hrt1 : (if (mbiCopyAddLoop w h (u1 ++ (u2 ++ (u3 ++ (sa ++ R)))) (bl ++ (bh ++ Rb))
      (bh ++ Rb) false).2 = true then mbiAdd w h (hp1.drop h) (sa ++ R) false
      else ⟨hp1.drop h, false, false⟩) = rt1 at lt1 hdt1 V4
  have g1 : (hp1.take h ++ rt1.dest).drop h = rt1.dest := List.drop_left' lhl
  have g2 : (hp1.take h ++ rt1.dest).take h = hp1.take h := List.take_left' lhl
  obtain ⟨lt2, hdt2, V5⟩ := condAdd_exact w h
    (mbiCopyAddLoop w h (u4 ++ R) (al ++ (ah ++ Ra)) (ah ++ Ra) false).2
    rt1.dest (sb ++ (u2 ++ (u3 ++ (sa ++ R)))) lt1 (by simp [lsb]) hdt1 hdp2
  rw [List.take_left' lsb] at V5
  generalize hrt2 : (if (mbiCopyAddLoop w h (u4 ++ R) (al ++ (ah ++ Ra)) (ah ++ Ra) false).2
      = true then mbiAdd w h rt1.dest (sb ++ (u2 ++ (u3 ++ (sa ++ R)))) false
      else ⟨rt1.dest, false, false⟩) = rt2 at lt2 hdt2 V5
  have hcomp : karatsubaCross w k mult (u1 ++ (u2 ++ (u3 ++ (u4 ++ R)))) (al ++ (ah ++ Ra))
      (bl ++ (bh ++ Rb))
      = some (sb ++ (u2 ++ (u3 ++ (sa ++ R))), hp1.take h ++ rt2.dest,
          if ((mbiCopyAddLoop w h (u4 ++ R) (al ++ (ah ++ Ra)) (ah ++ Ra) false).2 &&
              (mbiCopyAddLoop w h (u1 ++ (u2 ++ (u3 ++ (sa ++ R)))) (bl ++ (bh ++ Rb))
                (bh ++ Rb) false).2) = true then
            ((if rt2.carry = true then ((if rt1.carry = true then (0 + 1) % 2 ^ w else 0) + 1)
                % 2 ^ w else (if rt1.carry = true then (0 + 1) % 2 ^ w else 0)) + 1) % 2 ^ w
          else (if rt2.carry = true then ((if rt1.carry = true then (0 + 1) % 2 ^ w else 0) + 1)
                % 2 ^ w else (if rt1.carry = true then (0 + 1) % 2 ^ w else 0))) := by
    simp only [karatsubaCross, hk, half, f1, f2, f3, f4, mbiCopyAdd, e_sa, List.append_assoc,
      e_sb, f6, e_m', hrt1, g1, g2, hrt2]
  rw [hcomp, cross_counter (2 ^ w) rt1.carry rt2.carry _ hw]
  generalize (mbiCopyAddLoop w h (u4 ++ R) (al ++ (ah ++ Ra)) (ah ++ Ra) false).2 = ca at *
  generalize (mbiCopyAddLoop w h (u1 ++ (u2 ++ (u3 ++ (sa ++ R)))) (bl ++ (bh ++ Rb))
    (bh ++ Rb) false).2 = cb at *
  refine ⟨sb, sa, hp1.take h ++ rt2.dest, _, lsb, lsa, ?_, hdsb, hdsa,
    (hdhp1.take h).append hdt2, ?_, rfl, ?_⟩
  · exact length_append_half lhl lt2
  · exact toNat_le_three _ _ _
  · rw [val_append, lhl, toNat_and]
    simp only [Bool.toNat_false, add_zero] at V1 V2
    exact cross_identity _ _ _ _ _ _ _ _ _ _ _ _ _ V1 V2 V3' V4 V5

/-! ## Karatsuba multiplication: the merge -/

theorem pow_two_mul (B h : Nat) : B ^ (2 * h) = B ^ h * B ^ h := by
  rw [two_mul, pow_add]

theorem split_half (z : List Nat) (h : Nat) (hz : z.length = 2 * h) :
    ∃ zl zh, z = zl ++ zh ∧ zl.length = h ∧ zh.length = h :=
  ⟨z.take h, z.drop h, (List.take_append_drop h z).symm, length_take_half hz,
    length_drop_half hz⟩

theorem le_length_app1 {u1 t : List Nat} {h : Nat} (h1 : u1.length = h) :
    h ≤ (u1 ++ t).length := by
  rw [List.length_append, h1]; exact Nat.le_add_right _ _

theorem le_length_app2 {u1 u2 t : List Nat} {h : Nat} (h1 : u1.length = h)
    (h2 : u2.length = h) : 2 * h ≤ (u1 ++ (u2 ++ t)).length := by
  rw [List.length_append, List.length_append, h1, h2]; omega

theorem merge_heq (Y al ah bl bh h3 h4 h5 Q1 Q2 ov3 c1 c2 : Nat)
    (E1 : h3 + ov3 * Y = (al + ah) * (bl + bh)) (D1 : Q1 = al * bl) (D2 : Q2 = ah * bh)
    (E2 : h4 + Q1 = h3 + c1 * Y) (E3 : h5 + Q2 = h4 + c2 * Y) :
    h5 + ov3 * Y = (al * bh + ah * bl) + (c1 + c2) * Y := by
  zify at *
  linear_combination E1 + E2 + E3 - D1 - D2

/-- The second part of the recursive case.  On entry `heap` and the counter `ov3` hold the
product of the two sums `(al + ah) * (bl + bh)`; on exit the destination holds the lower
quarter `q1l`, the middle half `mid` and the upper quarter `q2h`, and together with the
counter `ovf`, which is `0`, `1` or `2`, they represent the product of the operands. -/
theorem karatsubaMerge_spec (w k h : Nat) (hk : 2 ^ k = 2 * h) (hw : 4 ≤ 2 ^ w)
    (mult : List Nat → List Nat → List Nat → Option (List Nat)) (Hm : MultSpec w h mult)
    (v1 v2 v3 v4 R al ah Ra bl bh Rb heap : List Nat) (ov3 : Nat)
    (l1 : v1.length = h) (l2 : v2.length = h) (l3 : v3.length = h) (l4 : v4.length = h)
    (lal : al.length = h) (lah : ah.length = h) (lbl : bl.length = h) (lbh : bh.length = h)
    (lheap : heap.length = 2 * h)
    (hdp : Digits w (v1 ++ (v2 ++ (v3 ++ (v4 ++ R)))))
    (hda : Digits w (al ++ (ah ++ Ra))) (hdb : Digits w (bl ++ (bh ++ Rb)))
    (hdheap : Digits w heap) (hov : ov3 ≤ 3)
    (E1 : val w heap + ov3 * ((2 ^ w) ^ h * (2 ^ w) ^ h)
      = (val w al + val w ah) * (val w bl + val w bh)) :
    ∃ q1l mid q2h ovf, q1l.length = h ∧ mid.length = 2 * h ∧ q2h.length = h ∧
      Digits w q1l ∧ Digits w mid ∧ Digits w q2h ∧ ovf ≤ 2 ∧
      karatsubaMerge w k mult (v1 ++ (v2 ++ (v3 ++ (v4 ++ R)))) (al ++ (ah ++ Ra))
          (bl ++ (bh ++ Rb)) heap ov3
        = some (q1l ++ (mid ++ (q2h ++ R)), ovf) ∧
      val w q1l + (2 ^ w) ^ h * val w mid
          + (2 ^ w) ^ h * (2 ^ w) ^ h * (2 ^ w) ^ h * (val w q2h + ovf)
        = (val w al + (2 ^ w) ^ h * val w ah) * (val w bl + (2 ^ w) ^ h * val w bh) := by
  have half : 2 * h / 2 = h := Nat.mul_div_cancel_left h (by decide)
  have hdR : Digits w R := hdp.right.right.right.right
  have f2 : (al ++ (ah ++ Ra)).drop h = ah ++ Ra := List.drop_left' lal
  have f3 : (bl ++ (bh ++ Rb)).drop h = bh ++ Rb := List.drop_left' lbl
  have f5 : (v1 ++ (v2 ++ (v3 ++ (v4 ++ R)))).drop (2 * h) = v3 ++ (v4 ++ R) := drop_app2 l1 l2
  -- the product `al * bl`, written to the lower half of the destination
  obtain ⟨q1, lq1, hdq1, e7, D1⟩ := Hm (v1 ++ (v2 ++ (v3 ++ (v4 ++ R)))) (al ++ (ah ++ Ra))
    (bl ++ (bh ++ Rb)) (le_length_app2 l1 l2) (le_length_app1 lal) (le_length_app1 lbl)
    hdp hda hdb
  rw [f5] at e7
  rw [List.take_left' lal, List.take_left' lbl] at D1
  -- the product `ah * bh`, written to the upper half of the destination
  obtain ⟨q2, lq2, hdq2, e8, D2⟩ := Hm (v3 ++ (v4 ++ R)) (ah ++ Ra) (bh ++ Rb)
    (le_length_app2 l3 l4) (le_length_app1 lah) (le_length_app1 lbh)
    hdp.right.right hda.right hdb.right
  rw [drop_app2 l3 l4] at e8
  rw [List.take_left' lah, List.take_left' lbh] at D2
  obtain ⟨q1l, q1h, rfl, lq1l, lq1h⟩ := split_half q1 h lq1
  obtain ⟨q2l, q2h, rfl, lq2l, lq2h⟩ := split_half q2 h lq2
  rw [val_append, lq1l] at D1
  rw [val_append, lq2l] at D2
  have e7' : mult (v1 ++ (v2 ++ (v3 ++ (v4 ++ R)))) (al ++ (ah ++ Ra)) (bl ++ (bh ++ Rb))
      = some (q1l ++ (q1h ++ (v3 ++ (v4 ++ R)))) := by
    rw [e7, List.append_assoc]
  have e8' : mult (v3 ++ (v4 ++ R)) (ah ++ Ra) (bh ++ Rb) = some (q2l ++ (q2h ++ R)) := by
    rw [e8, List.append_assoc]
  have g1 : (q1l ++ (q1h ++ (v3 ++ (v4 ++ R)))).drop (2 * h) = v3 ++ (v4 ++ R) :=
    drop_app2 lq1l lq1h
  have g2 : (q1l ++ (q1h ++ (v3 ++ (v4 ++ R)))).take (2 * h) = q1l ++ q1h := take_app2 lq1l lq1h
  have hdP : Digits w (q1l ++ (q1h ++ (q2l ++ (q2h ++ R)))) :=
    hdq1.left.append (hdq1.right.append (hdq2.left.append (hdq2.right.append hdR)))
  have g3 : (q1l ++ (q1h ++ (q2l ++ (q2h ++ R)))).drop (2 * h) = q2l ++ (q2h ++ R) :=
    drop_app2 lq1l lq1h
  have g4 : (q1l ++ (q1h ++ (q2l ++ (q2h ++ R)))).drop h = q1h ++ (q2l ++ (q2h ++ R)) :=
    List.drop_left' lq1l
  have g5 : (q1l ++ (q1h ++ (q2l ++ (q2h ++ R)))).take h = q1l := List.take_left' lq1l
  -- the two subtractions from `heap`
  obtain ⟨lh4, hdh4, E2⟩ := mbiSubLoop_exact w (2 * h) heap
    (q1l ++ (q1h ++ (q2l ++ (q2h ++ R)))) false lheap (le_length_app2 lq1l lq1h) hdheap hdP
  have t1 : (q1l ++ (q1h ++ (q2l ++ (q2h ++ R)))).take (2 * h) = q1l ++ q1h :=
    take_app2 lq1l lq1h
  rw [t1, val_append, lq1l, pow_two_mul] at E2
  generalize hs1 : mbiSubLoop w (2 * h) heap (q1l ++ (q1h ++ (q2l ++ (q2h ++ R)))) false = s1
    at lh4 hdh4 E2
  obtain ⟨lh5, hdh5, E3⟩ := mbiSubLoop_exact w (2 * h) s1.1
    (q2l ++ (q2h ++ R)) false lh4 (le_length_app2 lq2l lq2h) hdh4 hdP.right.right
  have t2 : (q2l ++ (q2h ++ R)).take (2 * h) = q2l ++ q2h := take_app2 lq2l lq2h
  rw [t2, val_append, lq2l, pow_two_mul] at E3
  generalize hs2 : mbiSubLoop w (2 * h) s1.1 (q2l ++ (q2h ++ R)) false = s2 at lh5 hdh5 E3
  -- the addition of `heap` to the middle of the destination
  obtain ⟨mid, lmid, hdmid, e11, E4⟩ := mbiAddLoop_window w (2 * h) (q1h ++ q2l) (q2h ++ R)
    s2.1 false (length_append_half lq1h lq2l) (le_of_eq lh5.symm)
    (by rw [List.append_assoc]; exact hdP.right) hdh5
  rw [List.append_assoc] at e11 E4
  rw [take_of_length_eq lh5, val_append, lq1h, pow_two_mul] at E4
  generalize ha3 : mbiAddLoop w (2 * h) (q1h ++ (q2l ++ (q2h ++ R))) s2.1 false = a3 at e11 E4
  have hcomp : karatsubaMerge w k mult (v1 ++ (v2 ++ (v3 ++ (v4 ++ R)))) (al ++ (ah ++ Ra))
      (bl ++ (bh ++ Rb)) heap ov3
      = some (q1l ++ (mid ++ (q2h ++ R)),
          if a3.2 = true then
            ((if s2.2 = true then
                ((if s1.2 = true then (ov3 + 2 ^ w - 1) % 2 ^ w else ov3) + 2 ^ w - 1) % 2 ^ w
              else (if s1.2 = true then (ov3 + 2 ^ w - 1) % 2 ^ w else ov3)) + 1) % 2 ^ w
          else (if s2.2 = true then
                ((if s1.2 = true then (ov3 + 2 ^ w - 1) % 2 ^ w else ov3) + 2 ^ w - 1) % 2 ^ w
              else (if s1.2 = true then (ov3 + 2 ^ w - 1) % 2 ^ w else ov3))) := by
    simp only [karatsubaMerge, hk, half, f2, f3, e7', g1, g2, e8', List.append_assoc, mbiSub,
      g3, g4, g5, mbiAdd, hs1, hs2, ha3, e11]
  simp only [Bool.toNat_false, add_zero] at E2 E3 E4
  have hlt5 := val_lt hdh5
  rw [lh5, pow_two_mul] at hlt5
  have hM := middle_lt ((2 ^ w) ^ h) (val w al) (val w ah) (val w bl) (val w bh)
    (lal ▸ val_lt hda.left) (lah ▸ val_lt hda.right.left) (lbl ▸ val_lt hdb.left)
    (lbh ▸ val_lt hdb.right.left)
  have heq := merge_heq _ _ _ _ _ _ _ _ _ _ _ _ _ E1 D1 D2 E2 E3
  obtain ⟨E5, hle⟩ := counter_arith (2 ^ w) _ _ _ ov3 s1.2 s2.2 a3.2 hw hov hlt5 hM heq
  refine ⟨q1l, mid, q2h, _, lq1l, lmid, lq2h, hdq1.left, hdmid, hdq2.right, hle, hcomp, ?_⟩
  exact karatsuba_identity _ _ _ _ _ _ _ _ _ _ _ _ _ _ _ _ _ _ E1 D1 D2 E2 E3 E4 E5

/-! ## Karatsuba multiplication: applying the counter, and the recursion -/

theorem drop_app12 {x y t : List Nat} {h : Nat} (hx : x.length = h) (hy : y.length = 2 * h) :
    (x ++ (y ++ t)).drop (2 * h + h) = t := by
  rw [← List.append_assoc]
  exact List.drop_left' (by rw [List.length_append, hx, hy]; omega)

theorem take_app12 {x y t : List Nat} {h : Nat} (hx : x.length = h) (hy : y.length = 2 * h) :
    (x ++ (y ++ t)).take (2 * h + h) = x ++ y := by
  rw [← List.append_assoc]
  exact List.take_left' (by rw [List.length_append, hx, hy]; omega)

theorem inc_no_carry {x v X : Nat} {c : Bool} (h : x + c.toNat * X = v + 1) (hlt : v + 1 < X) :
    x = v + 1 := by
  cases c
  · simpa using h
  · simp only [Bool.toNat_true, one_mul] at h; omega

/-- The increments of the top quarter selected by the counter: when the counter is `0`, `1`
or `2` and the top quarter has room for it, the counter is added to the top quarter. -/
theorem karatsubaApply_spec (w k h : Nat) (hk : 2 ^ k = 2 * h) (h0 : 0 < h)
    (q1l mid q2h R : List Nat) (ovf : Nat)
    (l1 : q1l.length = h) (lm : mid.length = 2 * h) (l2 : q2h.length = h)
    (hd : Digits w (q2h ++ R)) (hov : ovf ≤ 2) (hroom : val w q2h + ovf < (2 ^ w) ^ h) :
    ∃ top, top.length = h ∧ Digits w top ∧
      karatsubaApply w k (q1l ++ (mid ++ (q2h ++ R))) ovf = q1l ++ (mid ++ (top ++ R)) ∧
      val w top = val w q2h + ovf := by
  have half : 2 * h / 2 = h := Nat.mul_div_cancel_left h (by decide)
  have f1 : (q1l ++ (mid ++ (q2h ++ R))).drop (2 * h + h) = q2h ++ R := drop_app12 l1 lm
  have f2 : (q1l ++ (mid ++ (q2h ++ R))).take (2 * h + h) = q1l ++ mid := take_app12 l1 lm
  obtain ⟨t1, lt1, hdt1, e1, V1⟩ := mbiInc_window w h q2h R h0 l2 hd
  have f3 : (q1l ++ (mid ++ (t1 ++ R))).drop (2 * h + h) = t1 ++ R := drop_app12 l1 lm
  have f4 : (q1l ++ (mid ++ (t1 ++ R))).take (2 * h + h) = q1l ++ mid := take_app12 l1 lm
  obtain ⟨t2, lt2, hdt2, e2, V2⟩ := mbiInc_window w h t1 R h0 lt1 (hdt1.append hd.right)
  rcases Nat.lt_or_ge ovf 1 with h1 | h1
  · have hz : ovf = 0 := by omega
    subst hz
    refine ⟨q2h, l2, hd.left, ?_, rfl⟩
    simp [karatsubaApply]
  · rcases Nat.lt_or_ge ovf 2 with h2 | h2
    · have hz : ovf = 1 := by omega
      subst hz
      refine ⟨t1, lt1, hdt1, ?_, inc_no_carry V1 hroom⟩
      simp only [karatsubaApply, hk, half, f1, f2, e1, if_true, List.append_assoc]
    · have hz : ovf = 2 := by omega
      subst hz
      have v1 : val w t1 = val w q2h + 1 := inc_no_carry V1 (by omega)
      rw [v1] at V2
      have v2 : val w t2 = val w q2h + 1 + 1 := inc_no_carry V2 (by omega)
      refine ⟨t2, lt2, hdt2, ?_, v2⟩
      have hne : ¬ (2 = 1) := by decide
      simp only [karatsubaApply, hk, half, f1, f2, e1, if_true, hne, if_false,
        List.append_assoc, f3, f4, e2]

/-- The top quarter has room for the counter: the product fills the `4 * h` digits. -/
theorem top_room {X A Bv lo mid t : Nat} (hA : A < X * X) (hB : Bv < X * X)
    (h : lo + X * mid + X * X * X * t = A * Bv) : t < X := by
  by_contra hn
  have h1 : X * X * X * X ≤ X * X * X * t := Nat.mul_le_mul_left _ (by omega)
  have h2 : A * Bv < (X * X) * (X * X) := Nat.mul_lt_mul'' hA hB
  have h3 : X * X * (X * X) = X * X * X * X := by ring
  omega

/-- One level of the recursion: if the routine called for operands of `h` digits meets its
contract, the recursive case meets the contract for operands of `2 * h` digits. -/
theorem karatsubaStep_spec (w k h : Nat) (hk : 2 ^ k = 2 * h) (h0 : 0 < h) (hw : 4 ≤ 2 ^ w)
    (mult : List Nat → List Nat → List Nat → Option (List Nat)) (Hm : MultSpec w h mult) :
    MultSpec w (2 * h) (karatsubaStep w k mult) := by
  intro p a b hp ha hb hdp hda hdb
  obtain ⟨u1, u2, u3, u4, R, rfl, l1, l2, l3, l4, hR⟩ := split4 p h hp
  obtain ⟨al, ah, Ra, rfl, lal, lah, _⟩ := split2 a h ha
  obtain ⟨bl, bh, Rb, rfl, lbl, lbh, _⟩ := split2 b h hb
  rw [← hR, take_app2 lal lah, take_app2 lbl lbh, val_append, val_append, lal, lbl]
  obtain ⟨sb, sa, heap, ov3, lsb, lsa, lheap, hdsb, hdsa, hdheap, hov3, eC, E1⟩ :=
    karatsubaCross_spec w k h hk hw mult Hm u1 u2 u3 u4 R al ah Ra bl bh Rb l1 l2 l3 l4
      lal lah lbl lbh hdp hda hdb
  have hdp2 : Digits w (sb ++ (u2 ++ (u3 ++ (sa ++ R)))) :=
    hdsb.append (hdp.right.left.append (hdp.right.right.left.append
      (hdsa.append hdp.right.right.right.right)))
  obtain ⟨q1l, mid, q2h, ovf, lq1l, lmid, lq2h, hdq1l, hdmid, hdq2h, hovf, eM, E6⟩ :=
    karatsubaMerge_spec w k h hk hw mult Hm sb u2 u3 sa R al ah Ra bl bh Rb heap ov3
      lsb l2 l3 lsa lal lah lbl lbh lheap hdp2 hda hdb hdheap hov3 E1
  have hA : val w al + (2 ^ w) ^ h * val w ah < (2 ^ w) ^ h * (2 ^ w) ^ h := by
    have := val_lt (hda.left.append hda.right.left)
    rwa [val_append, lal, length_append_half lal lah, pow_two_mul] at this
  have hB : val w bl + (2 ^ w) ^ h * val w bh < (2 ^ w) ^ h * (2 ^ w) ^ h := by
    have := val_lt (hdb.left.append hdb.right.left)
    rwa [val_append, lbl, length_append_half lbl lbh, pow_two_mul] at this
  have hroom := top_room hA hB E6
  have hdR : Digits w R := hdp.right.right.right.right
  obtain ⟨top, ltop, hdtop, eA, VA⟩ := karatsubaApply_spec w k h hk h0 q1l mid q2h R ovf
    lq1l lmid lq2h (hdq2h.append hdR) hovf hroom
  refine ⟨q1l ++ (mid ++ top), ?_, hdq1l.append (hdmid.append hdtop), ?_, ?_⟩
  · rw [List.length_append, List.length_append, lq1l, lmid, ltop]; omega
  · simp only [karatsubaStep, eC, eM, eA, List.append_assoc]
  · rw [val_append, val_append, lq1l, lmid, VA, pow_two_mul, ← E6]
    ring

/-- The function `mbiMultiply` meets the contract of a multiplication routine for operands of `2^k`
digits, provided the schoolbook base case does not wrap its overflow counts
(`min k 5 < w`). -/
theorem mbiMultiply_spec (w : Nat) : ∀ k, min k 5 < w → MultSpec w (2 ^ k) (mbiMultiply w k)
  | 0, hw => by
    intro p a b hp _ _ hdp hda hdb
    exact mbiNaivMultiplication_spec w 0 p a b (by omega) hp hdp hda hdb
  | k + 1, hw => by
    by_cases hk5 : k + 1 ≤ 5
    · intro p a b hp _ _ hdp hda hdb
      have e : mbiMultiply w (k + 1) p a b = mbiNaivMultiplication w (k + 1) p a b := by
        simp [mbiMultiply, hk5]
      rw [e]
      exact mbiNaivMultiplication_spec w (k + 1) p a b (by omega) hp hdp hda hdb
    · have ih := mbiMultiply_spec w k (by omega)
      have hw4 : 4 ≤ 2 ^ w := by
        have : 2 ^ 2 ≤ 2 ^ w := Nat.pow_le_pow_right (by decide) (by omega)
        simpa using this
      have hstep := karatsubaStep_spec w (k + 1) (2 ^ k) (by rw [pow_succ]; omega)
        (Nat.two_pow_pos k) hw4 (mbiMultiply w k) ih
      have e : mbiMultiply w (k + 1) = karatsubaStep w (k + 1) (mbiMultiply w k) := by
        funext p a b
        simp [mbiMultiply, hk5]
      rw [e, pow_succ, Nat.mul_comm]
      exact hstep

/-! ## `getFittingExponent` -/

theorem shiftOne_of_lt {w k : Nat} (h : k < w) : shiftOne w k = 2 ^ k :=
  Nat.mod_eq_of_lt (Nat.pow_lt_pow_right (by decide) h)

/-- The loop of `getFittingExponent` while the power of two is representable: it stops at the
least exponent whose power reaches `n`. -/
theorem getFittingExponentLoop_spec (w n : Nat) (hw : w ≤ 256) (hn : n ≤ 2 ^ (w - 1)) :
    ∀ fuel k, fuel + k = 256 → k < w → (∀ j, j < k → 2 ^ j < n) →
      getFittingExponentLoop w n fuel k < w ∧ n ≤ 2 ^ getFittingExponentLoop w n fuel k ∧
      ∀ j, j < getFittingExponentLoop w n fuel k → 2 ^ j < n
  | 0, k, hf, hk, _ => by omega
  | fuel + 1, k, hf, hk, hinv => by
    rw [getFittingExponentLoop, shiftOne_of_lt hk]
    by_cases hc : 2 ^ k < n ∧ k ≤ 254
    · rw [if_pos hc]
      have hk1 : k + 1 < w := by
        by_contra hcon
        have : w - 1 ≤ k := by omega
        have := Nat.pow_le_pow_right (show 0 < 2 by decide) this
        omega
      apply getFittingExponentLoop_spec w n hw hn fuel (k + 1) (by omega) hk1
      intro j hj
      rcases Nat.lt_or_ge j k with h | h
      · exact hinv j h
      · have : j = k := by omega
        rw [this]; exact hc.1
    · rw [if_neg hc]
      refine ⟨hk, ?_, hinv⟩
      by_cases h254 : k ≤ 254
      · have : ¬ 2 ^ k < n := fun h => hc ⟨h, h254⟩
        omega
      · have : k = w - 1 := by omega
        rw [this]; exact hn

theorem getFittingExponent_spec (w n : Nat) (hw0 : 0 < w) (hw : w ≤ 256)
    (hn : n ≤ 2 ^ (w - 1)) :
    getFittingExponent w n < w ∧ n ≤ 2 ^ getFittingExponent w n ∧
      ∀ j, j < getFittingExponent w n → 2 ^ j < n :=
  getFittingExponentLoop_spec w n hw hn 256 0 rfl hw0 (fun j hj => absurd hj (Nat.not_lt_zero j))

/-! ## `mbiMultiplikation` -/

theorem max_ite (n1 n2 : Nat) : (if n1 > n2 then n1 else n2) = max n1 n2 := by
  split_ifs with h
  · exact (Nat.max_eq_left (Nat.le_of_lt h)).symm
  · exact (Nat.max_eq_right (Nat.le_of_not_lt h)).symm

theorem mbiCopy_zeros (m n1 : Nat) (fak : List Nat) (h1 : fak.length = n1) (hm : n1 ≤ m)
    (t : Nat) :
    mbiCopy n1 (List.replicate (m + t) 0) fak
      = (fak ++ List.replicate (m - n1) 0) ++ List.replicate t 0 := by
  rw [mbiCopy_eq _ _ _ (by rw [List.length_replicate]; omega) (by omega),
    take_of_length_eq h1, List.drop_replicate, List.append_assoc, ← List.replicate_add]
  congr 2
  omega

/-- The contents of the `calloc`ed block of `mbiMultiplikation` after the two operands have
been copied in: `2*n` zero digits and the two operands padded with zeros to `n` digits. -/
theorem padded_block (n n1 n2 : Nat) (fak1 fak2 : List Nat) (h1 : fak1.length = n1)
    (h2 : fak2.length = n2) (hn1 : n1 ≤ n) (hn2 : n2 ≤ n) :
    ((List.replicate (n * 4) 0).take (n * 2)
        ++ mbiCopy n1 ((List.replicate (n * 4) 0).drop (n * 2)) fak1).take (n * 3)
      ++ mbiCopy n2
          (((List.replicate (n * 4) 0).take (n * 2)
            ++ mbiCopy n1 ((List.replicate (n * 4) 0).drop (n * 2)) fak1).drop (n * 3)) fak2
      = List.replicate (2 * n) 0
        ++ ((fak1 ++ List.replicate (n - n1) 0) ++ (fak2 ++ List.replicate (n - n2) 0)) := by
  have e1 : (List.replicate (n * 4) 0).take (n * 2) = List.replicate (2 * n) 0 := by
    rw [List.take_replicate]; congr 1; omega
  have e2 : (List.replicate (n * 4) 0).drop (n * 2) = List.replicate (n + n) 0 := by
    rw [List.drop_replicate]; congr 1; omega
  have lpa : (fak1 ++ List.replicate (n - n1) 0).length = n := by
    rw [List.length_append, List.length_replicate, h1]; omega
  have e3 := mbiCopy_zeros n n1 fak1 h1 hn1 n
  have e4 := mbiCopy_zeros n n2 fak2 h2 hn2 0
  have l3 : (List.replicate (2 * n) 0 ++ (fak1 ++ List.replicate (n - n1) 0)).length = n * 3 := by
    rw [List.length_append, List.length_replicate, lpa]; omega
  rw [e1, e2, e3, ← List.append_assoc, List.take_left' l3, List.drop_left' l3]
  rw [Nat.add_zero] at e4
  rw [e4]
  simp

theorem val_pad (w : Nat) (z : List Nat) (m : Nat) :
    val w (z ++ List.replicate m 0) = val w z := by
  rw [val_append, val_replicate_zero, Nat.mul_zero, Nat.add_zero]

/-- A number below `B^m` is the value of its first `m` digits. -/
theorem val_take_of_lt (w : Nat) (q : List Nat) (m : Nat) (hm : m ≤ q.length)
    (hlt : val w q < (2 ^ w) ^ m) : val w (q.take m) = val w q ∧ val w (q.drop m) = 0 := by
  have h := val_take_add_drop w q m
  have hl : (q.take m).length = m := by rw [List.length_take]; omega
  rw [hl] at h
  have hz : val w (q.drop m) = 0 := by
    by_contra hne
    have h1 : (2 ^ w) ^ m * 1 ≤ (2 ^ w) ^ m * val w (q.drop m) :=
      Nat.mul_le_mul_left _ (Nat.one_le_iff_ne_zero.mpr hne)
    omega
  rw [hz, Nat.mul_zero, Nat.add_zero] at h
  exact ⟨h, hz⟩

theorem val_mul_lt (w : Nat) (x y : List Nat) (hx : Digits w x) (hy : Digits w y) :
    val w x * val w y < (2 ^ w) ^ (x.length + y.length) := by
  rw [pow_add]
  exact Nat.mul_lt_mul'' (val_lt hx) (val_lt hy)

theorem Digits.pad {w : Nat} {z : List Nat} (h : Digits w z) (m : Nat) :
    Digits w (z ++ List.replicate m 0) := h.append (Digits.replicate_zero w m)

theorem length_pad (z : List Nat) (n n1 : Nat) (h : z.length = n1) (hn : n1 ≤ n) :
    (z ++ List.replicate (n - n1) 0).length = n := by
  rw [List.length_append, List.length_replicate, h]; omega

theorem drop_block2 (n : Nat) (x y : List Nat) (hx : x.length = n) :
    (List.replicate (2 * n) 0 ++ (x ++ y)).drop (n * 2) = x ++ y ∧
    (List.replicate (2 * n) 0 ++ (x ++ y)).drop (n * 3) = y ∧
    (List.replicate (2 * n) 0 ++ (x ++ y)).drop (2 * n) = x ++ y ∧
    2 * n ≤ (List.replicate (2 * n) 0 ++ (x ++ y)).length := by
  refine ⟨List.drop_left' (by simp; omega), ?_, List.drop_left' (by simp), by simp⟩
  rw [← List.append_assoc]
  exact List.drop_left' (by simp [hx]; omega)

theorem copy_result (m : Nat) (dest q t : List Nat) (hm : m ≤ dest.length)
    (hq : m ≤ q.length) :
    mbiCopy m dest (q ++ t) = q.take m ++ dest.drop m := by
  rw [mbiCopy_eq _ _ _ hm (by rw [List.length_append]; omega), List.take_append_of_le_length hq]

/-- The call of `mbiMultiplikation` on operands whose lengths admit a representable power of two. -/
theorem mbiMultiplikation_spec (w : Nat) (dest : List Nat) (n1 : Nat) (fak1 : List Nat)
    (n2 : Nat) (fak2 : List Nat) (hw0 : 0 < w) (hw : w ≤ 256)
    (hmax : max n1 n2 ≤ 2 ^ (w - 1)) (h1 : fak1.length = n1) (h2 : fak2.length = n2)
    (hd : n1 + n2 ≤ dest.length) (hd1 : Digits w fak1) (hd2 : Digits w fak2) :
    ∃ q, q.length = 2 * 2 ^ getFittingExponent w (max n1 n2) ∧ Digits w q ∧
      val w q = val w fak1 * val w fak2 ∧
      mbiMultiplikation w dest n1 fak1 n2 fak2
        = some ⟨q.take (n1 + n2) ++ dest.drop (n1 + n2), false⟩ := by
  obtain ⟨hkw, hnk, _⟩ := getFittingExponent_spec w (max n1 n2) hw0 hw hmax
  simp only [mbiMultiplikation, max_ite]
  generalize getFittingExponent w (max n1 n2) = k at *
  have hn1 : n1 ≤ 2 ^ k := le_trans (Nat.le_max_left _ _) hnk
  have hn2 : n2 ≤ 2 ^ k := le_trans (Nat.le_max_right _ _) hnk
  have hne : shiftOne w k ≠ 0 := by
    rw [shiftOne_of_lt hkw]; exact Nat.ne_of_gt (Nat.two_pow_pos k)
  have lpa := length_pad fak1 (2 ^ k) n1 h1 hn1
  have lpb := length_pad fak2 (2 ^ k) n2 h2 hn2
  obtain ⟨f1, f2, f3, f4⟩ := drop_block2 (2 ^ k) (fak1 ++ List.replicate (2 ^ k - n1) 0)
    (fak2 ++ List.replicate (2 ^ k - n2) 0) lpa
  obtain ⟨q, lq, hdq, eq, hv⟩ := mbiMultiply_spec w k (lt_of_le_of_lt (Nat.min_le_left _ _) hkw)
    (List.replicate (2 * 2 ^ k) 0 ++ ((fak1 ++ List.replicate (2 ^ k - n1) 0)
      ++ (fak2 ++ List.replicate (2 ^ k - n2) 0)))
    ((fak1 ++ List.replicate (2 ^ k - n1) 0) ++ (fak2 ++ List.replicate (2 ^ k - n2) 0))
    (fak2 ++ List.replicate (2 ^ k - n2) 0) f4 (le_length_app1 lpa) (le_of_eq lpb.symm)
    ((Digits.replicate_zero w _).append ((hd1.pad _).append (hd2.pad _)))
    ((hd1.pad _).append (hd2.pad _)) (hd2.pad _)
  rw [List.take_left' lpa, take_of_length_eq lpb, val_pad, val_pad] at hv
  rw [f3] at eq
  refine ⟨q, lq, hdq, hv, ?_⟩
  have hcopy := copy_result (n1 + n2) dest q
    ((fak1 ++ List.replicate (2 ^ k - n1) 0) ++ (fak2 ++ List.replicate (2 ^ k - n2) 0)) hd
    (by rw [lq]; omega)
  simp only [hne, if_false, padded_block (2 ^ k) n1 n2 fak1 fak2
    h1 h2 hn1 hn2, f1, f2, eq, hcopy]

/-! ## Zero operands -/

/-- A sequence of digits of value zero consists of zero digits. -/
theorem eq_replicate_of_val_zero (w : Nat) : ∀ (z : List Nat), val w z = 0 →
    z = List.replicate z.length 0
  | [], _ => rfl
  | d :: z, h => by
    have hB : 0 < 2 ^ w := Nat.two_pow_pos w
    simp only [val] at h
    have hd : d = 0 := by omega
    have hz : val w z = 0 := by
      rcases Nat.eq_zero_or_pos (val w z) with h0 | h0
      · exact h0
      · have : 0 < 2 ^ w * val w z := Nat.mul_pos hB h0
        omega
    rw [List.length_cons, List.replicate_succ, hd, ← eq_replicate_of_val_zero w z hz]

/-- The routine `mbiMultiply` applied to operands one of which has value zero leaves a
destination of zero digits. -/
theorem mbiMultiply_zero (w k : Nat) (p a b : List Nat) (hw : min k 5 < w)
    (hp : p.length = 2 ^ (k + 1)) (ha : a.length = 2 ^ k) (hb : b.length = 2 ^ k)
    (hdp : Digits w p) (hda : Digits w a) (hdb : Digits w b)
    (hz : val w a = 0 ∨ val w b = 0) :
    mbiMultiply w k p a b = some (List.replicate (2 ^ (k + 1)) 0) := by
  have h2 : 2 ^ (k + 1) = 2 * 2 ^ k := by rw [pow_succ]; omega
  obtain ⟨q, lq, _, e, hv⟩ := mbiMultiply_spec w k hw p a b (by omega) (le_of_eq ha.symm)
    (le_of_eq hb.symm) hdp hda hdb
  rw [take_of_length_eq ha, take_of_length_eq hb] at hv
  have hdrop : p.drop (2 * 2 ^ k) = [] := List.drop_eq_nil_of_le (by omega)
  rw [hdrop, List.append_nil] at e
  have hq0 : val w q = 0 := by
    rcases hz with h | h
    · rw [hv, h, Nat.zero_mul]
    · rw [hv, h, Nat.mul_zero]
  have hq := eq_replicate_of_val_zero w q hq0
  rw [lq, ← h2] at hq
  rw [e, hq]

/-! ## The overflow counter of the Karatsuba multiplication -/

/-- The state of the recursive case before the counter is applied: the destination holds
the lower quarter `q1l`, the middle half `mid` and the upper quarter `q2h`; the counter is
`0`, `1` or `2`; together they represent the product; and the upper quarter has room for the
counter. -/
theorem karatsubaCounter_spec (w k h : Nat) (hk : 2 ^ k = 2 * h) (hw : 4 ≤ 2 ^ w)
    (mult : List Nat → List Nat → List Nat → Option (List Nat)) (Hm : MultSpec w h mult)
    (p a b : List Nat) (hp : 2 * (2 * h) ≤ p.length) (ha : 2 * h ≤ a.length)
    (hb : 2 * h ≤ b.length) (hdp : Digits w p) (hda : Digits w a) (hdb : Digits w b) :
    ∃ q1l mid q2h ovf, q1l.length = h ∧ mid.length = 2 * h ∧ q2h.length = h ∧
      Digits w q1l ∧ Digits w mid ∧ Digits w q2h ∧ ovf ≤ 2 ∧
      karatsubaCounter w k mult p a b
        = some (q1l ++ (mid ++ (q2h ++ p.drop (2 * (2 * h)))), ovf) ∧
      val w q1l + (2 ^ w) ^ h * val w mid
          + (2 ^ w) ^ h * (2 ^ w) ^ h * (2 ^ w) ^ h * (val w q2h + ovf)
        = val w (a.take (2 * h)) * val w (b.take (2 * h)) ∧
      val w q2h + ovf < (2 ^ w) ^ h := by
  obtain ⟨u1, u2, u3, u4, R, rfl, l1, l2, l3, l4, hR⟩ := split4 p h hp
  obtain ⟨al, ah, Ra, rfl, lal, lah, _⟩ := split2 a h ha
  obtain ⟨bl, bh, Rb, rfl, lbl, lbh, _⟩ := split2 b h hb
  rw [← hR, take_app2 lal lah, take_app2 lbl lbh, val_append, val_append, lal, lbl]
  obtain ⟨sb, sa, heap, ov3, lsb, lsa, lheap, hdsb, hdsa, hdheap, hov3, eC, E1⟩ :=
    karatsubaCross_spec w k h hk hw mult Hm u1 u2 u3 u4 R al ah Ra bl bh Rb l1 l2 l3 l4
      lal lah lbl lbh hdp hda hdb
  have hdp2 : Digits w (sb ++ (u2 ++ (u3 ++ (sa ++ R)))) :=
    hdsb.append (hdp.right.left.append (hdp.right.right.left.append
      (hdsa.append hdp.right.right.right.right)))
  obtain ⟨q1l, mid, q2h, ovf, lq1l, lmid, lq2h, hdq1l, hdmid, hdq2h, hovf, eM, E6⟩ :=
    karatsubaMerge_spec w k h hk hw mult Hm sb u2 u3 sa R al ah Ra bl bh Rb heap ov3
      lsb l2 l3 lsa lal lah lbl lbh lheap hdp2 hda hdb hdheap hov3 E1
  have hA : val w al + (2 ^ w) ^ h * val w ah < (2 ^ w) ^ h * (2 ^ w) ^ h := by
    have := val_lt (hda.left.append hda.right.left)
    rwa [val_append, lal, length_append_half lal lah, pow_two_mul] at this
  have hB : val w bl + (2 ^ w) ^ h * val w bh < (2 ^ w) ^ h * (2 ^ w) ^ h := by
    have := val_lt (hdb.left.append hdb.right.left)
    rwa [val_append, lbl, length_append_half lbl lbh, pow_two_mul] at this
  have hroom := top_room hA hB E6
  refine ⟨q1l, mid, q2h, ovf, lq1l, lmid, lq2h, hdq1l, hdmid, hdq2h, hovf, ?_, E6, hroom⟩
  simp only [karatsubaCounter, eC, eM]

/-- A counter that is at most `2` reads the same signed as unsigned when the digit has at
least three bits. -/
theorem signedValue_of_le_two (w x : Nat) (hw : 3 ≤ w) (hx : x ≤ 2) :
    signedValue w x = (x : Int) := by
  have h8 : 2 ^ 3 ≤ 2 ^ w := Nat.pow_le_pow_right (by decide) hw
  have : 2 * x < 2 ^ w := by
    have e : (2 : Nat) ^ 3 = 8 := by decide
    omega
  simp only [signedValue, this, if_true]

/-- The first part of the recursive case for operands of `2^k` digits: the scratch area and
the counter hold the product of the two sums of halves. -/
theorem karatsubaCross_full (w k : Nat) (hk : 1 ≤ k) (hw : 2 ≤ w)
    (mult : List Nat → List Nat → List Nat → Option (List Nat))
    (Hm : MultSpec w (2 ^ k / 2) mult) (p a b : List Nat)
    (hp : p.length = 2 ^ (k + 1)) (ha : a.length = 2 ^ k) (hb : b.length = 2 ^ k)
    (hdp : Digits w p) (hda : Digits w a) (hdb : Digits w b) :
    ∃ p1 heap overflow, karatsubaCross w k mult p a b = some (p1, heap, overflow) ∧
      p1.length = 2 ^ (k + 1) ∧ heap.length = 2 ^ k ∧ Digits w heap ∧ overflow ≤ 3 ∧
      val w heap + overflow * (2 ^ w) ^ (2 ^ k)
        = (val w (a.take (2 ^ k / 2)) + val w (a.drop (2 ^ k / 2)))
          * (val w (b.take (2 ^ k / 2)) + val w (b.drop (2 ^ k / 2))) := by
  obtain ⟨j, rfl⟩ : ∃ j, k = j + 1 := ⟨k - 1, by omega⟩
  have hk2 : 2 ^ (j + 1) = 2 * 2 ^ j := by rw [pow_succ]; omega
  have hk3 : 2 ^ (j + 1 + 1) = 2 * (2 * 2 ^ j) := by rw [pow_succ, hk2]; omega
  have half : 2 ^ (j + 1) / 2 = 2 ^ j := by rw [hk2]; exact Nat.mul_div_cancel_left _ (by decide)
  rw [half] at Hm ⊢
  have hw4 : 4 ≤ 2 ^ w := by
    have : 2 ^ 2 ≤ 2 ^ w := Nat.pow_le_pow_right (by decide) hw
    simpa using this
  obtain ⟨u1, u2, u3, u4, R, rfl, l1, l2, l3, l4, hR⟩ := split4 p (2 ^ j) (by omega)
  obtain ⟨al, ah, Ra, rfl, lal, lah, hRa⟩ := split2 a (2 ^ j) (by omega)
  obtain ⟨bl, bh, Rb, rfl, lbl, lbh, hRb⟩ := split2 b (2 ^ j) (by omega)
  have eRa : Ra = [] := by
    apply List.eq_nil_of_length_eq_zero
    simp only [List.length_append] at ha
    omega
  have eRb : Rb = [] := by
    apply List.eq_nil_of_length_eq_zero
    simp only [List.length_append] at hb
    omega
  have hlenP : ∀ sb sa : List Nat, sb.length = 2 ^ j → sa.length = 2 ^ j →
      (sb ++ (u2 ++ (u3 ++ (sa ++ R)))).length = 2 ^ (j + 1 + 1) := by
    intro sb sa lsb lsa
    simp only [List.length_append] at hp ⊢
    omega
  obtain ⟨sb, sa, heap, ov3, lsb, lsa, lheap, hdsb, hdsa, hdheap, hov3, eC, E1⟩ :=
    karatsubaCross_spec w (j + 1) (2 ^ j) hk2 hw4 mult Hm u1 u2 u3 u4 R al ah Ra bl bh Rb
      l1 l2 l3 l4 lal lah lbl lbh hdp hda hdb
  refine ⟨_, heap, ov3, eC, hlenP sb sa lsb lsa, lheap.trans hk2.symm, hdheap, hov3, ?_⟩
  · rw [List.take_left' lal, List.take_left' lbl, List.drop_left' lal, List.drop_left' lbl,
      eRa, eRb, List.append_nil, List.append_nil, hk2, pow_two_mul]
    exact E1

/-! ## `mbiCopySub` -/

/-- The loop of `mbiCopySub` computes what the loop of `mbiSub` computes on a destination
that holds a copy of the minuend. -/
theorem mbiCopySubLoop_eq (w : Nat) : ∀ (n : Nat) (dest add1 add2 : List Nat) (c : Bool),
    n ≤ dest.length → n ≤ add1.length → n ≤ add2.length →
    mbiCopySubLoop w n dest add1 add2 c = mbiSubLoop w n (mbiCopy n dest add1) add2 c
  | 0, dest, add1, add2, c, _, _, _ => by
    cases dest <;> cases add1 <;> cases add2 <;> simp [mbiCopySubLoop, mbiSubLoop, mbiCopy]
  | n + 1, [], _, _, _, h, _, _ => by simp at h
  | n + 1, _ :: _, [], _, _, _, h, _ => by simp at h
  | n + 1, _ :: _, _ :: _, [], _, _, _, h => by simp at h
  | n + 1, d :: dest, a1 :: add1, a2 :: add2, c, h1, h2, h3 => by
    simp only [List.length_cons, Nat.add_le_add_iff_right] at h1 h2 h3
    simp only [mbiCopySubLoop, mbiCopy, mbiSubLoop]
    rw [mbiCopySubLoop_eq w n dest add1 add2 _ h1 h2 h3]

/-- When the minuend is the destination itself, the loop of `mbiCopySub` is the loop of
`mbiSub`. -/
theorem mbiCopySubInPlaceLoop_eq (w : Nat) : ∀ (n : Nat) (dest add2 : List Nat) (c : Bool),
    mbiCopySubInPlaceLoop w n dest add2 c = mbiSubLoop w n dest add2 c
  | 0, dest, add2, c => by
    cases dest <;> cases add2 <;> simp [mbiCopySubInPlaceLoop, mbiSubLoop]
  | n + 1, [], add2, c => by simp [mbiCopySubInPlaceLoop, mbiSubLoop]
  | n + 1, d :: dest, [], c => by simp [mbiCopySubInPlaceLoop, mbiSubLoop]
  | n + 1, d :: dest, a2 :: add2, c => by
    simp only [mbiCopySubInPlaceLoop, mbiSubLoop]
    rw [mbiCopySubInPlaceLoop_eq w n dest add2]

/-- On `n`-digit operands `mbiCopySub` writes the difference modulo `B^n` to the destination
and returns the borrow; it agrees with `mbiCopy` followed by `mbiSub`, and with the call in
which the destination is the minuend. -/
theorem mbiCopySub_full (w n : Nat) (dest add1 add2 : List Nat) (c : Bool)
    (hdl : dest.length = n) (h1l : add1.length = n) (h2l : add2.length = n)
    (h1 : Digits w add1) (h2 : Digits w add2) :
    (mbiCopySub w n dest add1 add2 c).dest.length = n ∧
    Digits w (mbiCopySub w n dest add1 add2 c).dest ∧
    ((val w (mbiCopySub w n dest add1 add2 c).dest : Int)
      = ((val w add1 : Int) - (val w add2 : Int) - (c.toNat : Int))
          % (((2 ^ w) ^ n : Nat) : Int)) ∧
    ((mbiCopySub w n dest add1 add2 c).ret = true ↔ val w add1 < val w add2 + c.toNat) ∧
    (mbiCopySub w n dest add1 add2 c).carry = (mbiCopySub w n dest add1 add2 c).ret ∧
    mbiCopySub w n dest add1 add2 c = mbiSub w n (mbiCopy n dest add1) add2 c ∧
    mbiCopySubInPlace w n add1 add2 c = mbiSub w n add1 add2 c ∧
    mbiCopySubInPlace w n add1 add2 c = mbiCopySub w n dest add1 add2 c := by
  have hcopy : mbiCopy n dest add1 = add1 := by
    rw [mbiCopy_eq n dest add1 (by omega) (by omega), take_of_length_eq h1l,
      List.drop_eq_nil_of_le (by omega), List.append_nil]
  have e1 : mbiCopySub w n dest add1 add2 c = mbiSub w n (mbiCopy n dest add1) add2 c := by
    simp only [mbiCopySub, mbiSub]
    rw [mbiCopySubLoop_eq w n dest add1 add2 c (by omega) (by omega) (by omega)]
  have e2 : mbiCopySubInPlace w n add1 add2 c = mbiSub w n add1 add2 c := by
    simp only [mbiCopySubInPlace, mbiSub]
    rw [mbiCopySubInPlaceLoop_eq]
  obtain ⟨p1, p2, _, p4, p5, p6⟩ := mbiSub_full w n add1 add2 c h1l h2l h1 h2
  have e3 : mbiCopySub w n dest add1 add2 c = mbiSub w n add1 add2 c := by rw [e1, hcopy]
  refine ⟨?_, ?_, ?_, ?_, ?_, e1, e2, ?_⟩
  · rw [e3]; exact p1
  · rw [e3]; exact p2
  · rw [e3]; exact p4
  · rw [e3]; exact p5
  · rw [e3]; exact p6
  · rw [e2, e3]

/-! ## `mbiCompare2` -/

theorem getElem?_eq_getD {z : List Nat} {n : Nat} (h : n < z.length) :
    z[n]? = some (z.getD n 0) := by
  rw [List.getD_eq_getElem?_getD, List.getElem?_eq_getElem h]
  rfl

/-- Within the arrays the final loop of `mbiCompare2` is the loop of `mbiCompare`. -/
theorem mbiCompare2Loop_eq (z1 z2 : List Nat) : ∀ n, n ≤ z1.length → n ≤ z2.length →
    mbiCompare2Loop z1 z2 n = some (mbiCompare n z1 z2)
  | 0, _, _ => rfl
  | n + 1, h1, h2 => by
    have ih := mbiCompare2Loop_eq z1 z2 n (by omega) (by omega)
    simp only [mbiCompare2Loop, mbiCompare, getElem?_eq_getD (Nat.lt_of_succ_le h1),
      getElem?_eq_getD (Nat.lt_of_succ_le h2), ih]
    split_ifs <;> rfl

/-- The zero-stripping loop of `mbiCompare2`, started at `n` digits with a lower limit
`lo >= 1`: it stops at a length `m` between `lo` and `n`, the stripped digits are zero, and
if it stops above `lo` the digit `m-1` is not zero. -/
theorem mbiCompare2Strip_spec (w : Nat) (z : List Nat) (lo : Nat) (hlo : 1 ≤ lo) :
    ∀ n, lo ≤ n → n ≤ z.length →
    ∃ m, mbiCompare2Strip z lo n = some m ∧ lo ≤ m ∧ m ≤ n ∧
      val w (z.take n) = val w (z.take m) ∧ (lo < m → (2 ^ w) ^ (m - 1) ≤ val w (z.take m))
  | 0, h, _ => by omega
  | n + 1, h, hn => by
    have hget := getElem?_eq_getD (Nat.lt_of_succ_le hn)
    by_cases hc : z.getD n 0 = 0 ∧ n + 1 > lo
    · obtain ⟨m, e, h1, h2, h3, h4⟩ := mbiCompare2Strip_spec w z lo hlo n (by omega) (by omega)
      refine ⟨m, ?_, h1, by omega, ?_, h4⟩
      · simp only [mbiCompare2Strip, hget, hc, and_self, if_true, e]
      · rw [val_take_succ, hc.1, Nat.mul_zero, Nat.add_zero, h3]
    · refine ⟨n + 1, ?_, h, le_refl _, rfl, ?_⟩
      · simp only [mbiCompare2Strip, hget, hc, if_false]
      · intro hlt
        have hne : z.getD n 0 ≠ 0 := fun h0 => hc ⟨h0, hlt⟩
        rw [val_take_succ, Nat.add_sub_cancel]
        have : (2 ^ w) ^ n * 1 ≤ (2 ^ w) ^ n * z.getD n 0 :=
          Nat.mul_le_mul_left _ (Nat.one_le_iff_ne_zero.mpr hne)
        omega

theorem val_pad_zeros (w : Nat) (z : List Nat) (m : Nat) :
    val w (z ++ List.replicate m 0) = val w z := by
  rw [val_append, val_replicate_zero, Nat.mul_zero, Nat.add_zero]

/-- The sign computed by the comparison of the values. -/
theorem sign_of_lt {x y : Nat} (h : y < x) :
    (if y < x then (1 : Int) else if x = y then 0 else -1) = 1 := by
  rw [if_pos h]

theorem sign_of_gt {x y : Nat} (h : x < y) :
    (if y < x then (1 : Int) else if x = y then 0 else -1) = -1 := by
  rw [if_neg (by omega), if_neg (by omega)]

/-- A number with a nonzero digit at position `m-1 >= n2` exceeds every `n2`-digit number. -/
theorem lt_of_high_digit {B m n2 x y : Nat} (hB : 0 < B) (hm : n2 < m) (hx : B ^ (m - 1) ≤ x)
    (hy : y < B ^ n2) : y < x := by
  have : B ^ n2 ≤ B ^ (m - 1) := Nat.pow_le_pow_right hB (by omega)
  omega

/-- For operands of at least one digit each `mbiCompare2` returns the sign of the difference
of the values, which is the result of `mbiCompare` on the operands extended by zero digits to
the greater of the two lengths. -/
theorem mbiCompare2_full (w n1 n2 : Nat) (z1 z2 : List Nat) (h1 : 1 ≤ n1) (h2 : 1 ≤ n2)
    (l1 : z1.length = n1) (l2 : z2.length = n2) (d1 : Digits w z1) (d2 : Digits w z2) :
    mbiCompare2 n1 z1 n2 z2
      = some (mbiCompare (max n1 n2) (z1 ++ List.replicate (max n1 n2 - n1) 0)
          (z2 ++ List.replicate (max n1 n2 - n2) 0)) ∧
    mbiCompare2 n1 z1 n2 z2
      = some (if val w z2 < val w z1 then 1 else if val w z1 = val w z2 then 0 else -1) := by
  have hB : 0 < 2 ^ w := Nat.two_pow_pos w
  have v1 := val_lt d1
  have v2 := val_lt d2
  rw [l1] at v1
  rw [l2] at v2
  have t1 : z1.take n1 = z1 := take_of_length_eq l1
  have t2 : z2.take n2 = z2 := take_of_length_eq l2
  -- the sign of the difference of the values
  have hsign : mbiCompare2 n1 z1 n2 z2
      = some (if val w z2 < val w z1 then 1 else if val w z1 = val w z2 then 0 else -1) := by
    rcases Nat.lt_trichotomy n1 n2 with hlt | heq | hgt
    · obtain ⟨m, e, m1, m2, m3, m4⟩ := mbiCompare2Strip_spec w z2 n1 h1 n2 (by omega) (by omega)
      rw [t2] at m3
      have hn1 : ¬ n1 > n2 := by omega
      rcases Nat.lt_or_ge n1 m with hm | hm
      · have hlt2 : val w z1 < val w z2 := by
          rw [m3]; exact lt_of_high_digit hB hm (m4 hm) v1
        have c1 : ¬ n1 > m := by omega
        simp only [mbiCompare2, hn1, if_false, hlt, if_true, e, Option.map_some', c1, hm.gt]
        rw [sign_of_gt hlt2]
      · have hm' : m = n1 := by omega
        subst hm'
        have c1 : ¬ m > m := by omega
        simp only [mbiCompare2, hn1, if_false, hlt, if_true, e, Option.map_some', c1]
        rw [mbiCompare2Loop_eq z1 z2 m (by omega) (by omega), mbiCompare_eq w m z1 z2 d1 d2,
          ← m3, ← l1, List.take_length]
    · subst heq
      have c1 : ¬ n1 > n1 := by omega
      simp only [mbiCompare2, c1, if_false]
      rw [mbiCompare2Loop_eq z1 z2 n1 (by omega) (by omega), mbiCompare_eq w n1 z1 z2 d1 d2,
        t1, t2]
    · obtain ⟨m, e, m1, m2, m3, m4⟩ := mbiCompare2Strip_spec w z1 n2 h2 n1 (by omega) (by omega)
      rw [t1] at m3
      rcases Nat.lt_or_ge n2 m with hm | hm
      · have hlt2 : val w z2 < val w z1 := by
          rw [m3]; exact lt_of_high_digit hB hm (m4 hm) v2
        simp only [mbiCompare2, hgt, if_true, e, Option.map_some', hm.gt]
        rw [sign_of_lt hlt2]
      · have hm' : m = n2 := by omega
        subst hm'
        have c1 : ¬ m > m := by omega
        simp only [mbiCompare2, hgt, if_true, e, Option.map_some', c1, if_false]
        rw [mbiCompare2Loop_eq z1 z2 m (by omega) (by omega), mbiCompare_eq w m z1 z2 d1 d2,
          ← m3, ← l2, List.take_length]
  refine ⟨?_, hsign⟩
  rw [hsign, mbiCompare_eq w _ _ _ (d1.append (Digits.replicate_zero w _))
    (d2.append (Digits.replicate_zero w _))]
  have p1 : (z1 ++ List.replicate (max n1 n2 - n1) 0).take (max n1 n2)
      = z1 ++ List.replicate (max n1 n2 - n1) 0 := by
    apply take_of_length_eq
    rw [List.length_append, List.length_replicate, l1]
    have := Nat.le_max_left n1 n2
    omega
  have p2 : (z2 ++ List.replicate (max n1 n2 - n2) 0).take (max n1 n2)
      = z2 ++ List.replicate (max n1 n2 - n2) 0 := by
    apply take_of_length_eq
    rw [List.length_append, List.length_replicate, l2]
    have := Nat.le_max_right n1 n2
    omega
  rw [p1, p2, val_pad_zeros, val_pad_zeros]

/-! ## Shifts by whole digits -/

/-- Two lists of the same length with the same digit at every index are equal. -/
theorem ext_getD : ∀ (xs ys : List Nat), xs.length = ys.length →
    (∀ j, j < xs.length → xs.getD j 0 = ys.getD j 0) → xs = ys
  | [], [], _, _ => rfl
  | [], _ :: _, h, _ => by simp at h
  | _ :: _, [], h, _ => by simp at h
  | x :: xs, y :: ys, h, hj => by
    have h0 := hj 0 (by simp)
    simp only [List.getD_cons_zero] at h0
    have ht := ext_getD xs ys (by simpa using h) (fun j hlt => by
      have := hj (j + 1) (by simpa using hlt)
      simpa using this)
    rw [h0, ht]

theorem getD_take (z : List Nat) (m j : Nat) (h : j < m) :
    (z.take m).getD j 0 = z.getD j 0 := by
  rw [List.getD_eq_getElem?_getD, List.getD_eq_getElem?_getD, List.getElem?_take_of_lt h]

theorem getD_drop (z : List Nat) (m j : Nat) : (z.drop m).getD j 0 = z.getD (m + j) 0 := by
  rw [List.getD_eq_getElem?_getD, List.getD_eq_getElem?_getD, List.getElem?_drop]

theorem getD_replicate_zero (m j : Nat) : (List.replicate m 0).getD j 0 = 0 := by
  rw [List.getD_eq_getElem?_getD]
  rcases Nat.lt_or_ge j m with h | h
  · rw [List.getElem?_eq_getElem (by simpa using h)]; simp
  · rw [List.getElem?_eq_none (by simpa using h)]; rfl

/-- The loop of `mbiLeftShift` run from `i` downwards: the digits `r .. r+i-1` receive the
digits `0 .. i-1`, every other digit is unchanged. -/
theorem mbiLeftShiftLoop_spec (r : Nat) : ∀ (i : Nat) (z : List Nat), r + i ≤ z.length →
    (mbiLeftShiftLoop r i z).length = z.length ∧
    ∀ j, (mbiLeftShiftLoop r i z).getD j 0
      = if r ≤ j ∧ j < r + i then z.getD (j - r) 0 else z.getD j 0
  | 0, z, _ => by
    refine ⟨rfl, ?_⟩
    intro j
    have : ¬ (r ≤ j ∧ j < r + 0) := by omega
    simp only [mbiLeftShiftLoop, this, if_false]
  | i + 1, z, h => by
    obtain ⟨hl, hg⟩ := mbiLeftShiftLoop_spec r i (z.set (r + i) (z.getD i 0))
      (by rw [List.length_set]; omega)
    rw [List.length_set] at hl
    refine ⟨hl, ?_⟩
    intro j
    simp only [mbiLeftShiftLoop]
    rw [hg j]
    by_cases c1 : r ≤ j ∧ j < r + i
    · have c2 : r ≤ j ∧ j < r + (i + 1) := by omega
      rw [if_pos c1, if_pos c2, getD_set_ne _ _ _ _ (by omega)]
    · rw [if_neg c1]
      by_cases c3 : j = r + i
      · subst c3
        have c2 : r ≤ r + i ∧ r + i < r + (i + 1) := by omega
        rw [if_pos c2, getD_set_eq _ _ _ (by omega), Nat.add_sub_cancel_left]
      · have c2 : ¬ (r ≤ j ∧ j < r + (i + 1)) := by omega
        rw [if_neg c2, getD_set_ne _ _ _ _ (fun h => c3 h.symm)]

/-- The loop of `mbiRightShift` run for `m` iterations from index `i`: the digits
`i-r .. i-r+m-1` receive the digits `i .. i+m-1`, every other digit is unchanged. -/
theorem mbiRightShiftLoop_spec (r : Nat) : ∀ (m i : Nat) (z : List Nat), r ≤ i →
    i + m ≤ z.length →
    (mbiRightShiftLoop r m i z).length = z.length ∧
    ∀ j, (mbiRightShiftLoop r m i z).getD j 0
      = if i - r ≤ j ∧ j < i - r + m then z.getD (j + r) 0 else z.getD j 0
  | 0, i, z, _, _ => by
    refine ⟨rfl, ?_⟩
    intro j
    have : ¬ (i - r ≤ j ∧ j < i - r + 0) := by omega
    simp only [mbiRightShiftLoop, this, if_false]
  | m + 1, i, z, hr, h => by
    obtain ⟨hl, hg⟩ := mbiRightShiftLoop_spec r m (i + 1) (z.set (i - r) (z.getD i 0))
      (by omega) (by rw [List.length_set]; omega)
    rw [List.length_set] at hl
    refine ⟨hl, ?_⟩
    intro j
    simp only [mbiRightShiftLoop]
    rw [hg j]
    by_cases c1 : i + 1 - r ≤ j ∧ j < i + 1 - r + m
    · have c2 : i - r ≤ j ∧ j < i - r + (m + 1) := by omega
      rw [if_pos c1, if_pos c2, getD_set_ne _ _ _ _ (by omega)]
    · rw [if_neg c1]
      by_cases c3 : j = i - r
      · subst c3
        have c2 : i - r ≤ i - r ∧ i - r < i - r + (m + 1) := by omega
        rw [if_pos c2, getD_set_eq _ _ _ (by omega), Nat.sub_add_cancel hr]
      · have c2 : ¬ (i - r ≤ j ∧ j < i - r + (m + 1)) := by omega
        rw [if_neg c2, getD_set_ne _ _ _ _ (fun h => c3 h.symm)]

/-- The call `mbiLeftShift( n, z, r )` on an `n`-digit number moves the low `n - r` digits
up by `r` positions and zeroes the low `r` digits. -/
theorem mbiLeftShift_eq (n : Nat) (z : List Nat) (r : Nat) (hz : z.length = n) (hr : r ≤ n) :
    mbiLeftShift n z r = List.replicate r 0 ++ z.take (n - r) := by
  obtain ⟨hl, hg⟩ := mbiLeftShiftLoop_spec r (n - r) z (by omega)
  rw [mbiLeftShift, mbiSetZero_eq r _ (by omega)]
  congr 1
  apply ext_getD
  · rw [List.length_drop, List.length_take, hl]; omega
  · intro j hj
    rw [List.length_drop, hl] at hj
    rw [getD_drop, hg, if_pos (by omega), getD_take _ _ _ (by omega), Nat.add_sub_cancel_left]

/-- The call `mbiRightShift( n, z, r, true )` on an `n`-digit number moves the high `n - r`
digits down by `r` positions and zeroes the high `r` digits. -/
theorem mbiRightShift_eq (n : Nat) (z : List Nat) (r : Nat) (hz : z.length = n) (hr : r ≤ n) :
    mbiRightShift n z r true = some (z.drop r ++ List.replicate r 0) := by
  obtain ⟨hl, hg⟩ := mbiRightShiftLoop_spec r (n - r) r z (le_refl r) (by omega)
  simp only [mbiRightShift, hr, if_true]
  rw [mbiSetZero_eq r _ (by rw [List.length_drop, hl]; omega)]
  have e1 : ((mbiRightShiftLoop r (n - r) r z).drop (n - r)).drop r = [] := by
    apply List.drop_eq_nil_of_le
    rw [List.length_drop, hl]; omega
  rw [e1, List.append_nil]
  congr 2
  apply ext_getD
  · rw [List.length_drop, List.length_take, hl]; omega
  · intro j hj
    rw [List.length_take, hl] at hj
    rw [getD_take _ _ _ (by omega), hg, if_pos (by omega), getD_drop, Nat.add_comm]

/-- Left shift by `r` digits followed by right shift by `r` digits with zero fill: the low
`n - r` digits are the original ones, the high `r` digits are zero. -/
theorem shift_roundtrip (n : Nat) (z : List Nat) (r : Nat) (hz : z.length = n) (hr : r ≤ n) :
    mbiRightShift n (mbiLeftShift n z r) r true
      = some (z.take (n - r) ++ List.replicate r 0) := by
  have hl : (List.replicate r 0 ++ z.take (n - r)).length = n := by
    rw [List.length_append, List.length_replicate, List.length_take]
    omega
  rw [mbiLeftShift_eq n z r hz hr, mbiRightShift_eq n _ r hl hr,
    List.drop_left' (List.length_replicate r 0)]

/-! ## `mbiGetNumericalLength` -/

/-- The first loop of `mbiGetNumericalLength` stops at a length `m <= n` such that the digits
`m .. n-1` are zero and, unless `m = 0`, the digit `m-1` is not zero. -/
theorem numericalBytes_spec (w : Nat) (z : List Nat) : ∀ n,
    numericalBytes z n ≤ n ∧ val w (z.take n) = val w (z.take (numericalBytes z n)) ∧
    (numericalBytes z n ≠ 0 → z.getD (numericalBytes z n - 1) 0 ≠ 0)
  | 0 => by simp [numericalBytes]
  | n + 1 => by
    obtain ⟨h1, h2, h3⟩ := numericalBytes_spec w z n
    by_cases hc : z.getD n 0 = 0
    · have e : numericalBytes z (n + 1) = numericalBytes z n := by
        simp only [numericalBytes, hc, if_true]
      rw [e]
      refine ⟨by omega, ?_, h3⟩
      rw [val_take_succ, hc, Nat.mul_zero, Nat.add_zero, h2]
    · have e : numericalBytes z (n + 1) = n + 1 := by
        simp only [numericalBytes, hc, if_false]
      rw [e]
      exact ⟨le_refl _, rfl, fun _ => by rwa [Nat.add_sub_cancel]⟩

/-- The test `( d & t ) != 0` for `t = 2^i` reads bit `i` of `d`. -/
theorem land_two_pow_ne_zero (d i : Nat) : d &&& 2 ^ i ≠ 0 ↔ d.testBit i = true := by
  constructor
  · intro h
    by_contra hb
    apply h
    apply Nat.eq_of_testBit_eq
    intro j
    rw [Nat.testBit_and, Nat.testBit_two_pow, Nat.zero_testBit]
    by_cases hij : i = j
    · subst hij
      simp only [Bool.not_eq_true] at hb
      rw [hb]; rfl
    · simp [hij]
  · intro h h0
    have : (d &&& 2 ^ i).testBit i = true := by
      rw [Nat.testBit_and, h, Nat.testBit_two_pow]; simp
    rw [h0, Nat.zero_testBit] at this
    exact Bool.false_ne_true this

/-- For a number below `2^(i+1)` bit `i` is set exactly when the number is at least `2^i`. -/
theorem testBit_top (d i : Nat) (h : d < 2 ^ (i + 1)) : d.testBit i = true ↔ 2 ^ i ≤ d := by
  constructor
  · exact Nat.testBit_implies_ge
  · intro hle
    rw [Nat.testBit_to_div_mod]
    have hd : d / 2 ^ i = 1 := by
      apply Nat.div_eq_of_lt_le
      · rw [Nat.one_mul]; exact hle
      · rw [pow_succ] at h; omega
    rw [hd]
    rfl

theorem half_two_pow (i : Nat) : 2 ^ (i + 1) / 2 = 2 ^ i := by
  rw [pow_succ]
  exact Nat.mul_div_cancel _ (by decide)

/-- The decrement of `*bits` does not wrap while `*bits` is positive. -/
theorem bits_dec (w i : Nat) (h : i + 1 + 1 < 2 ^ w) : (i + 1 + 1 + 2 ^ w - 1) % 2 ^ w = i + 1 := by
  have e : i + 1 + 1 + 2 ^ w - 1 = i + 1 + 2 ^ w := by omega
  rw [e, Nat.add_mod_right, Nat.mod_eq_of_lt (by omega)]

/-- The second loop of `mbiGetNumericalLength`, entered with `t = 2^i` and `*bits = i+1` for
a nonzero digit `d < 2^(i+1)`: it leaves in `*bits` the bit length of `d`. -/
theorem numericalBitsLoop_spec (w d : Nat) (hd0 : d ≠ 0) : ∀ (i fuel : Nat), i + 1 ≤ fuel →
    d < 2 ^ (i + 1) → i + 1 < 2 ^ w →
    d < 2 ^ (numericalBitsLoop w d fuel (2 ^ i) (i + 1)) ∧
    2 ^ (numericalBitsLoop w d fuel (2 ^ i) (i + 1) - 1) ≤ d ∧
    1 ≤ numericalBitsLoop w d fuel (2 ^ i) (i + 1) ∧
    numericalBitsLoop w d fuel (2 ^ i) (i + 1) ≤ i + 1
  | _, 0, hf, _, _ => by omega
  | 0, fuel + 1, _, hd, _ => by
    have h1 : d = 1 := by
      have : (2 : Nat) ^ (0 + 1) = 2 := by decide
      omega
    subst h1
    have ht : (2 : Nat) ^ 0 ≠ 0 := by decide
    have hb : 1 &&& 2 ^ 0 ≠ 0 := by decide
    simp only [numericalBitsLoop, ht, hb, ne_eq, not_false_eq_true, if_true]
    decide
  | i + 1, fuel + 1, hf, hd, hw => by
    have ht : (2 : Nat) ^ (i + 1) ≠ 0 := Nat.pos_iff_ne_zero.mp (Nat.two_pow_pos _)
    by_cases hb : d &&& 2 ^ (i + 1) ≠ 0
    · have hge : 2 ^ (i + 1) ≤ d :=
        (testBit_top d (i + 1) hd).mp ((land_two_pow_ne_zero d (i + 1)).mp hb)
      have e : numericalBitsLoop w d (fuel + 1) (2 ^ (i + 1)) (i + 1 + 1) = i + 1 + 1 := by
        simp only [numericalBitsLoop, ht, hb, ne_eq, not_false_eq_true, if_true]
      rw [e]
      exact ⟨hd, by rwa [Nat.add_sub_cancel], by omega, le_refl _⟩
    · have hlt : d < 2 ^ (i + 1) := by
        by_contra hn
        exact hb ((land_two_pow_ne_zero d (i + 1)).mpr
          ((testBit_top d (i + 1) hd).mpr (by omega)))
      have e : numericalBitsLoop w d (fuel + 1) (2 ^ (i + 1)) (i + 1 + 1)
          = numericalBitsLoop w d fuel (2 ^ i) (i + 1) := by
        simp only [ne_eq, not_not] at hb
        simp only [numericalBitsLoop, ht, hb, ne_eq, not_false_eq_true, if_true,
          not_true_eq_false, if_false, half_two_pow, bits_dec w i hw]
      rw [e]
      obtain ⟨r1, r2, r3, r4⟩ := numericalBitsLoop_spec w d hd0 i fuel (by omega) hlt (by omega)
      exact ⟨r1, r2, r3, by omega⟩

/-- A number whose highest digit out of `m` is `d` lies between `B^(m-1) * d` and
`B^(m-1) * (d + 1)`. -/
theorem top_digit_bounds {P low d x : Nat} (hlow : low < P) (hx : x = low + P * d) :
    P * d ≤ x ∧ x < P * (d + 1) := by
  rw [Nat.mul_add, Nat.mul_one]
  omega

/-- The minimal number of bits of a number whose highest digit `d`, at position `s`, has bit
length `bits`. -/
theorem bit_length_of_top (w s d bits x : Nat) (hbits : 1 ≤ bits) (h1 : d < 2 ^ bits)
    (h2 : 2 ^ (bits - 1) ≤ d) (hlo : (2 ^ w) ^ s * d ≤ x) (hhi : x < (2 ^ w) ^ s * (d + 1)) :
    x < 2 ^ (w * s + bits) ∧ ∀ t, x < 2 ^ t → w * s + bits ≤ t := by
  have hP : (2 ^ w) ^ s = 2 ^ (w * s) := by rw [pow_mul]
  rw [hP] at hlo hhi
  constructor
  · rw [pow_add]
    exact lt_of_lt_of_le hhi (Nat.mul_le_mul_left _ h1)
  · intro t ht
    have h3 : 2 ^ (w * s + (bits - 1)) ≤ x := by
      rw [pow_add]
      exact le_trans (Nat.mul_le_mul_left _ h2) hlo
    have h4 : w * s + (bits - 1) < t := pow_lt_pow_exp (by decide) (lt_of_le_of_lt h3 ht)
    omega

/-- On an `n`-digit number `mbiGetNumericalLength` returns: in `bytes` the least number of
digits that hold the value, and in `bits` the least number of bits that hold the highest
nonzero digit, so that `w * (bytes - 1) + bits` is the least number of bits that hold the
value; for the value zero both are zero. -/
theorem mbiGetNumericalLength_spec (w n : Nat) (z : List Nat) (hz : z.length = n)
    (hd : Digits w z) :
    ∃ bytes bits, mbiGetNumericalLength w n z = some (bytes, bits) ∧ bytes ≤ n ∧ bits ≤ w ∧
      val w z < (2 ^ w) ^ bytes ∧ (∀ m, val w z < (2 ^ w) ^ m → bytes ≤ m) ∧
      (val w z = 0 → bytes = 0 ∧ bits = 0) ∧
      (val w z ≠ 0 → 1 ≤ bytes ∧ 1 ≤ bits ∧
        z.getD (bytes - 1) 0 < 2 ^ bits ∧ (∀ t, z.getD (bytes - 1) 0 < 2 ^ t → bits ≤ t) ∧
        val w z < 2 ^ (w * (bytes - 1) + bits) ∧
        ∀ t, val w z < 2 ^ t → w * (bytes - 1) + bits ≤ t) := by
  have hB : 0 < 2 ^ w := Nat.two_pow_pos w
  obtain ⟨b1, b2, b3⟩ := numericalBytes_spec w z n
  rw [take_of_length_eq hz] at b2
  generalize hm : numericalBytes z n = m at b1 b2 b3
  rcases Nat.eq_zero_or_pos m with h0 | hpos
  · subst h0
    have hv : val w z = 0 := by rw [b2]; rfl
    refine ⟨0, 0, ?_, Nat.zero_le _, Nat.zero_le _, ?_, fun _ _ => Nat.zero_le _,
      fun _ => ⟨rfl, rfl⟩, fun hne => absurd hv hne⟩
    · simp only [mbiGetNumericalLength, hm, if_true]
    · rw [hv]; exact pow_pos hB _
  · obtain ⟨s, rfl⟩ : ∃ s, m = s + 1 := ⟨m - 1, by omega⟩
    have hne := b3 (by omega)
    rw [Nat.add_sub_cancel] at hne
    have hdw : z.getD s 0 < 2 ^ w := hd.getD s
    have hlow : val w (z.take s) < (2 ^ w) ^ s := val_take_lt hd s
    rw [val_take_succ] at b2
    obtain ⟨lo, hi⟩ := top_digit_bounds hlow b2
    have hw1 : 1 ≤ w := by
      by_contra hn
      have hw0 : w = 0 := by omega
      rw [hw0] at hdw
      have : (2 : Nat) ^ 0 = 1 := by decide
      omega
    obtain ⟨i, rfl⟩ : ∃ i, w = i + 1 := ⟨w - 1, by omega⟩
    obtain ⟨r1, r2, r3, r4⟩ := numericalBitsLoop_spec (i + 1) (z.getD s 0) hne i (i + 1 + 1)
      (by omega) hdw (Nat.lt_two_pow (i + 1))
    have ht0 : 2 ^ i % 2 ^ (i + 1) = 2 ^ i :=
      Nat.mod_eq_of_lt (Nat.pow_lt_pow_right (by decide) (by omega))
    have hcode : mbiGetNumericalLength (i + 1) n z
        = some (s + 1, numericalBitsLoop (i + 1) (z.getD s 0) (i + 1 + 1) (2 ^ i) (i + 1)) := by
      have hs : ¬ (s + 1 = 0) := by omega
      simp only [mbiGetNumericalLength, hm, hs, if_false, Nat.add_sub_cancel, ht0, r4, if_true]
    generalize numericalBitsLoop (i + 1) (z.getD s 0) (i + 1 + 1) (2 ^ i) (i + 1) = bits at *
    have hPpos : 0 < (2 ^ (i + 1)) ^ s := pow_pos hB _
    have hge : (2 ^ (i + 1)) ^ s ≤ val (i + 1) z :=
      le_trans (Nat.le_mul_of_pos_right _ (Nat.pos_of_ne_zero hne)) lo
    have hlt : val (i + 1) z < (2 ^ (i + 1)) ^ (s + 1) := by
      rw [pow_succ]
      exact lt_of_lt_of_le hi (Nat.mul_le_mul_left _ hdw)
    obtain ⟨t1, t2⟩ := bit_length_of_top (i + 1) s (z.getD s 0) bits (val (i + 1) z) r3 r1 r2
      lo hi
    refine ⟨s + 1, bits, hcode, b1, r4, hlt, ?_, ?_, ?_⟩
    · intro m hmlt
      exact pow_lt_pow_exp hB (lt_of_le_of_lt hge hmlt)
    · intro hv0
      omega
    · intro _
      rw [Nat.add_sub_cancel]
      refine ⟨by omega, r3, r1, ?_, t1, t2⟩
      intro t ht
      have : bits - 1 < t := pow_lt_pow_exp (by decide) (lt_of_le_of_lt r2 ht)
      omega

/-! ## Schoolbook multiplication: the overflow buffer is written within its bounds -/

/-- When the accumulation of the product of the digits `i` and `j` returns a carry, the
index `i + j + 2` counted in the overflow buffer lies inside the `2 * L` digits. -/
theorem naivStep_carry (w L : Nat) (a b q rest ov : List Nat) (i j : Nat)
    (hq : q.length = 2 * L) (hdq : Digits w (q ++ rest)) (ha : Digits w a) (hb : Digits w b)
    (hi : i < L) (hj : j < L)
    (hS : val w q + val w ov + (2 ^ w) ^ (i + j) * (a.getD i 0 * b.getD j 0)
      < (2 ^ w) ^ (2 * L))
    (hc : (mbiAdd w 2 ((q ++ rest).drop (i + j))
      [(a.getD i 0 * b.getD j 0) % 2 ^ (2 * w) % 2 ^ w,
        (a.getD i 0 * b.getD j 0) % 2 ^ (2 * w) / 2 ^ w] false).carry = true) :
    i + j + 2 < 2 * L := by
  have hB : 0 < 2 ^ w := Nat.two_pow_pos w
  obtain ⟨hw3, hdadd, hvadd⟩ := product_digits w (a.getD i 0) (b.getD j 0) (ha.getD i) (hb.getD j)
  rw [hw3] at hc
  generalize hxy : a.getD i 0 * b.getD j 0 = xy at *
  have hsplit : q = q.take (i + j) ++ ((q.drop (i + j)).take 2 ++ q.drop (i + j + 2)) := by
    have e : q.drop (i + j + 2) = (q.drop (i + j)).drop 2 := by rw [List.drop_drop]
    rw [e, List.take_append_drop, List.take_append_drop]
  have hAlen : (q.take (i + j)).length = i + j := by rw [List.length_take, hq]; omega
  have hWlen : ((q.drop (i + j)).take 2).length = 2 := by
    rw [List.length_take, List.length_drop, hq]; omega
  generalize q.take (i + j) = A at *
  generalize (q.drop (i + j)).take 2 = W at *
  generalize q.drop (i + j + 2) = T at *
  subst hsplit
  have hdrop : (A ++ (W ++ T) ++ rest).drop (i + j) = W ++ (T ++ rest) := by
    rw [List.append_assoc, List.drop_left' hAlen, List.append_assoc]
  have hdWT : Digits w (W ++ (T ++ rest)) := by
    rw [← hdrop]; exact hdq.drop _
  obtain ⟨W', hW'len, _, _, hval⟩ := mbiAddLoop_window w 2 W (T ++ rest)
    [xy % 2 ^ w, xy / 2 ^ w] false hWlen (by simp) hdWT hdadd
  have hvadd' : val w (List.take 2 [xy % 2 ^ w, xy / 2 ^ w]) = xy := by
    simpa using hvadd
  rw [hvadd'] at hval
  rw [hdrop] at hc
  simp only [mbiAdd] at hc
  rw [hc] at hval
  simp only [Bool.toNat_true, Bool.toNat_false, one_mul, add_zero] at hval
  have hvq : val w (A ++ (W ++ T)) = val w A + (2 ^ w) ^ (i + j) * (val w W + (2 ^ w) ^ 2 * val w T)
      := by rw [val_append, val_append, hAlen, hWlen]
  have hge : (2 ^ w) ^ (i + j + 2) ≤ val w (A ++ (W ++ T)) + (2 ^ w) ^ (i + j) * xy := by
    rw [hvq, pow_add (2 ^ w) (i + j) 2]
    have e : val w A + (2 ^ w) ^ (i + j) * (val w W + (2 ^ w) ^ 2 * val w T)
          + (2 ^ w) ^ (i + j) * xy
        = val w A + (2 ^ w) ^ (i + j) * ((val w W + xy) + (2 ^ w) ^ 2 * val w T) := by ring
    rw [e, ← hval]
    have e2 : val w A + (2 ^ w) ^ (i + j) * (val w W' + (2 ^ w) ^ 2 + (2 ^ w) ^ 2 * val w T)
        = (2 ^ w) ^ (i + j) * (2 ^ w) ^ 2
          + (val w A + (2 ^ w) ^ (i + j) * (val w W' + (2 ^ w) ^ 2 * val w T)) := by ring
    rw [e2]
    exact Nat.le_add_right _ _
  apply pow_lt_pow_exp hB
  omega

/-- One step of the accumulation does not depend on what follows the overflow buffer in
memory, provided the index it counts at lies inside the buffer. -/
theorem naivStep_frame (w : Nat) (a b P ov orest : List Nat) (i j : Nat)
    (h : (mbiAdd w 2 (P.drop (i + j))
      [(a.getD i 0 * b.getD j 0) % 2 ^ (2 * w) % 2 ^ w,
        (a.getD i 0 * b.getD j 0) % 2 ^ (2 * w) / 2 ^ w] false).carry = true
      → i + j + 2 < ov.length) :
    naivStep w a b i j (P, ov ++ orest)
      = ((naivStep w a b i j (P, ov)).1, (naivStep w a b i j (P, ov)).2 ++ orest) := by
  simp only [naivStep]
  generalize (mbiAdd w 2 (P.drop (i + j))
      [(a.getD i 0 * b.getD j 0) % 2 ^ (2 * w) % 2 ^ w,
        (a.getD i 0 * b.getD j 0) % 2 ^ (2 * w) / 2 ^ w] false) = r at *
  cases hc : r.carry with
  | false => simp
  | true =>
    have hlt := h hc
    have e1 : (ov ++ orest).getD (i + j + 2) 0 = ov.getD (i + j + 2) 0 := by
      rw [List.getD_eq_getElem?_getD, List.getD_eq_getElem?_getD,
        List.getElem?_append_left hlt]
    simp only [if_true, e1, List.set_append, hlt]

/-- The inner loop for row `i` does not depend on what follows the overflow buffer. -/
theorem naivInner_frame (w L : Nat) (a b rest orest : List Nat) (i : Nat)
    (ha : Digits w a) (hb : Digits w b) (hi : i < L) (hLB : L < 2 ^ w)
    (q ov : List Nat) (hq : q.length = 2 * L) (hov : ov.length = 2 * L)
    (hdq : Digits w (q ++ rest)) (hdov : Digits w ov)
    (hb0 : ∀ m, ov.getD m 0 ≤ i)
    (hinv : val w q + val w ov = val w (a.take i) * val w (b.take L)) :
    ∀ J, J ≤ L →
    (List.range J).foldl (fun st j => naivStep w a b i j st) (q ++ rest, ov ++ orest)
      = (((List.range J).foldl (fun st j => naivStep w a b i j st) (q ++ rest, ov)).1,
         ((List.range J).foldl (fun st j => naivStep w a b i j st) (q ++ rest, ov)).2
           ++ orest) := by
  intro J
  induction J with
  | zero => intro _; rfl
  | succ J ih =>
    intro hJ
    obtain ⟨q1, ov1, e1, hq1, hov1, hdq1, _, hv1, _, _⟩ :=
      naivInner_spec w L a b rest i ha hb hi hLB q ov hq hov hdq hdov hb0 hinv J (by omega)
    have hS : val w q1 + val w ov1 + (2 ^ w) ^ (i + J) * (a.getD i 0 * b.getD J 0)
        < (2 ^ w) ^ (2 * L) := by
      have hnew : val w q1 + val w ov1 + (2 ^ w) ^ (i + J) * (a.getD i 0 * b.getD J 0)
          = val w (a.take i) * val w (b.take L)
            + (2 ^ w) ^ i * a.getD i 0 * val w (b.take (J + 1)) := by
        rw [hv1, val_take_succ, pow_add]; ring
      rw [hnew]
      exact lt_of_le_of_lt (rowSum_le_total w L a b i (J + 1) hi hJ) (total_lt w L a b ha hb)
    have hfr := naivStep_frame w a b (q1 ++ rest) ov1 orest i J (fun hc => by
      rw [hov1]
      exact naivStep_carry w L a b q1 rest ov1 i J hq1 hdq1 ha hb hi (by omega) hS hc)
    rw [List.range_succ, List.foldl_append, List.foldl_append, ih (by omega), e1]
    simpa using hfr

/-- The two nested loops do not depend on what follows the overflow buffer. -/
theorem naivOuter_frame (w L : Nat) (a b rest orest : List Nat)
    (ha : Digits w a) (hb : Digits w b) (hLB : L < 2 ^ w)
    (q ov : List Nat) (hq : q.length = 2 * L) (hov : ov.length = 2 * L)
    (hdq : Digits w (q ++ rest)) (hdov : Digits w ov)
    (hb0 : ∀ m, ov.getD m 0 ≤ 0) (hinv : val w q + val w ov = 0) :
    ∀ I, I ≤ L →
    (List.range I).foldl
        (fun st i => (List.range L).foldl (fun st j => naivStep w a b i j st) st)
        (q ++ rest, ov ++ orest)
      = (((List.range I).foldl
            (fun st i => (List.range L).foldl (fun st j => naivStep w a b i j st) st)
            (q ++ rest, ov)).1,
         ((List.range I).foldl
            (fun st i => (List.range L).foldl (fun st j => naivStep w a b i j st) st)
            (q ++ rest, ov)).2 ++ orest) := by
  intro I
  induction I with
  | zero => intro _; rfl
  | succ I ih =>
    intro hI
    obtain ⟨q1, ov1, e1, hq1, hov1, hdq1, hdov1, hv1, hb1⟩ :=
      naivOuter_spec w L a b rest ha hb hLB q ov hq hov hdq hdov hb0 hinv I (by omega)
    have hfr := naivInner_frame w L a b rest orest I ha hb (by omega) hLB q1 ov1 hq1 hov1
      hdq1 hdov1 hb1 hv1 L (le_refl L)
    rw [List.range_succ, List.foldl_append, List.foldl_append, ih (by omega), e1]
    simpa using hfr

/-- The loop of `mbiAdd` reads only the first `n` digits of the addend. -/
theorem mbiAddLoop_append_right (w : Nat) : ∀ (n : Nat) (dest add t : List Nat) (c : Bool),
    n ≤ add.length → mbiAddLoop w n dest (add ++ t) c = mbiAddLoop w n dest add c
  | 0, dest, add, t, c, _ => by
    cases dest <;> cases add <;> cases t <;> simp [mbiAddLoop]
  | n + 1, [], add, t, c, _ => by
    cases add <;> cases t <;> simp [mbiAddLoop]
  | n + 1, d :: dest, [], t, c, h => by simp at h
  | n + 1, d :: dest, x :: add, t, c, h => by
    simp only [List.length_cons, Nat.add_le_add_iff_right] at h
    simp only [List.cons_append, mbiAddLoop, List.append_eq]
    rw [mbiAddLoop_append_right w n dest add t _ h]

/-- With an overflow buffer of at least `2 * 2^k` digits, whatever it holds on entry,
`naivRestrictedCore` computes what `naivCore` computes. -/
theorem naivRestrictedCore_eq (w k : Nat) (ov0 p a b : List Nat) (hk : k < w)
    (hov0 : 2 * 2 ^ k ≤ ov0.length) (hp : 2 * 2 ^ k ≤ p.length)
    (hdp : Digits w p) (ha : Digits w a) (hb : Digits w b) :
    naivRestrictedCore w k ov0 p a b = naivCore w k p a b := by
  have hLB : 2 ^ k < 2 ^ w := Nat.pow_lt_pow_right (by decide) hk
  have hz1 : mbiSetZero (2 ^ k * 2) p = List.replicate (2 * 2 ^ k) 0 ++ p.drop (2 * 2 ^ k) := by
    rw [Nat.mul_comm (2 ^ k) 2]; exact mbiSetZero_eq _ _ hp
  have hz2 : mbiSetZero (2 ^ k * 2) (List.replicate (2 ^ k * 2) 0)
      = List.replicate (2 * 2 ^ k) 0 := by
    rw [Nat.mul_comm (2 ^ k) 2, mbiSetZero_eq _ _ (by simp)]
    simp
  have hz3 : mbiSetZero (2 ^ k * 2) ov0
      = List.replicate (2 * 2 ^ k) 0 ++ ov0.drop (2 * 2 ^ k) := by
    rw [Nat.mul_comm (2 ^ k) 2]; exact mbiSetZero_eq _ _ hov0
  have hdrest : Digits w (p.drop (2 * 2 ^ k)) := hdp.drop _
  have hb0 : ∀ m, (List.replicate (2 * 2 ^ k) 0).getD m 0 ≤ 0 := by
    intro m; rw [getD_replicate_zero]
  have hfr := naivOuter_frame w (2 ^ k) a b (p.drop (2 * 2 ^ k)) (ov0.drop (2 * 2 ^ k))
    ha hb hLB (List.replicate (2 * 2 ^ k) 0) (List.replicate (2 * 2 ^ k) 0) (by simp) (by simp)
    ((Digits.replicate_zero w _).append hdrest) (Digits.replicate_zero w _) hb0
    (by simp [val_replicate_zero]) (2 ^ k) (le_refl _)
  obtain ⟨q1, ov1, e1, _, hov1, _, _, _, _⟩ :=
    naivOuter_spec w (2 ^ k) a b (p.drop (2 * 2 ^ k)) ha hb hLB
      (List.replicate (2 * 2 ^ k) 0) (List.replicate (2 * 2 ^ k) 0) (by simp) (by simp)
      ((Digits.replicate_zero w _).append hdrest) (Digits.replicate_zero w _) hb0
      (by simp [val_replicate_zero]) (2 ^ k) (le_refl _)
  rw [e1] at hfr
  simp only [naivRestrictedCore, naivCore, naivLoops, hz1, hz2, hz3, hfr, e1, mbiAdd]
  rw [mbiAddLoop_append_right w (2 * 2 ^ k) _ ov1 _ false (by omega)]

/-- For `k <= 7` `mbiNaivMultiplicationRestricted` returns what `mbiNaivMultiplication`
returns, and this is the product; for `k > 7` its first assertion fails. -/
theorem mbiNaivMultiplicationRestricted_full (w k : Nat) (p a b : List Nat) :
    (k ≤ 7 → k < w → p.length = 2 ^ (k + 1) → a.length = 2 ^ k → b.length = 2 ^ k →
      Digits w p → Digits w a → Digits w b →
      mbiNaivMultiplicationRestricted w k p a b = mbiNaivMultiplication w k p a b ∧
      ∃ q, mbiNaivMultiplicationRestricted w k p a b = some q ∧ q.length = 2 ^ (k + 1) ∧
        val w q = val w a * val w b) ∧
    (7 < k → mbiNaivMultiplicationRestricted w k p a b = none) := by
  constructor
  · intro h7 hk hp hal hbl hdp hda hdb
    have h2 : 2 ^ (k + 1) = 2 * 2 ^ k := by rw [pow_succ]; omega
    have h128 : 2 ^ k ≤ 128 := by
      have : 2 ^ k ≤ 2 ^ 7 := Nat.pow_le_pow_right (by decide) h7
      simpa using this
    have hcore := naivRestrictedCore_eq w k (List.replicate 256 0) p a b hk
      (by rw [List.length_replicate]; omega) (by omega) hdp hda hdb
    have e : mbiNaivMultiplicationRestricted w k p a b = mbiNaivMultiplication w k p a b := by
      simp only [mbiNaivMultiplicationRestricted, h7, h128, if_true, hcore,
        mbiNaivMultiplication]
    refine ⟨e, ?_⟩
    obtain ⟨q, lq, _, eq, hv⟩ := mbiNaivMultiplication_spec w k p a b hk (by omega) hdp hda hdb
    rw [take_of_length_eq hal, take_of_length_eq hbl] at hv
    have hdrop : p.drop (2 * 2 ^ k) = [] := List.drop_eq_nil_of_le (by omega)
    rw [hdrop, List.append_nil] at eq
    exact ⟨q, by rw [e, eq], by omega, hv⟩
  · intro h7
    have : ¬ k ≤ 7 := by omega
    simp only [mbiNaivMultiplicationRestricted, this, if_false]

/-! ## The recursive case in terms of the counter state -/

/-- The recursive case of `mbiMultiply` applies the counter to the state described by
`karatsubaCounter`. -/
theorem karatsubaStep_eq_counter (w k : Nat)
    (mult : List Nat → List Nat → List Nat → Option (List Nat)) (p a b : List Nat) :
    karatsubaStep w k mult p a b
      = (karatsubaCounter w k mult p a b).map (fun s => karatsubaApply w k s.1 s.2) := by
  simp only [karatsubaStep, karatsubaCounter]
  cases karatsubaCross w k mult p a b with
  | none => rfl
  | some t =>
    obtain ⟨p1, heap, ov⟩ := t
    simp only
    cases karatsubaMerge w k mult p1 a b heap ov with
    | none => rfl
    | some s => rfl

/-- For `k >= 6` the counter of `mbiMultiply` is `0`, `1` or `2` when it is applied, and the
upper quarter of the destination has room for it. -/
theorem mbiMultiply_counter (w k : Nat) (p a b : List Nat) (hk : 6 ≤ k) (hw : min k 5 < w)
    (hp : p.length = 2 ^ (k + 1)) (ha : a.length = 2 ^ k) (hb : b.length = 2 ^ k)
    (hdp : Digits w p) (hda : Digits w a) (hdb : Digits w b) :
    ∃ p1 overflow, karatsubaCounter w k (mbiMultiply w (k - 1)) p a b = some (p1, overflow) ∧
      overflow ≤ 2 ∧ p1.length = 2 ^ (k + 1) ∧ Digits w p1 ∧
      val w (p1.drop (2 ^ k + 2 ^ k / 2)) + overflow < (2 ^ w) ^ (2 ^ k / 2) ∧
      mbiMultiply w k p a b = some (karatsubaApply w k p1 overflow) := by
  obtain ⟨j, rfl⟩ : ∃ j, k = j + 1 := ⟨k - 1, by omega⟩
  have hk2 : 2 ^ (j + 1) = 2 * 2 ^ j := by rw [pow_succ]; omega
  have hk3 : 2 ^ (j + 1 + 1) = 2 * (2 * 2 ^ j) := by rw [pow_succ, hk2]; omega
  have half : 2 * 2 ^ j / 2 = 2 ^ j := Nat.mul_div_cancel_left _ (by decide)
  have hw5 : 5 < w := by
    have : min (j + 1) 5 = 5 := Nat.min_eq_right (by omega)
    omega
  have hw4 : 4 ≤ 2 ^ w := by
    have : 2 ^ 2 ≤ 2 ^ w := Nat.pow_le_pow_right (by decide) (by omega)
    simpa using this
  have Hm : MultSpec w (2 ^ j) (mbiMultiply w j) :=
    mbiMultiply_spec w j (lt_of_le_of_lt (Nat.min_le_right _ _) hw5)
  have hstep : mbiMultiply w (j + 1) p a b
      = karatsubaStep w (j + 1) (mbiMultiply w j) p a b := by
    have : ¬ (j + 1 ≤ 5) := by omega
    simp [mbiMultiply, this]
  have hdropp : p.drop (2 * (2 * 2 ^ j)) = [] := List.drop_eq_nil_of_le (by omega)
  have hlen : ∀ q1l mid q2h : List Nat, q1l.length = 2 ^ j → mid.length = 2 * 2 ^ j →
      q2h.length = 2 ^ j → (q1l ++ (mid ++ (q2h ++ ([] : List Nat)))).length = 2 ^ (j + 1 + 1) := by
    intro q1l mid q2h h1 h2 h3
    simp only [List.length_append, List.length_nil, h1, h2, h3]
    omega
  have hdrop : ∀ q1l mid q2h : List Nat, q1l.length = 2 ^ j → mid.length = 2 * 2 ^ j →
      (q1l ++ (mid ++ (q2h ++ ([] : List Nat)))).drop (2 * 2 ^ j + 2 ^ j) = q2h := by
    intro q1l mid q2h h1 h2
    rw [drop_app12 h1 h2, List.append_nil]
  obtain ⟨q1l, mid, q2h, ovf, l1, lm, l2, d1, dm, d2, hov, eC, _, hroom⟩ :=
    karatsubaCounter_spec w (j + 1) (2 ^ j) hk2 hw4 (mbiMultiply w j) Hm p a b
      (le_of_eq (hk3.symm.trans hp.symm)) (le_of_eq (hk2.symm.trans ha.symm))
      (le_of_eq (hk2.symm.trans hb.symm)) hdp hda hdb
  rw [hdropp] at eC
  rw [Nat.add_sub_cancel, hk2, half]
  refine ⟨_, ovf, eC, hov, hlen q1l mid q2h l1 lm l2,
    d1.append (dm.append (d2.append (Digits.nil w))), ?_, ?_⟩
  · rw [hdrop q1l mid q2h l1 lm]; exact hroom
  · rw [hstep, karatsubaStep_eq_counter, eC]
    rfl

/-! ## `mbiBitRightShift` -/

/-- The mask `~( ~0 << r )` for a count below the width has the low `r` bits set. -/
theorem maske_eq (w r : Nat) (h : r < w) :
    2 ^ w - 1 - ((2 ^ w - 1) * 2 ^ r % 2 ^ w) = 2 ^ r - 1 := by
  have hR : 0 < 2 ^ r := Nat.two_pow_pos r
  have hle : 2 ^ r ≤ 2 ^ w := Nat.pow_le_pow_right (by decide) (Nat.le_of_lt h)
  obtain ⟨s, hs⟩ : ∃ s, 2 ^ r = s + 1 := ⟨2 ^ r - 1, by omega⟩
  obtain ⟨t, ht⟩ : ∃ t, 2 ^ w = s + 1 + t := ⟨2 ^ w - 2 ^ r, by omega⟩
  rw [ht, hs]
  have e : (s + 1 + t - 1) * (s + 1) = t + (s + 1 + t) * s := by
    have : s + 1 + t - 1 = s + t := by omega
    rw [this]; ring
  rw [e, Nat.add_mul_mod_self_left, Nat.mod_eq_of_lt (by omega)]
  omega

theorem two_pow_split (w r : Nat) (h : r ≤ w) : 2 ^ w = 2 ^ r * 2 ^ (w - r) := by
  rw [← pow_add]
  congr 1
  omega

/-- The digit written by one iteration of the loop: the high bits of `d` moved down and the
low `r` bits of the next digit `d1` moved to the top. -/
theorem shifted_digit (w r d d1 : Nat) (h0 : 0 < r) (h : r < w) (hd : d < 2 ^ w) :
    cShiftRight w d r = some (d / 2 ^ r) ∧
    cShiftLeft w ((2 ^ r - 1) &&& d1) (w - r) = some (2 ^ (w - r) * (d1 % 2 ^ r)) ∧
    (d / 2 ^ r ||| 2 ^ (w - r) * (d1 % 2 ^ r)) = d / 2 ^ r + 2 ^ (w - r) * (d1 % 2 ^ r) ∧
    d / 2 ^ r + 2 ^ (w - r) * (d1 % 2 ^ r) < 2 ^ w := by
  have hsplit := two_pow_split w r (Nat.le_of_lt h)
  have hR : 0 < 2 ^ r := Nat.two_pow_pos r
  have hE : 0 < 2 ^ (w - r) := Nat.two_pow_pos _
  have hx : d / 2 ^ r < 2 ^ (w - r) := by
    apply Nat.div_lt_of_lt_mul
    rw [← hsplit]; exact hd
  have hm : d1 % 2 ^ r < 2 ^ r := Nat.mod_lt _ hR
  have hmem : 2 ^ (w - r) * (d1 % 2 ^ r) + 2 ^ (w - r) ≤ 2 ^ w := by
    have : 2 ^ (w - r) * (d1 % 2 ^ r + 1) ≤ 2 ^ (w - r) * 2 ^ r := Nat.mul_le_mul_left _ hm
    rw [Nat.mul_comm (2 ^ (w - r)) (2 ^ r), ← hsplit, Nat.mul_add, Nat.mul_one] at this
    exact this
  refine ⟨?_, ?_, ?_, ?_⟩
  · simp only [cShiftRight, h, if_true]
  · have hlt : w - r < w := by omega
    simp only [cShiftLeft, hlt, if_true]
    rw [Nat.land_comm, Nat.and_pow_two_sub_one_eq_mod, Nat.mul_comm,
      Nat.mod_eq_of_lt (by omega)]
  · rw [Nat.lor_comm, ← Nat.mul_add_lt_is_or hx, Nat.add_comm]
  · omega

/-- Division by `2^r` of a number whose base-`2^w` digits are `d`, `d1`, ...: the quotient
has the lowest digit `d / 2^r + 2^(w-r) * (d1 mod 2^r)` and continues with the quotient of
the number formed by the remaining digits. -/
theorem div_two_pow_cons (w r d V d1 V1 : Nat) (h : r ≤ w) (hV : V = d1 + 2 ^ w * V1) :
    (d + 2 ^ w * V) / 2 ^ r = d / 2 ^ r + 2 ^ (w - r) * (d1 % 2 ^ r) + 2 ^ w * (V / 2 ^ r) := by
  have hsplit := two_pow_split w r h
  have hR : 0 < 2 ^ r := Nat.two_pow_pos r
  have e1 : d + 2 ^ w * V = d + 2 ^ r * (2 ^ (w - r) * V) := by rw [hsplit]; ring
  rw [e1, Nat.add_mul_div_left _ _ hR]
  have e2 : V % 2 ^ r = d1 % 2 ^ r := by
    rw [hV, hsplit]
    have : d1 + 2 ^ r * 2 ^ (w - r) * V1 = d1 + 2 ^ r * (2 ^ (w - r) * V1) := by ring
    rw [this, Nat.add_mul_mod_self_left]
  have e3 : 2 ^ (w - r) * V = 2 ^ (w - r) * (d1 % 2 ^ r) + 2 ^ w * (V / 2 ^ r) := by
    have hdm := Nat.div_add_mod V (2 ^ r)
    rw [e2] at hdm
    calc 2 ^ (w - r) * V = 2 ^ (w - r) * (2 ^ r * (V / 2 ^ r) + d1 % 2 ^ r) := by rw [hdm]
      _ = 2 ^ (w - r) * (d1 % 2 ^ r) + 2 ^ r * 2 ^ (w - r) * (V / 2 ^ r) := by ring
      _ = 2 ^ (w - r) * (d1 % 2 ^ r) + 2 ^ w * (V / 2 ^ r) := by rw [← hsplit]
  rw [e3]
  omega

/-- The loop of `mbiBitRightShift` for a count `0 < r < w` and the mask of the low `r` bits,
run over a whole number: it divides the value by `2^r`. -/
theorem mbiBitRightShiftLoop_spec (w r : Nat) (h0 : 0 < r) (h : r < w) :
    ∀ (z : List Nat), Digits w z →
    ∃ z1, mbiBitRightShiftLoop w r (2 ^ r - 1) z.length z = some z1 ∧
      z1.length = z.length ∧ Digits w z1 ∧ val w z1 = val w z / 2 ^ r
  | [], _ => ⟨[], rfl, rfl, Digits.nil w, by simp [val]⟩
  | [d], hd => by
    have hs := (shifted_digit w r d 0 h0 h hd.head).1
    refine ⟨[d / 2 ^ r], ?_, rfl, ?_, ?_⟩
    · simp only [List.length_singleton, mbiBitRightShiftLoop, hs]
    · exact Digits.cons (lt_of_le_of_lt (Nat.div_le_self _ _) hd.head) (Digits.nil w)
    · simp [val]
  | d :: d1 :: rest, hd => by
    obtain ⟨z1, e1, l1, hd1, v1⟩ := mbiBitRightShiftLoop_spec w r h0 h (d1 :: rest) hd.tail
    obtain ⟨s1, s2, s3, s4⟩ := shifted_digit w r d d1 h0 h hd.head
    refine ⟨(d / 2 ^ r + 2 ^ (w - r) * (d1 % 2 ^ r)) :: z1, ?_, ?_, Digits.cons s4 hd1, ?_⟩
    · simp only [List.length_cons] at e1 ⊢
      simp only [mbiBitRightShiftLoop, s1, s2, e1, Option.map_some', s3]
    · simp only [List.length_cons] at l1 ⊢
      omega
    · have key := div_two_pow_cons w r d (val w (d1 :: rest)) d1 (val w rest)
        (Nat.le_of_lt h) rfl
      have e : val w (d :: d1 :: rest) = d + 2 ^ w * val w (d1 :: rest) := rfl
      have e2 : val w ((d / 2 ^ r + 2 ^ (w - r) * (d1 % 2 ^ r)) :: z1)
          = d / 2 ^ r + 2 ^ (w - r) * (d1 % 2 ^ r) + 2 ^ w * val w z1 := rfl
      rw [e2, v1, e, key]

/-- The value after a shift by `q` whole digits with zero fill. -/
theorem val_drop_pad (w : Nat) (z : List Nat) (q : Nat) (hq : q ≤ z.length) (hd : Digits w z) :
    val w (z.drop q ++ List.replicate q 0) = val w z / (2 ^ w) ^ q := by
  have hB : 0 < (2 ^ w) ^ q := pow_pos (Nat.two_pow_pos w) q
  have hl : (z.take q).length = q := by rw [List.length_take]; omega
  have hlt : val w (z.take q) < (2 ^ w) ^ q := by
    have := val_lt (hd.take q)
    rwa [hl] at this
  have hs := val_take_add_drop w z q
  rw [hl] at hs
  rw [val_pad, ← hs, Nat.add_mul_div_left _ _ hB, Nat.div_eq_of_lt hlt, Nat.zero_add]

/-- For a bit count `r <= w * n` that is not a multiple of the digit width,
`mbiBitRightShift( n, z, r, true )` returns and leaves the value `val z / 2^r`. -/
theorem mbiBitRightShift_spec (w n : Nat) (z : List Nat) (r : Nat) (hz : z.length = n)
    (hd : Digits w z) (hr : r ≤ w * n) (hmod : r % w ≠ 0) :
    ∃ z1, mbiBitRightShift w n z r true = some z1 ∧ z1.length = n ∧ Digits w z1 ∧
      val w z1 = val w z / 2 ^ r := by
  have hw : 0 < w := by
    rcases Nat.eq_zero_or_pos w with h | h
    · subst h
      simp only [Nat.mod_zero, Nat.zero_mul] at hmod hr
      omega
    · exact h
  have hm0 : 0 < r % w := Nat.pos_of_ne_zero hmod
  have hmw : r % w < w := Nat.mod_lt _ hw
  by_cases hgt : r > w
  · have hq : r / w ≤ n := Nat.div_le_of_le_mul hr
    have hsh := mbiRightShift_eq n z (r / w) hz hq
    have hl1 : (z.drop (r / w) ++ List.replicate (r / w) 0).length = n := by
      rw [List.length_append, List.length_drop, List.length_replicate]; omega
    have hd1 : Digits w (z.drop (r / w) ++ List.replicate (r / w) 0) := (hd.drop _).pad _
    obtain ⟨z1, e1, l1, d1, v1⟩ := mbiBitRightShiftLoop_spec w (r % w) hm0 hmw _ hd1
    rw [hl1] at e1 l1
    refine ⟨z1, ?_, l1, d1, ?_⟩
    · have hle : r % w ≤ w := Nat.le_of_lt hmw
      simp only [mbiBitRightShift, hgt, if_true, hsh, Option.map_some', hle, cShiftLeft, hmw,
        maske_eq w (r % w) hmw, e1]
    · rw [v1, val_drop_pad w z (r / w) (by omega) hd, Nat.div_div_eq_div_mul, ← pow_mul,
        ← pow_add, Nat.div_add_mod]
  · have hrw : r < w := by
      rcases Nat.lt_or_ge r w with h | h
      · exact h
      · have : r = w := by omega
        rw [this, Nat.mod_self] at hmod
        exact absurd rfl hmod
    have hrr : r % w = r := Nat.mod_eq_of_lt hrw
    rw [hrr] at hm0
    obtain ⟨z1, e1, l1, d1, v1⟩ := mbiBitRightShiftLoop_spec w r hm0 hrw z hd
    rw [hz] at e1 l1
    refine ⟨z1, ?_, l1, d1, v1⟩
    have hle : r ≤ w := Nat.le_of_lt hrw
    simp only [mbiBitRightShift, hgt, if_false, hle, if_true, cShiftLeft, hrw,
      maske_eq w r hrw, e1]

/-- For a bit count equal to the digit width `mbiBitRightShift` does not shift by whole
digits (its test is `r > 8*sizeof(bigint)`) and evaluates `maske << r` with the count equal
to the width of the type. -/
theorem mbiBitRightShift_width (w n : Nat) (z : List Nat) (setzero : Bool) :
    mbiBitRightShift w n z w setzero = none := by
  have h1 : ¬ (w > w) := Nat.lt_irrefl w
  have h2 : ¬ (w < w) := Nat.lt_irrefl w
  simp only [mbiBitRightShift, h1, if_false, le_refl, if_true, cShiftLeft, h2]

/-! ## The result area of `mbiMultiplikation` -/

/-- When no error is reported, `mbiMultiplikation` copies the first `n1+n2` digits of the
block described by `mbiMultiplikationTemp`. -/
theorem mbiMultiplikation_eq_temp (w : Nat) (dest : List Nat) (n1 : Nat) (fak1 : List Nat)
    (n2 : Nat) (fak2 : List Nat)
    (h : shiftOne w (getFittingExponent w (if n1 > n2 then n1 else n2)) ≠ 0) :
    mbiMultiplikation w dest n1 fak1 n2 fak2
      = (mbiMultiplikationTemp w n1 fak1 n2 fak2).map
          (fun t => (⟨mbiCopy (n1 + n2) dest t, false⟩ : MultOut)) := by
  simp only [mbiMultiplikation, mbiMultiplikationTemp, h, if_false]
  generalize mbiMultiply w _ _ _ _ = r
  cases r <;> rfl

/-- A list of digits of value zero has the digit zero at every index. -/
theorem getD_of_val_zero (w : Nat) (z : List Nat) (h : val w z = 0) (i : Nat) :
    z.getD i 0 = 0 := by
  rw [eq_replicate_of_val_zero w z h, getD_replicate_zero]

/-- The block `tempdest` after the call of `mbiMultiply`: its result area `q` of `2 * 2^k`
digits holds the product, and every digit of `q` from index `n1+n2` on is zero. -/
theorem mbiMultiplikationTemp_spec (w : Nat) (n1 : Nat) (fak1 : List Nat)
    (n2 : Nat) (fak2 : List Nat) (hw0 : 0 < w) (hw : w ≤ 256)
    (hmax : max n1 n2 ≤ 2 ^ (w - 1)) (h1 : fak1.length = n1) (h2 : fak2.length = n2)
    (hd1 : Digits w fak1) (hd2 : Digits w fak2) :
    ∃ q t, mbiMultiplikationTemp w n1 fak1 n2 fak2 = some (q ++ t) ∧
      q.length = 2 * 2 ^ getFittingExponent w (max n1 n2) ∧ Digits w q ∧
      val w q = val w fak1 * val w fak2 ∧
      (∀ i, n1 + n2 ≤ i → q.getD i 0 = 0) ∧
      val w (q.take (n1 + n2)) = val w q ∧
      shiftOne w (getFittingExponent w (if n1 > n2 then n1 else n2)) ≠ 0 := by
  obtain ⟨hkw, hnk, _⟩ := getFittingExponent_spec w (max n1 n2) hw0 hw hmax
  simp only [mbiMultiplikationTemp, max_ite]
  generalize getFittingExponent w (max n1 n2) = k at *
  have hn1 : n1 ≤ 2 ^ k := le_trans (Nat.le_max_left _ _) hnk
  have hn2 : n2 ≤ 2 ^ k := le_trans (Nat.le_max_right _ _) hnk
  have hne : shiftOne w k ≠ 0 := by
    rw [shiftOne_of_lt hkw]; exact Nat.ne_of_gt (Nat.two_pow_pos k)
  have lpa := length_pad fak1 (2 ^ k) n1 h1 hn1
  have lpb := length_pad fak2 (2 ^ k) n2 h2 hn2
  obtain ⟨f1, f2, f3, f4⟩ := drop_block2 (2 ^ k) (fak1 ++ List.replicate (2 ^ k - n1) 0)
    (fak2 ++ List.replicate (2 ^ k - n2) 0) lpa
  obtain ⟨q, lq, hdq, eq, hv⟩ := mbiMultiply_spec w k (lt_of_le_of_lt (Nat.min_le_left _ _) hkw)
    (List.replicate (2 * 2 ^ k) 0 ++ ((fak1 ++ List.replicate (2 ^ k - n1) 0)
      ++ (fak2 ++ List.replicate (2 ^ k - n2) 0)))
    ((fak1 ++ List.replicate (2 ^ k - n1) 0) ++ (fak2 ++ List.replicate (2 ^ k - n2) 0))
    (fak2 ++ List.replicate (2 ^ k - n2) 0) f4 (le_length_app1 lpa) (le_of_eq lpb.symm)
    ((Digits.replicate_zero w _).append ((hd1.pad _).append (hd2.pad _)))
    ((hd1.pad _).append (hd2.pad _)) (hd2.pad _)
  rw [List.take_left' lpa, take_of_length_eq lpb, val_pad, val_pad] at hv
  rw [f3] at eq
  have hle : n1 + n2 ≤ q.length := by rw [lq]; omega
  have hlt : val w q < (2 ^ w) ^ (n1 + n2) := by
    rw [hv, ← h1, ← h2]; exact val_mul_lt w fak1 fak2 hd1 hd2
  obtain ⟨t1, t2⟩ := val_take_of_lt w q (n1 + n2) hle hlt
  refine ⟨q, (fak1 ++ List.replicate (2 ^ k - n1) 0) ++ (fak2 ++ List.replicate (2 ^ k - n2) 0),
    ?_, lq, hdq, hv, ?_, t1, hne⟩
  · simp only [hne, if_false, padded_block (2 ^ k) n1 n2 fak1 fak2 h1 h2 hn1 hn2, f1, f2, eq]
  · intro i hi
    obtain ⟨j, rfl⟩ : ∃ j, i = n1 + n2 + j := ⟨i - (n1 + n2), by omega⟩
    rw [← getD_drop]
    exact getD_of_val_zero w _ t2 j

/-! ## Applying the counter of the Karatsuba multiplication -/

/-- An increment of an `n`-digit number that has room for it returns no carry. -/
theorem mbiInc_exact (w n : Nat) (xs : List Nat) (h0 : 0 < n) (hx : xs.length = n)
    (hd : Digits w xs) (hroom : val w xs + 1 < (2 ^ w) ^ n) :
    (mbiInc w n xs false).dest.length = n ∧ Digits w (mbiInc w n xs false).dest ∧
    val w (mbiInc w n xs false).dest = val w xs + 1 ∧ (mbiInc w n xs false).ret = false := by
  obtain ⟨h1, h2, _, h4⟩ := mbiInc_spec w n xs h0 (le_of_eq hx.symm) hd
  have hl : (mbiInc w n xs false).dest.length = n := by rw [h1, hx]
  rw [take_of_length_eq hl, take_of_length_eq hx] at h4
  have hrc : (mbiInc w n xs false).ret = (mbiInc w n xs false).carry := by
    cases xs <;> rfl
  rw [hrc]
  generalize (mbiInc w n xs false).carry = c at h4
  cases c with
  | false =>
    simp only [Bool.toNat_false, zero_mul, add_zero] at h4
    exact ⟨hl, h2, h4, rfl⟩
  | true =>
    simp only [Bool.toNat_true, one_mul] at h4
    omega

theorem length_take_of_le {p : List Nat} {m : Nat} (h : m ≤ p.length) :
    (p.take m).length = m := by
  rw [List.length_take]; omega

theorem length_drop_eq {p : List Nat} {m h : Nat} (hp : p.length = m + h) :
    (p.drop m).length = h := by
  rw [List.length_drop]; omega

/-- The final step of the recursive case for a counter that is `0`, `1` or `2` and a top
quarter that has room for it: the digits below the top quarter are unchanged, the top
quarter is increased by the counter, and no increment returns a carry. -/
theorem karatsubaApply_counter (w k h : Nat) (hk : 2 ^ k = 2 * h) (h0 : 0 < h)
    (p1 : List Nat) (ov : Nat) (hp : p1.length = 2 * h + h + h) (hd : Digits w p1)
    (hov : ov ≤ 2) (hroom : val w (p1.drop (2 * h + h)) + ov < (2 ^ w) ^ h) :
    (karatsubaApply w k p1 ov).length = p1.length ∧
    (karatsubaApply w k p1 ov).take (2 * h + h) = p1.take (2 * h + h) ∧
    val w ((karatsubaApply w k p1 ov).drop (2 * h + h)) = val w (p1.drop (2 * h + h)) + ov ∧
    (1 ≤ ov → (mbiInc w h (p1.drop (2 * h + h)) false).ret = false) ∧
    (ov = 2 → (mbiInc w h (mbiInc w h (p1.drop (2 * h + h)) false).dest false).ret
      = false) := by
  have half : 2 * h / 2 = h := Nat.mul_div_cancel_left h (by decide)
  have lpre : (p1.take (2 * h + h)).length = 2 * h + h := length_take_of_le (by omega)
  have ltop : (p1.drop (2 * h + h)).length = h := length_drop_eq hp
  have hdtop : Digits w (p1.drop (2 * h + h)) := hd.drop _
  rcases Nat.lt_or_ge ov 1 with c0 | c0
  · have hz : ov = 0 := by omega
    subst hz
    have e : karatsubaApply w k p1 0 = p1 := by simp [karatsubaApply]
    rw [e]
    exact ⟨rfl, rfl, rfl, fun h => absurd h (by decide), fun h => absurd h (by decide)⟩
  · obtain ⟨i1, i2, i3, i4⟩ := mbiInc_exact w h (p1.drop (2 * h + h)) h0 ltop hdtop (by omega)
    rcases Nat.lt_or_ge ov 2 with c1 | c1
    · have hz : ov = 1 := by omega
      subst hz
      have e : karatsubaApply w k p1 1
          = p1.take (2 * h + h) ++ (mbiInc w h (p1.drop (2 * h + h)) false).dest := by
        simp only [karatsubaApply, hk, half, if_true]
      rw [e]
      refine ⟨?_, List.take_left' lpre, ?_, fun _ => i4, fun h => absurd h (by decide)⟩
      · rw [List.length_append, lpre, i1, hp]
      · rw [List.drop_left' lpre, i3]
    · have hz : ov = 2 := by omega
      subst hz
      obtain ⟨j1, j2, j3, j4⟩ := mbiInc_exact w h (mbiInc w h (p1.drop (2 * h + h)) false).dest
        h0 i1 i2 (by omega)
      have hne : ¬ (2 = 1) := by decide
      have e : karatsubaApply w k p1 2
          = p1.take (2 * h + h)
            ++ (mbiInc w h (mbiInc w h (p1.drop (2 * h + h)) false).dest false).dest := by
        simp only [karatsubaApply, hk, half, hne, if_false, if_true, List.take_left' lpre,
          List.drop_left' lpre]
      rw [e]
      refine ⟨?_, List.take_left' lpre, ?_, fun _ => i4, fun _ => j4⟩
      · rw [List.length_append, lpre, j1, hp]
      · rw [List.drop_left' lpre, j3, i3]

/-! ## Schoolbook multiplication: every state of the loops -/

/-- The state on entry to the iteration `(i, j)`: the invariants of the loops hold, and the
sum to which the iteration leads fits the result area. -/
theorem naivStateAt_spec (w L : Nat) (a b rest : List Nat)
    (ha : Digits w a) (hb : Digits w b) (hLB : L < 2 ^ w)
    (q ov : List Nat) (hq : q.length = 2 * L) (hov : ov.length = 2 * L)
    (hdq : Digits w (q ++ rest)) (hdov : Digits w ov)
    (hb0 : ∀ m, ov.getD m 0 ≤ 0) (hinv : val w q + val w ov = 0)
    (i j : Nat) (hi : i < L) (hj : j < L) :
    ∃ q2 ov2, naivStateAt w L a b (q ++ rest, ov) i j = (q2 ++ rest, ov2) ∧
      q2.length = 2 * L ∧ ov2.length = 2 * L ∧ Digits w (q2 ++ rest) ∧ Digits w ov2 ∧
      (∀ m, i + j + 2 ≤ m → ov2.getD m 0 ≤ i) ∧
      val w q2 + val w ov2 + (2 ^ w) ^ (i + j) * (a.getD i 0 * b.getD j 0)
        < (2 ^ w) ^ (2 * L) := by
  obtain ⟨q1, ov1, e1, hq1, hov1, hdq1, hdov1, hv1, hb1⟩ :=
    naivOuter_spec w L a b rest ha hb hLB q ov hq hov hdq hdov hb0 hinv i (Nat.le_of_lt hi)
  obtain ⟨q2, ov2, e2, hq2, hov2, hdq2, hdov2, hv2, _, hb2⟩ :=
    naivInner_spec w L a b rest i ha hb hi hLB q1 ov1 hq1 hov1 hdq1 hdov1 hb1 hv1
      j (Nat.le_of_lt hj)
  refine ⟨q2, ov2, ?_, hq2, hov2, hdq2, hdov2, hb2, ?_⟩
  · simp only [naivStateAt, e1, e2]
  · have hnew : val w q2 + val w ov2 + (2 ^ w) ^ (i + j) * (a.getD i 0 * b.getD j 0)
        = val w (a.take i) * val w (b.take L)
          + (2 ^ w) ^ i * a.getD i 0 * val w (b.take (j + 1)) := by
      rw [hv2, val_take_succ, pow_add]; ring
    rw [hnew]
    exact lt_of_le_of_lt (rowSum_le_total w L a b i (j + 1) hi hj) (total_lt w L a b ha hb)

/-- The state on entry to the iteration `(i, j)` does not depend on what follows the
overflow buffer in memory. -/
theorem naivStateAt_frame (w L : Nat) (a b rest orest : List Nat)
    (ha : Digits w a) (hb : Digits w b) (hLB : L < 2 ^ w)
    (q ov : List Nat) (hq : q.length = 2 * L) (hov : ov.length = 2 * L)
    (hdq : Digits w (q ++ rest)) (hdov : Digits w ov)
    (hb0 : ∀ m, ov.getD m 0 ≤ 0) (hinv : val w q + val w ov = 0)
    (i j : Nat) (hi : i < L) (hj : j < L) :
    naivStateAt w L a b (q ++ rest, ov ++ orest) i j
      = ((naivStateAt w L a b (q ++ rest, ov) i j).1,
         (naivStateAt w L a b (q ++ rest, ov) i j).2 ++ orest) := by
  obtain ⟨q1, ov1, e1, hq1, hov1, hdq1, hdov1, hv1, hb1⟩ :=
    naivOuter_spec w L a b rest ha hb hLB q ov hq hov hdq hdov hb0 hinv i (Nat.le_of_lt hi)
  have f1 := naivOuter_frame w L a b rest orest ha hb hLB q ov hq hov hdq hdov hb0 hinv
    i (Nat.le_of_lt hi)
  have f2 := naivInner_frame w L a b rest orest i ha hb hi hLB q1 ov1 hq1 hov1 hdq1 hdov1
    hb1 hv1 j (Nat.le_of_lt hj)
  rw [e1] at f1
  simp only [naivStateAt, f1, e1, f2]

/-- In both variants of the schoolbook multiplication, with an overflow buffer of at least
`2 * 2^k` digits: when the accumulation of the iteration `(i, j)` returns a carry, the
index `i + j + 2` lies inside the first `2 * 2^k` digits of the buffer, and the entry
counted there does not wrap. -/
theorem naiv_overflow_safe (w k : Nat) (ov0 p a b : List Nat) (hk : k < w)
    (hov0 : 2 * 2 ^ k ≤ ov0.length) (hp : 2 * 2 ^ k ≤ p.length)
    (hdp : Digits w p) (ha : Digits w a) (hb : Digits w b)
    (i j : Nat) (hi : i < 2 ^ k) (hj : j < 2 ^ k)
    (hc : naivCarry w a b i j (naivStateAt w (2 ^ k) a b
      (mbiSetZero (2 ^ k * 2) p, mbiSetZero (2 ^ k * 2) ov0) i j) = true) :
    i + j + 2 < 2 * 2 ^ k ∧
    (naivStateAt w (2 ^ k) a b
      (mbiSetZero (2 ^ k * 2) p, mbiSetZero (2 ^ k * 2) ov0) i j).2.getD (i + j + 2) 0 + 1
      < 2 ^ w := by
  have hLB : 2 ^ k < 2 ^ w := Nat.pow_lt_pow_right (by decide) hk
  have hz1 : mbiSetZero (2 ^ k * 2) p = List.replicate (2 * 2 ^ k) 0 ++ p.drop (2 * 2 ^ k) := by
    rw [Nat.mul_comm (2 ^ k) 2]; exact mbiSetZero_eq _ _ hp
  have hz3 : mbiSetZero (2 ^ k * 2) ov0
      = List.replicate (2 * 2 ^ k) 0 ++ ov0.drop (2 * 2 ^ k) := by
    rw [Nat.mul_comm (2 ^ k) 2]; exact mbiSetZero_eq _ _ hov0
  have hdrest : Digits w (p.drop (2 * 2 ^ k)) := hdp.drop _
  have hb0 : ∀ m, (List.replicate (2 * 2 ^ k) 0).getD m 0 ≤ 0 := by
    intro m; rw [getD_replicate_zero]
  have hfr := naivStateAt_frame w (2 ^ k) a b (p.drop (2 * 2 ^ k)) (ov0.drop (2 * 2 ^ k))
    ha hb hLB (List.replicate (2 * 2 ^ k) 0) (List.replicate (2 * 2 ^ k) 0) (by simp) (by simp)
    ((Digits.replicate_zero w _).append hdrest) (Digits.replicate_zero w _) hb0
    (by simp [val_replicate_zero]) i j hi hj
  obtain ⟨q2, ov2, e2, hq2, hov2, hdq2, _, hb2, hS⟩ :=
    naivStateAt_spec w (2 ^ k) a b (p.drop (2 * 2 ^ k)) ha hb hLB
      (List.replicate (2 * 2 ^ k) 0) (List.replicate (2 * 2 ^ k) 0) (by simp) (by simp)
      ((Digits.replicate_zero w _).append hdrest) (Digits.replicate_zero w _) hb0
      (by simp [val_replicate_zero]) i j hi hj
  rw [hz1, hz3, hfr, e2] at hc ⊢
  have hidx : i + j + 2 < 2 * 2 ^ k :=
    naivStep_carry w (2 ^ k) a b q2 (p.drop (2 * 2 ^ k)) ov2 i j hq2 hdq2 ha hb hi hj hS hc
  refine ⟨hidx, ?_⟩
  have hget : (ov2 ++ ov0.drop (2 * 2 ^ k)).getD (i + j + 2) 0 = ov2.getD (i + j + 2) 0 := by
    rw [List.getD_eq_getElem?_getD, List.getD_eq_getElem?_getD,
      List.getElem?_append_left (by rw [hov2]; exact hidx)]
  have hsmall := hb2 (i + j + 2) (le_refl _)
  show (ov2 ++ ov0.drop (2 * 2 ^ k)).getD (i + j + 2) 0 + 1 < 2 ^ w
  rw [hget]
  omega

/-! ## `mbiCompare2` with an operand of length zero -/

/-- Started with the lower limit `0` on digits that are all zero, the zero-stripping loop of
`mbiCompare2` reaches the length `0` and then reads the digit `z[n-1]` with `n = 0`. -/
theorem mbiCompare2Strip_zeros (z : List Nat) : ∀ n, n ≤ z.length →
    (∀ i, i < n → z.getD i 0 = 0) → mbiCompare2Strip z 0 n = none
  | 0, _, _ => rfl
  | n + 1, hn, hz => by
    have hget := getElem?_eq_getD (Nat.lt_of_succ_le hn)
    have h0 := hz n (Nat.lt_succ_self n)
    have ih := mbiCompare2Strip_zeros z n (by omega) (fun i hi => hz i (by omega))
    have hc : z.getD n 0 = 0 ∧ n + 1 > 0 := ⟨h0, Nat.succ_pos n⟩
    simp only [mbiCompare2Strip, hget, hc, and_self, if_true, ih]

/-- When one operand has length `0` and the other, of length at least `1`, consists of zero
digits, `mbiCompare2` reads outside the longer operand. -/
theorem mbiCompare2_zero_length (n : Nat) (hn : 1 ≤ n) :
    mbiCompare2 n (List.replicate n 0) 0 [] = none ∧
    mbiCompare2 0 [] n (List.replicate n 0) = none := by
  have hs := mbiCompare2Strip_zeros (List.replicate n 0) n (by simp)
    (fun i _ => getD_replicate_zero n i)
  have h1 : n > 0 := hn
  have h2 : ¬ (0 > n) := by omega
  constructor
  · simp only [mbiCompare2, h1, if_true, hs, Option.map_none']
  · simp only [mbiCompare2, h2, if_false, h1, if_true, hs, Option.map_none']

/-! ## The exponent test with the shift as C defines it -/

theorem cShiftOne_of_lt {w k : Nat} (h : k < w) : cShiftOne w k = some (2 ^ k) := by
  simp only [cShiftOne, cShiftLeft, h, if_true, Nat.one_mul]
  rw [Nat.mod_eq_of_lt (Nat.pow_lt_pow_right (by decide) h)]

theorem cShiftOne_of_ge {w k : Nat} (h : w ≤ k) : cShiftOne w k = none := by
  have : ¬ k < w := Nat.not_lt.mpr h
  simp only [cShiftOne, cShiftLeft, this, if_false]

/-- Every shift that C defines gives a nonzero value of `1L << k`. -/
theorem cShiftOne_ne_zero (w k : Nat) : cShiftOne w k ≠ some 0 := by
  rcases Nat.lt_or_ge k w with h | h
  · rw [cShiftOne_of_lt h]
    intro hc
    exact absurd (Option.some.inj hc) (Nat.ne_of_gt (Nat.two_pow_pos k))
  · rw [cShiftOne_of_ge h]
    exact fun hc => Option.noConfusion hc

/-- While a representable power of two reaches `n`, every shift in the loop of
`getFittingExponent` is defined, and the loop computes the exponent described by
`getFittingExponentLoop`. -/
theorem getFittingExponentLoopStrict_eq (w n : Nat) (hw : w ≤ 256) (hn : n ≤ 2 ^ (w - 1)) :
    ∀ fuel k, fuel + k = 256 → k < w →
      getFittingExponentLoopStrict w n fuel k = some (getFittingExponentLoop w n fuel k)
  | 0, k, hf, hk => by omega
  | fuel + 1, k, hf, hk => by
    rw [getFittingExponentLoopStrict, getFittingExponentLoop, cShiftOne_of_lt hk,
      shiftOne_of_lt hk]
    by_cases hc : 2 ^ k < n ∧ k ≤ 254
    · have hk1 : k + 1 < w := by
        by_contra hcon
        have : w - 1 ≤ k := by omega
        have := Nat.pow_le_pow_right (show 0 < 2 by decide) this
        omega
      simp only [hc, and_self, if_true]
      exact getFittingExponentLoopStrict_eq w n hw hn fuel (k + 1) (by omega) hk1
    · simp only [hc, if_false]

theorem getFittingExponentStrict_eq (w n : Nat) (hw0 : 0 < w) (hw : w ≤ 256)
    (hn : n ≤ 2 ^ (w - 1)) :
    getFittingExponentStrict w n = some (getFittingExponent w n) :=
  getFittingExponentLoopStrict_eq w n hw hn 256 0 rfl hw0

/-- When no representable power of two reaches `n`, the loop of `getFittingExponent` comes to
the test for `k = w` and evaluates `1L << k` with the count equal to the width of `long`. -/
theorem getFittingExponentLoopStrict_too_long (w n : Nat) (hw : w ≤ 255)
    (hn : 2 ^ (w - 1) < n) :
    ∀ fuel k, fuel + k = 256 → k ≤ w → getFittingExponentLoopStrict w n fuel k = none
  | 0, k, hf, hk => by omega
  | fuel + 1, k, hf, hk => by
    rw [getFittingExponentLoopStrict]
    rcases Nat.lt_or_ge k w with h | h
    · have hlt : 2 ^ k < n := by
        have := Nat.pow_le_pow_right (show 0 < 2 by decide) (show k ≤ w - 1 by omega)
        omega
      have h254 : k ≤ 254 := by omega
      rw [cShiftOne_of_lt h]
      simp only [hlt, h254, and_self, if_true]
      exact getFittingExponentLoopStrict_too_long w n hw hn fuel (k + 1) (by omega) (by omega)
    · rw [cShiftOne_of_ge h]

theorem getFittingExponentStrict_too_long (w n : Nat) (hw : w ≤ 255) (hn : 2 ^ (w - 1) < n) :
    getFittingExponentStrict w n = none :=
  getFittingExponentLoopStrict_too_long w n hw hn 256 0 rfl (Nat.zero_le w)

/-- While a representable power of two reaches the longer operand, every shift of
`mbiMultiplikation` is defined and the function is the one described by
`mbiMultiplikation`. -/
theorem mbiMultiplikationStrict_eq (w : Nat) (dest : List Nat) (n1 : Nat) (fak1 : List Nat)
    (n2 : Nat) (fak2 : List Nat) (hw0 : 0 < w) (hw : w ≤ 256)
    (hmax : max n1 n2 ≤ 2 ^ (w - 1)) :
    mbiMultiplikationStrict w dest n1 fak1 n2 fak2 = mbiMultiplikation w dest n1 fak1 n2 fak2 := by
  obtain ⟨hkw, _, _⟩ := getFittingExponent_spec w (max n1 n2) hw0 hw hmax
  have e := getFittingExponentStrict_eq w (max n1 n2) hw0 hw hmax
  have hne : 2 ^ getFittingExponent w (max n1 n2) ≠ 0 := Nat.ne_of_gt (Nat.two_pow_pos _)
  simp only [mbiMultiplikationStrict, mbiMultiplikation, max_ite, e, cShiftOne_of_lt hkw,
    shiftOne_of_lt hkw, hne, if_false]

/-- When no representable power of two reaches the longer operand, `mbiMultiplikation`
evaluates an undefined shift in `getFittingExponent`. -/
theorem mbiMultiplikationStrict_too_long (w : Nat) (dest : List Nat) (n1 : Nat)
    (fak1 : List Nat) (n2 : Nat) (fak2 : List Nat) (hw : w ≤ 255)
    (hmax : 2 ^ (w - 1) < max n1 n2) :
    mbiMultiplikationStrict w dest n1 fak1 n2 fak2 = none := by
  have e := getFittingExponentStrict_too_long w (max n1 n2) hw hmax
  simp only [mbiMultiplikationStrict, max_ite, e]

/-- With the shifts as C defines them the error branch of `mbiMultiplikation` is never
taken: no defined value of `1L << k` is zero. -/
theorem mbiMultiplikationStrict_no_error (w : Nat) (dest : List Nat) (n1 : Nat)
    (fak1 : List Nat) (n2 : Nat) (fak2 : List Nat) (d : List Nat) :
    mbiMultiplikationStrict w dest n1 fak1 n2 fak2 ≠ some ⟨d, true⟩ := by
  simp only [mbiMultiplikationStrict]
  cases getFittingExponentStrict w (if n1 > n2 then n1 else n2) with
  | none => exact fun hc => Option.noConfusion hc
  | some k =>
    simp only
    cases hs : cShiftOne w k with
    | none => exact fun hc => Option.noConfusion hc
    | some s =>
      have hne : s ≠ 0 := fun h0 => cShiftOne_ne_zero w k (by rw [hs, h0])
      simp only [hne, if_false]
      generalize mbiMultiply w k _ _ _ = r
      cases r with
      | none => exact fun hc => Option.noConfusion hc
      | some t =>
        intro hc
        have := congrArg MultOut.error (Option.some.inj hc)
        exact Bool.noConfusion this

/-! ## Independence of the previous contents of the destination -/

/-- The result of `mbiMultiply` does not depend on what the destination held before the
call.  In particular the contents of the local array `heap`, which the source leaves
uninitialised and passes as destination to the first recursive call, are immaterial. -/
theorem mbiMultiply_indep (w k : Nat) (p1 p2 a b : List Nat) (hw : min k 5 < w)
    (hp1 : p1.length = 2 * 2 ^ k) (hp2 : p2.length = 2 * 2 ^ k)
    (ha : 2 ^ k ≤ a.length) (hb : 2 ^ k ≤ b.length)
    (hdp1 : Digits w p1) (hdp2 : Digits w p2) (hda : Digits w a) (hdb : Digits w b) :
    mbiMultiply w k p1 a b = mbiMultiply w k p2 a b := by
  obtain ⟨q, lq, hdq, e, hv⟩ := mbiMultiply_spec w k hw p1 a b (le_of_eq hp1.symm) ha hb
    hdp1 hda hdb
  obtain ⟨q', lq', hdq', e', hv'⟩ := mbiMultiply_spec w k hw p2 a b (le_of_eq hp2.symm) ha hb
    hdp2 hda hdb
  have hqq : q = q' := val_inj hdq hdq' (by rw [lq, lq']) (by rw [hv, hv'])
  rw [e, e', hqq, List.drop_eq_nil_of_le (le_of_eq hp1), List.drop_eq_nil_of_le (le_of_eq hp2)]

/-- The result of `mbiNaivMultiplication` does not depend on what the destination held
before the call. -/
theorem mbiNaivMultiplication_indep (w k : Nat) (p1 p2 a b : List Nat) (hw : k < w)
    (hp1 : p1.length = 2 * 2 ^ k) (hp2 : p2.length = 2 * 2 ^ k)
    (hdp1 : Digits w p1) (hdp2 : Digits w p2) (hda : Digits w a) (hdb : Digits w b) :
    mbiNaivMultiplication w k p1 a b = mbiNaivMultiplication w k p2 a b := by
  obtain ⟨q, lq, hdq, e, hv⟩ := mbiNaivMultiplication_spec w k p1 a b hw (le_of_eq hp1.symm)
    hdp1 hda hdb
  obtain ⟨q', lq', hdq', e', hv'⟩ := mbiNaivMultiplication_spec w k p2 a b hw
    (le_of_eq hp2.symm) hdp2 hda hdb
  have hqq : q = q' := val_inj hdq hdq' (by rw [lq, lq']) (by rw [hv, hv'])
  rw [e, e', hqq, List.drop_eq_nil_of_le (le_of_eq hp1), List.drop_eq_nil_of_le (le_of_eq hp2)]

/-! ## The claims -/

/-- C1: for every exponent `k` and operands `a`, `b` of `2^k` digits, `mbiMultiply k p a b`
returns and leaves in the `2^(k+1)` digits of `p` the number `val a * val b`; for `k >= 6`
this is the recursive Karatsuba case.  The digit width `w` must exceed `min k 5`, so that
the schoolbook base case (at most `2^5` digits) cannot wrap an overflow count. -/
theorem C1_mbiMultiply_product (w k : Nat) (p a b : List Nat) (hw : min k 5 < w)
    (hp : p.length = 2 ^ (k + 1)) (ha : a.length = 2 ^ k) (hb : b.length = 2 ^ k)
    (hdp : Digits w p) (hda : Digits w a) (hdb : Digits w b) :
    (∃ r, mbiMultiply w k p a b = some r ∧ r.length = 2 ^ (k + 1) ∧ Digits w r ∧
      val w r = val w a * val w b) ∧
    (6 ≤ k → mbiMultiply w k p a b = karatsubaStep w k (mbiMultiply w (k - 1)) p a b) := by
  have h2 : 2 ^ (k + 1) = 2 * 2 ^ k := by rw [pow_succ]; omega
  obtain ⟨q, lq, hdq, e, hv⟩ := mbiMultiply_spec w k hw p a b (by omega) (le_of_eq ha.symm)
    (le_of_eq hb.symm) hdp hda hdb
  rw [take_of_length_eq ha, take_of_length_eq hb] at hv
  have hdrop : p.drop (2 * 2 ^ k) = [] := List.drop_eq_nil_of_le (by omega)
  rw [hdrop, List.append_nil] at e
  refine ⟨⟨q, e, by omega, hdq, hv⟩, ?_⟩
  intro h6
  obtain ⟨j, rfl⟩ : ∃ j, k = j + 1 := ⟨k - 1, by omega⟩
  have : ¬ (j + 1 ≤ 5) := by omega
  simp [mbiMultiply, this]

/-- Witness for C1: 64-digit operands of 32-bit digits, the smallest size at which the
recursive case runs, with every digit `2^32 - 1`. -/
theorem C1_mbiMultiply_product_witness :
    (∃ r, mbiMultiply 32 6 (List.replicate 128 5) (List.replicate 64 (2 ^ 32 - 1))
        (List.replicate 64 (2 ^ 32 - 1)) = some r ∧ r.length = 2 ^ (6 + 1) ∧ Digits 32 r ∧
      val 32 r = val 32 (List.replicate 64 (2 ^ 32 - 1))
        * val 32 (List.replicate 64 (2 ^ 32 - 1))) ∧
    (6 ≤ 6 → mbiMultiply 32 6 (List.replicate 128 5) (List.replicate 64 (2 ^ 32 - 1))
        (List.replicate 64 (2 ^ 32 - 1))
      = karatsubaStep 32 6 (mbiMultiply 32 (6 - 1)) (List.replicate 128 5)
          (List.replicate 64 (2 ^ 32 - 1)) (List.replicate 64 (2 ^ 32 - 1))) :=
  C1_mbiMultiply_product 32 6 (List.replicate 128 5) (List.replicate 64 (2 ^ 32 - 1))
    (List.replicate 64 (2 ^ 32 - 1)) (by decide) (by simp) (by simp) (by simp)
    (fun d hd => by rw [List.eq_of_mem_replicate hd]; decide)
    (fun d hd => by rw [List.eq_of_mem_replicate hd]; decide)
    (fun d hd => by rw [List.eq_of_mem_replicate hd]; decide)

/-- C2: for every exponent `k` (with `2^k` below the base) and operands of `2^k` digits,
`mbiMultiply` and `mbiNaivMultiplication` return the same `2^(k+1)` digits, whatever the
destinations held before, and `mbiCompare` of the two results is `0`. -/
theorem C2_mbiMultiply_eq_naiv (w k : Nat) (p1 p2 a b : List Nat) (hw : k < w)
    (hp1 : p1.length = 2 ^ (k + 1)) (hp2 : p2.length = 2 ^ (k + 1))
    (ha : a.length = 2 ^ k) (hb : b.length = 2 ^ k)
    (hdp1 : Digits w p1) (hdp2 : Digits w p2) (hda : Digits w a) (hdb : Digits w b) :
    ∃ r1 r2, mbiMultiply w k p1 a b = some r1 ∧ mbiNaivMultiplication w k p2 a b = some r2 ∧
      r1.length = 2 ^ (k + 1) ∧ r1 = r2 ∧ mbiCompare (2 ^ (k + 1)) r2 r1 = 0 := by
  have h2 : 2 ^ (k + 1) = 2 * 2 ^ k := by rw [pow_succ]; omega
  obtain ⟨q, lq, hdq, e, hv⟩ := mbiMultiply_spec w k
    (lt_of_le_of_lt (Nat.min_le_left _ _) hw) p1 a b (by omega) (le_of_eq ha.symm)
    (le_of_eq hb.symm) hdp1 hda hdb
  obtain ⟨q', lq', hdq', e', hv'⟩ := mbiNaivMultiplication_spec w k p2 a b hw (by omega)
    hdp2 hda hdb
  have hd1 : p1.drop (2 * 2 ^ k) = [] := List.drop_eq_nil_of_le (by omega)
  have hd2 : p2.drop (2 * 2 ^ k) = [] := List.drop_eq_nil_of_le (by omega)
  rw [hd1, List.append_nil] at e
  rw [hd2, List.append_nil] at e'
  have hqq : q = q' := val_inj hdq hdq' (by rw [lq, lq']) (by rw [hv, hv'])
  subst hqq
  refine ⟨q, q, e, e', by omega, rfl, ?_⟩
  rw [mbiCompare_eq w _ q q hdq hdq]
  simp

/-- Witness for C2: operands whose digits are all `2^32 - 1`, so that both half-sums
overflow. -/
theorem C2_mbiMultiply_eq_naiv_witness :
    ∃ r1 r2, mbiMultiply 32 6 (List.replicate 128 0) (List.replicate 64 (2 ^ 32 - 1))
        (List.replicate 64 (2 ^ 32 - 1)) = some r1 ∧
      mbiNaivMultiplication 32 6 (List.replicate 128 1) (List.replicate 64 (2 ^ 32 - 1))
        (List.replicate 64 (2 ^ 32 - 1)) = some r2 ∧
      r1.length = 2 ^ (6 + 1) ∧ r1 = r2 ∧ mbiCompare (2 ^ (6 + 1)) r2 r1 = 0 :=
  C2_mbiMultiply_eq_naiv 32 6 (List.replicate 128 0) (List.replicate 128 1)
    (List.replicate 64 (2 ^ 32 - 1)) (List.replicate 64 (2 ^ 32 - 1)) (by decide) (by simp)
    (by simp) (by simp) (by simp) (Digits.replicate_zero 32 128)
    (fun d hd => by rw [List.eq_of_mem_replicate hd]; decide)
    (fun d hd => by rw [List.eq_of_mem_replicate hd]; decide)
    (fun d hd => by rw [List.eq_of_mem_replicate hd]; decide)

/-- C3: for every exponent `k` with `2^k` below the base and operands of `2^k` digits,
`mbiNaivMultiplication k p a b` returns (its assertion holds) and leaves in the `2 * 2^k`
digits of `p` the number `val a * val b`, whatever `p` held before the call. -/
theorem C3_mbiNaivMultiplication_product (w k : Nat) (p a b : List Nat) (hw : k < w)
    (hp : p.length = 2 ^ (k + 1)) (ha : a.length = 2 ^ k) (hb : b.length = 2 ^ k)
    (hdp : Digits w p) (hda : Digits w a) (hdb : Digits w b) :
    ∃ r, mbiNaivMultiplication w k p a b = some r ∧ r.length = 2 ^ (k + 1) ∧ Digits w r ∧
      val w r = val w a * val w b := by
  have h2 : 2 ^ (k + 1) = 2 * 2 ^ k := by rw [pow_succ]; omega
  obtain ⟨q, lq, hdq, e, hv⟩ := mbiNaivMultiplication_spec w k p a b hw (by omega) hdp hda hdb
  rw [take_of_length_eq ha, take_of_length_eq hb] at hv
  have hdrop : p.drop (2 * 2 ^ k) = [] := List.drop_eq_nil_of_le (by omega)
  rw [hdrop, List.append_nil] at e
  exact ⟨q, e, by omega, hdq, hv⟩

/-- Witness for C3: two 2-digit operands of 32-bit digits and a destination holding
arbitrary digits. -/
theorem C3_mbiNaivMultiplication_product_witness :
    ∃ r, mbiNaivMultiplication 32 1 [7, 7, 7, 7] [4294967295, 4294967295] [4294967295, 3]
        = some r ∧ r.length = 2 ^ (1 + 1) ∧ Digits 32 r ∧
      val 32 r = val 32 [4294967295, 4294967295] * val 32 [4294967295, 3] :=
  C3_mbiNaivMultiplication_product 32 1 [7, 7, 7, 7] [4294967295, 4294967295]
    [4294967295, 3] (by decide) (by decide) (by decide) (by decide) (by decide) (by decide)
    (by decide)

/-- C4: for all lengths `n1`, `n2` whose maximum is at most `2^(w-1)` and all operands of
`n1` and `n2` digits, `mbiMultiplikation` returns without error, leaves the digits of `dest`
from `n1+n2` on unchanged, and writes into `dest[0..n1+n2)` the first `n1+n2` digits of the
schoolbook product of the operands zero-extended to `2^k` digits, whose value is
`val fak1 * val fak2`. -/
theorem C4_mbiMultiplikation_product (w : Nat) (dest : List Nat) (n1 : Nat)
    (fak1 : List Nat) (n2 : Nat) (fak2 : List Nat) (hw0 : 0 < w) (hw : w ≤ 256)
    (hmax : max n1 n2 ≤ 2 ^ (w - 1)) (h1 : fak1.length = n1) (h2 : fak2.length = n2)
    (hd : n1 + n2 ≤ dest.length) (hd1 : Digits w fak1) (hd2 : Digits w fak2) :
    ∃ d, mbiMultiplikation w dest n1 fak1 n2 fak2 = some ⟨d, false⟩ ∧
      d.length = dest.length ∧ d.drop (n1 + n2) = dest.drop (n1 + n2) ∧
      val w (d.take (n1 + n2)) = val w fak1 * val w fak2 ∧
      ∀ p0, p0.length = 2 * 2 ^ getFittingExponent w (max n1 n2) → Digits w p0 →
        ∃ r, mbiNaivMultiplication w (getFittingExponent w (max n1 n2)) p0
            (fak1 ++ List.replicate (2 ^ getFittingExponent w (max n1 n2) - n1) 0)
            (fak2 ++ List.replicate (2 ^ getFittingExponent w (max n1 n2) - n2) 0) = some r ∧
          d.take (n1 + n2) = r.take (n1 + n2) := by
  obtain ⟨q, lq, hdq, hv, e⟩ :=
    mbiMultiplikation_spec w dest n1 fak1 n2 fak2 hw0 hw hmax h1 h2 hd hd1 hd2
  obtain ⟨hkw, hnk, _⟩ := getFittingExponent_spec w (max n1 n2) hw0 hw hmax
  have hn1 : n1 ≤ 2 ^ getFittingExponent w (max n1 n2) := le_trans (Nat.le_max_left _ _) hnk
  have hn2 : n2 ≤ 2 ^ getFittingExponent w (max n1 n2) := le_trans (Nat.le_max_right _ _) hnk
  have hle : n1 + n2 ≤ q.length := by rw [lq]; omega
  have hlt : val w q < (2 ^ w) ^ (n1 + n2) := by
    rw [hv, ← h1, ← h2]; exact val_mul_lt w fak1 fak2 hd1 hd2
  have ltk : (q.take (n1 + n2)).length = n1 + n2 := by rw [List.length_take]; omega
  refine ⟨_, e, ?_, List.drop_left' ltk, ?_, ?_⟩
  · rw [List.length_append, ltk, List.length_drop]; omega
  · rw [List.take_left' ltk]
    rw [(val_take_of_lt w q (n1 + n2) hle hlt).1, hv]
  · intro p0 hp0 hdp0
    obtain ⟨q', lq', hdq', e', hv'⟩ := mbiNaivMultiplication_spec w
      (getFittingExponent w (max n1 n2)) p0
      (fak1 ++ List.replicate (2 ^ getFittingExponent w (max n1 n2) - n1) 0)
      (fak2 ++ List.replicate (2 ^ getFittingExponent w (max n1 n2) - n2) 0) hkw
      (le_of_eq hp0.symm) hdp0 (hd1.pad _) (hd2.pad _)
    rw [take_of_length_eq (length_pad fak1 _ n1 h1 hn1),
      take_of_length_eq (length_pad fak2 _ n2 h2 hn2), val_pad, val_pad] at hv'
    have hqq : q = q' := val_inj hdq hdq' (by rw [lq, lq']) (by rw [hv, hv'])
    subst hqq
    have hdrop : p0.drop (2 * 2 ^ getFittingExponent w (max n1 n2)) = [] :=
      List.drop_eq_nil_of_le (by omega)
    rw [hdrop, List.append_nil] at e'
    exact ⟨q, e', by rw [List.take_left' ltk]⟩

/-- Witness for C4: the operand lengths 5 and 17 of the repository's arbitrary-length test,
with 32-bit digits. -/
theorem C4_mbiMultiplikation_product_witness :
    ∃ d, mbiMultiplikation 32 (List.replicate 22 9) 5 [1, 2, 3, 4, 5] 17 (List.replicate 17 1)
        = some ⟨d, false⟩ ∧
      d.length = (List.replicate 22 9).length ∧
      d.drop (5 + 17) = (List.replicate 22 9).drop (5 + 17) ∧
      val 32 (d.take (5 + 17)) = val 32 [1, 2, 3, 4, 5] * val 32 (List.replicate 17 1) ∧
      ∀ p0, p0.length = 2 * 2 ^ getFittingExponent 32 (max 5 17) → Digits 32 p0 →
        ∃ r, mbiNaivMultiplication 32 (getFittingExponent 32 (max 5 17)) p0
            ([1, 2, 3, 4, 5] ++ List.replicate (2 ^ getFittingExponent 32 (max 5 17) - 5) 0)
            (List.replicate 17 1
              ++ List.replicate (2 ^ getFittingExponent 32 (max 5 17) - 17) 0) = some r ∧
          d.take (5 + 17) = r.take (5 + 17) :=
  C4_mbiMultiplikation_product 32 (List.replicate 22 9) 5 [1, 2, 3, 4, 5] 17
    (List.replicate 17 1) (by decide) (by decide) (by decide) (by decide) (by decide)
    (by decide) (by decide) (by decide)

/-- C5, the code at the failing input: with a 32-bit `long` and an operand of `2^31 + 1`
digits, which no representable power of two reaches, the loop of `getFittingExponent` finds
`(1L<<k) < n` for every `k` up to `31` and then evaluates `1L << 32`, a shift by the full
width of `long`, which C leaves undefined.  So `mbiMultiplikation` does not come to its
error branch: it does not return with the error reported and `dest` unchanged. -/
theorem C5_mbiMultiplikation_too_long :
    cShiftOne 32 31 = some (2 ^ 31) ∧ cShiftOne 32 32 = none ∧
    getFittingExponentStrict 32 (max (2 ^ 31 + 1) 0) = none ∧
    mbiMultiplikationStrict 32 [7, 7, 7] (2 ^ 31 + 1) (List.replicate (2 ^ 31 + 1) 0) 0 []
      = none ∧
    mbiMultiplikationStrict 32 [7, 7, 7] (2 ^ 31 + 1) (List.replicate (2 ^ 31 + 1) 0) 0 []
      ≠ some ⟨[7, 7, 7], true⟩ :=
  ⟨cShiftOne_of_lt (by decide), cShiftOne_of_ge (by decide),
    getFittingExponentStrict_too_long 32 (max (2 ^ 31 + 1) 0) (by decide) (by decide),
    mbiMultiplikationStrict_too_long 32 [7, 7, 7] (2 ^ 31 + 1)
      (List.replicate (2 ^ 31 + 1) 0) 0 [] (by decide) (by decide),
    mbiMultiplikationStrict_no_error 32 [7, 7, 7] (2 ^ 31 + 1)
      (List.replicate (2 ^ 31 + 1) 0) 0 [] [7, 7, 7]⟩

/-- C6: for every length `n <= 2^(w-1)`, where `w <= 256` is the width of the `long`,
`getFittingExponent n` is the least `k` with `2^k >= n`; in particular it is `5` for `17`
and `0` for `0` and `1`. -/
theorem C6_getFittingExponent_least (w n : Nat) (hw0 : 0 < w) (hw : w ≤ 256)
    (hn : n ≤ 2 ^ (w - 1)) :
    n ≤ 2 ^ getFittingExponent w n ∧
    (getFittingExponent w n = 0 ∨ 2 ^ (getFittingExponent w n - 1) < n) ∧
    (∀ j, n ≤ 2 ^ j → getFittingExponent w n ≤ j) ∧
    (17 ≤ 2 ^ (w - 1) → getFittingExponent w 17 = 5) ∧
    getFittingExponent w 0 = 0 ∧ getFittingExponent w 1 = 0 := by
  obtain ⟨_, h2, h3⟩ := getFittingExponent_spec w n hw0 hw hn
  have hleast : ∀ m, m ≤ 2 ^ (w - 1) → ∀ j, m ≤ 2 ^ j → getFittingExponent w m ≤ j := by
    intro m hm j hj
    by_contra hcon
    have := (getFittingExponent_spec w m hw0 hw hm).2.2 j (by omega)
    omega
  have h1w : (1 : Nat) ≤ 2 ^ (w - 1) := Nat.two_pow_pos _
  refine ⟨h2, ?_, hleast n hn, ?_, ?_, ?_⟩
  · rcases Nat.eq_zero_or_pos (getFittingExponent w n) with h0 | h0
    · exact Or.inl h0
    · exact Or.inr (h3 _ (by omega))
  · intro h17
    obtain ⟨_, g2, g3⟩ := getFittingExponent_spec w 17 hw0 hw h17
    have hle := hleast 17 h17 5 (by decide)
    have hge : ¬ getFittingExponent w 17 ≤ 4 := by
      intro h4
      have := Nat.pow_le_pow_right (show 0 < 2 by decide) h4
      omega
    omega
  · have := hleast 0 (Nat.zero_le _) 0 (by decide)
    omega
  · have := hleast 1 h1w 0 (by decide)
    omega

/-- Witness for C6: the 32-bit `long` and the length 17 of the repository's test. -/
theorem C6_getFittingExponent_least_witness :
    17 ≤ 2 ^ getFittingExponent 32 17 ∧
    (getFittingExponent 32 17 = 0 ∨ 2 ^ (getFittingExponent 32 17 - 1) < 17) ∧
    (∀ j, 17 ≤ 2 ^ j → getFittingExponent 32 17 ≤ j) ∧
    (17 ≤ 2 ^ (32 - 1) → getFittingExponent 32 17 = 5) ∧
    getFittingExponent 32 0 = 0 ∧ getFittingExponent 32 1 = 0 :=
  C6_getFittingExponent_least 32 17 (by decide) (by decide) (by decide)

/-- C7: on `n`-digit operands `mbiAdd` leaves `n` digits `dest'` and returns a carry `c'`
with `val dest' + c' * B^n = val dest + val add + c`; `dest'` is the sum modulo `B^n`, `c'`
is true exactly when the sum does not fit `n` digits, and the flag left in `*carry` is the
returned value. -/
theorem C7_mbiAdd_correct (w n : Nat) (dest add : List Nat) (c : Bool)
    (hdl : dest.length = n) (hal : add.length = n) (hd : Digits w dest) (ha : Digits w add) :
    (mbiAdd w n dest add c).dest.length = n ∧
    Digits w (mbiAdd w n dest add c).dest ∧
    val w (mbiAdd w n dest add c).dest + (mbiAdd w n dest add c).ret.toNat * (2 ^ w) ^ n
      = val w dest + val w add + c.toNat ∧
    val w (mbiAdd w n dest add c).dest = (val w dest + val w add + c.toNat) % (2 ^ w) ^ n ∧
    ((mbiAdd w n dest add c).ret = true ↔ (2 ^ w) ^ n ≤ val w dest + val w add + c.toNat) ∧
    (mbiAdd w n dest add c).carry = (mbiAdd w n dest add c).ret :=
  mbiAdd_full w n dest add c hdl hal hd ha

/-- Witness for C7: a two-digit addition with incoming carry that carries out of both
digits. -/
theorem C7_mbiAdd_correct_witness :
    (mbiAdd 32 2 [4294967295, 5] [1, 4294967295] true).dest.length = 2 ∧
    Digits 32 (mbiAdd 32 2 [4294967295, 5] [1, 4294967295] true).dest ∧
    val 32 (mbiAdd 32 2 [4294967295, 5] [1, 4294967295] true).dest
        + (mbiAdd 32 2 [4294967295, 5] [1, 4294967295] true).ret.toNat * (2 ^ 32) ^ 2
      = val 32 [4294967295, 5] + val 32 [1, 4294967295] + true.toNat ∧
    val 32 (mbiAdd 32 2 [4294967295, 5] [1, 4294967295] true).dest
      = (val 32 [4294967295, 5] + val 32 [1, 4294967295] + true.toNat) % (2 ^ 32) ^ 2 ∧
    ((mbiAdd 32 2 [4294967295, 5] [1, 4294967295] true).ret = true
      ↔ (2 ^ 32) ^ 2 ≤ val 32 [4294967295, 5] + val 32 [1, 4294967295] + true.toNat) ∧
    (mbiAdd 32 2 [4294967295, 5] [1, 4294967295] true).carry
      = (mbiAdd 32 2 [4294967295, 5] [1, 4294967295] true).ret :=
  C7_mbiAdd_correct 32 2 [4294967295, 5] [1, 4294967295] true (by decide) (by decide)
    (by decide) (by decide)

/-- C8: on `n`-digit operands `mbiSub` leaves `n` digits `dest'` and returns a borrow `c'`
with `val dest' + val sub + c = val dest + c' * B^n`; `dest'` is the difference modulo `B^n`
and `c'` is true exactly when `val dest < val sub + c`. -/
theorem C8_mbiSub_correct (w n : Nat) (dest sub : List Nat) (c : Bool)
    (hdl : dest.length = n) (hsl : sub.length = n) (hd : Digits w dest) (hs : Digits w sub) :
    (mbiSub w n dest sub c).dest.length = n ∧
    Digits w (mbiSub w n dest sub c).dest ∧
    val w (mbiSub w n dest sub c).dest + val w sub + c.toNat
      = val w dest + (mbiSub w n dest sub c).ret.toNat * (2 ^ w) ^ n ∧
    ((val w (mbiSub w n dest sub c).dest : Int)
      = ((val w dest : Int) - (val w sub : Int) - (c.toNat : Int)) % (((2 ^ w) ^ n : Nat) : Int)) ∧
    ((mbiSub w n dest sub c).ret = true ↔ val w dest < val w sub + c.toNat) ∧
    (mbiSub w n dest sub c).carry = (mbiSub w n dest sub c).ret :=
  mbiSub_full w n dest sub c hdl hsl hd hs

/-- Witness for C8: a two-digit subtraction with incoming borrow that borrows out of both
digits. -/
theorem C8_mbiSub_correct_witness :
    (mbiSub 32 2 [0, 5] [0, 5] true).dest.length = 2 ∧
    Digits 32 (mbiSub 32 2 [0, 5] [0, 5] true).dest ∧
    val 32 (mbiSub 32 2 [0, 5] [0, 5] true).dest + val 32 [0, 5] + true.toNat
      = val 32 [0, 5] + (mbiSub 32 2 [0, 5] [0, 5] true).ret.toNat * (2 ^ 32) ^ 2 ∧
    ((val 32 (mbiSub 32 2 [0, 5] [0, 5] true).dest : Int)
      = ((val 32 [0, 5] : Int) - (val 32 [0, 5] : Int) - (true.toNat : Int))
        % (((2 ^ 32) ^ 2 : Nat) : Int)) ∧
    ((mbiSub 32 2 [0, 5] [0, 5] true).ret = true ↔ val 32 [0, 5] < val 32 [0, 5] + true.toNat) ∧
    (mbiSub 32 2 [0, 5] [0, 5] true).carry = (mbiSub 32 2 [0, 5] [0, 5] true).ret :=
  C8_mbiSub_correct 32 2 [0, 5] [0, 5] true (by decide) (by decide) (by decide) (by decide)

/-- C9: `mbiAdd` with initial flag `c` followed by `mbiSub` with initial flag `c` restores
every digit of `a`, and the borrow returned by `mbiSub` equals the carry returned by
`mbiAdd`. -/
theorem C9_mbiAdd_mbiSub_roundtrip (w n : Nat) (a b : List Nat) (c : Bool)
    (hal : a.length = n) (hbl : b.length = n) (ha : Digits w a) (hb : Digits w b) :
    (mbiSub w n (mbiAdd w n a b c).dest b c).dest = a ∧
    (mbiSub w n (mbiAdd w n a b c).dest b c).ret = (mbiAdd w n a b c).ret :=
  mbiAdd_mbiSub_full w n a b c hal hbl ha hb

/-- Witness for C9: a two-digit addition that carries out, undone by the subtraction. -/
theorem C9_mbiAdd_mbiSub_roundtrip_witness :
    (mbiSub 32 2 (mbiAdd 32 2 [4294967295, 5] [1, 4294967295] true).dest [1, 4294967295]
        true).dest = [4294967295, 5] ∧
    (mbiSub 32 2 (mbiAdd 32 2 [4294967295, 5] [1, 4294967295] true).dest [1, 4294967295]
        true).ret = (mbiAdd 32 2 [4294967295, 5] [1, 4294967295] true).ret :=
  C9_mbiAdd_mbiSub_roundtrip 32 2 [4294967295, 5] [1, 4294967295] true (by decide)
    (by decide) (by decide) (by decide)

/-- C10: on `n`-digit operands `mbiCompare` returns `1`, `0` or `-1` as `val z1` is greater
than, equal to or less than `val z2`; hence it returns `0` on equal arguments, changes sign
when its arguments are exchanged, and the relation `mbiCompare n x y ≤ 0` is a total order
on `n`-digit numbers (reflexive, antisymmetric, transitive, total). -/
theorem C10_mbiCompare_correct (w n : Nat) (z1 z2 z3 : List Nat)
    (h1l : z1.length = n) (h2l : z2.length = n) (h3l : z3.length = n)
    (h1 : Digits w z1) (h2 : Digits w z2) (h3 : Digits w z3) :
    (val w z1 > val w z2 → mbiCompare n z1 z2 = 1) ∧
    (val w z1 = val w z2 → mbiCompare n z1 z2 = 0) ∧
    (val w z1 < val w z2 → mbiCompare n z1 z2 = -1) ∧
    mbiCompare n z1 z1 = 0 ∧
    mbiCompare n z1 z2 = - mbiCompare n z2 z1 ∧
    (mbiCompare n z1 z2 ≤ 0 ↔ val w z1 ≤ val w z2) ∧
    (mbiCompare n z1 z2 ≤ 0 → mbiCompare n z2 z1 ≤ 0 → z1 = z2) ∧
    (mbiCompare n z1 z2 ≤ 0 → mbiCompare n z2 z3 ≤ 0 → mbiCompare n z1 z3 ≤ 0) ∧
    (mbiCompare n z1 z2 ≤ 0 ∨ mbiCompare n z2 z1 ≤ 0) :=
  mbiCompare_full w n z1 z2 z3 h1l h2l h3l h1 h2 h3

/-- Witness for C10: three two-digit numbers of 32-bit digits. -/
theorem C10_mbiCompare_correct_witness :
    (val 32 [5, 1] > val 32 [9, 0] → mbiCompare 2 [5, 1] [9, 0] = 1) ∧
    (val 32 [5, 1] = val 32 [9, 0] → mbiCompare 2 [5, 1] [9, 0] = 0) ∧
    (val 32 [5, 1] < val 32 [9, 0] → mbiCompare 2 [5, 1] [9, 0] = -1) ∧
    mbiCompare 2 [5, 1] [5, 1] = 0 ∧
    mbiCompare 2 [5, 1] [9, 0] = - mbiCompare 2 [9, 0] [5, 1] ∧
    (mbiCompare 2 [5, 1] [9, 0] ≤ 0 ↔ val 32 [5, 1] ≤ val 32 [9, 0]) ∧
    (mbiCompare 2 [5, 1] [9, 0] ≤ 0 → mbiCompare 2 [9, 0] [5, 1] ≤ 0 → [5, 1] = [9, 0]) ∧
    (mbiCompare 2 [5, 1] [9, 0] ≤ 0 → mbiCompare 2 [9, 0] [0, 2] ≤ 0
      → mbiCompare 2 [5, 1] [0, 2] ≤ 0) ∧
    (mbiCompare 2 [5, 1] [9, 0] ≤ 0 ∨ mbiCompare 2 [9, 0] [5, 1] ≤ 0) :=
  C10_mbiCompare_correct 32 2 [5, 1] [9, 0] [0, 2] (by decide) (by decide) (by decide)
    (by decide) (by decide) (by decide)

/-! ## Further claims: comparison, shifts, numerical length, increments, overflow counts -/

/-- C11: for lengths `n1, n2 >= 1`, an `n1`-digit `z1` and an `n2`-digit `z2`,
`mbiCompare2( n1, z1, n2, z2 )` returns what `mbiCompare` returns on the operands extended
by zero digits to `max n1 n2` digits, and this is the sign of `val z1 - val z2`. -/
theorem C11_mbiCompare2_correct (w n1 n2 : Nat) (z1 z2 : List Nat) (h1 : 1 ≤ n1)
    (h2 : 1 ≤ n2) (l1 : z1.length = n1) (l2 : z2.length = n2)
    (d1 : Digits w z1) (d2 : Digits w z2) :
    mbiCompare2 n1 z1 n2 z2
      = some (mbiCompare (max n1 n2) (z1 ++ List.replicate (max n1 n2 - n1) 0)
          (z2 ++ List.replicate (max n1 n2 - n2) 0)) ∧
    mbiCompare2 n1 z1 n2 z2
      = some (if val w z2 < val w z1 then 1 else if val w z1 = val w z2 then 0 else -1) :=
  mbiCompare2_full w n1 n2 z1 z2 h1 h2 l1 l2 d1 d2

/-- Witness for C11: a three-digit operand with a zero top digit against a two-digit
operand, with 32-bit digits. -/
theorem C11_mbiCompare2_correct_witness :
    mbiCompare2 3 [1, 2, 0] 2 [1, 3]
      = some (mbiCompare (max 3 2) ([1, 2, 0] ++ List.replicate (max 3 2 - 3) 0)
          ([1, 3] ++ List.replicate (max 3 2 - 2) 0)) ∧
    mbiCompare2 3 [1, 2, 0] 2 [1, 3]
      = some (if val 32 [1, 3] < val 32 [1, 2, 0] then 1
          else if val 32 [1, 2, 0] = val 32 [1, 3] then 0 else -1) :=
  C11_mbiCompare2_correct 32 3 2 [1, 2, 0] [1, 3] (by decide) (by decide) rfl rfl
    (by decide) (by decide)

/-- C12: for an `n`-digit `z` and `r <= n`, `mbiLeftShift( n, z, r )` followed by
`mbiRightShift( n, z, r, true )` leaves `n` digits of which the first `n - r` are the
original first `n - r` digits and the last `r` are zero. -/
theorem C12_shift_roundtrip (n : Nat) (z : List Nat) (r : Nat) (hz : z.length = n)
    (hr : r ≤ n) :
    ∃ z1, mbiRightShift n (mbiLeftShift n z r) r true = some z1 ∧ z1.length = n ∧
      z1.take (n - r) = z.take (n - r) ∧ z1.drop (n - r) = List.replicate r 0 := by
  have hl : (z.take (n - r)).length = n - r := by rw [List.length_take]; omega
  refine ⟨z.take (n - r) ++ List.replicate r 0, shift_roundtrip n z r hz hr, ?_, ?_, ?_⟩
  · rw [List.length_append, hl, List.length_replicate]; omega
  · exact List.take_left' hl
  · exact List.drop_left' hl

/-- Witness for C12: five digits shifted by two. -/
theorem C12_shift_roundtrip_witness :
    ∃ z1, mbiRightShift 5 (mbiLeftShift 5 [1, 2, 3, 4, 5] 2) 2 true = some z1 ∧
      z1.length = 5 ∧ z1.take (5 - 2) = [1, 2, 3, 4, 5].take (5 - 2) ∧
      z1.drop (5 - 2) = List.replicate 2 0 :=
  C12_shift_roundtrip 5 [1, 2, 3, 4, 5] 2 rfl (by decide)

/-- C13: for every exponent `k` (the digit width exceeding `min k 5`) and every `2^k`-digit
`a`, `mbiMultiply` with the all-zero second operand, and likewise with the all-zero first
operand, returns with all `2^(k+1)` digits of the destination zero. -/
theorem C13_mbiMultiply_zero (w k : Nat) (p a : List Nat) (hw : min k 5 < w)
    (hp : p.length = 2 ^ (k + 1)) (ha : a.length = 2 ^ k)
    (hdp : Digits w p) (hda : Digits w a) :
    mbiMultiply w k p a (List.replicate (2 ^ k) 0) = some (List.replicate (2 ^ (k + 1)) 0) ∧
    mbiMultiply w k p (List.replicate (2 ^ k) 0) a = some (List.replicate (2 ^ (k + 1)) 0) :=
  ⟨mbiMultiply_zero w k p a _ hw hp ha (List.length_replicate _ _) hdp hda
      (Digits.replicate_zero w _) (Or.inr (val_replicate_zero w _)),
    mbiMultiply_zero w k p _ a hw hp (List.length_replicate _ _) ha hdp
      (Digits.replicate_zero w _) hda (Or.inl (val_replicate_zero w _))⟩

/-- Witness for C13: 64-digit operands of 32-bit digits, the recursive case. -/
theorem C13_mbiMultiply_zero_witness :
    mbiMultiply 32 6 (List.replicate 128 5) (List.replicate 64 (2 ^ 32 - 1))
        (List.replicate (2 ^ 6) 0) = some (List.replicate (2 ^ (6 + 1)) 0) ∧
    mbiMultiply 32 6 (List.replicate 128 5) (List.replicate (2 ^ 6) 0)
        (List.replicate 64 (2 ^ 32 - 1)) = some (List.replicate (2 ^ (6 + 1)) 0) :=
  C13_mbiMultiply_zero 32 6 (List.replicate 128 5) (List.replicate 64 (2 ^ 32 - 1))
    (by decide) (by simp) (by simp)
    (fun d hd => by rw [List.eq_of_mem_replicate hd]; decide)
    (fun d hd => by rw [List.eq_of_mem_replicate hd]; decide)

/-- C14, counterexample: for the two-digit number `[0, 1]` of 32-bit digits, whose value is
`2^32`, `mbiGetNumericalLength` sets `bits` to `1`, although the value is not below `2^1`. -/
theorem C14_bits_counterexample :
    mbiGetNumericalLength 32 2 [0, 1] = some (2, 1) ∧ ¬ (val 32 [0, 1] < 2 ^ 1) := by
  constructor
  · rfl
  · decide

/-- C14, amended: on an `n`-digit `z`, `mbiGetNumericalLength` returns; `bytes` is the least
`m` with `val z < B^m`; `bits` is the least `t` with `z[bytes-1] < 2^t`, the bit length of
the highest nonzero digit, so that `w * (bytes - 1) + bits` is the least number of bits that
hold `val z`; for `val z = 0` both are `0`. -/
theorem C14_mbiGetNumericalLength_amended (w n : Nat) (z : List Nat) (hz : z.length = n)
    (hd : Digits w z) :
    ∃ bytes bits, mbiGetNumericalLength w n z = some (bytes, bits) ∧ bytes ≤ n ∧ bits ≤ w ∧
      val w z < (2 ^ w) ^ bytes ∧ (∀ m, val w z < (2 ^ w) ^ m → bytes ≤ m) ∧
      (val w z = 0 → bytes = 0 ∧ bits = 0) ∧
      (val w z ≠ 0 → 1 ≤ bytes ∧ 1 ≤ bits ∧
        z.getD (bytes - 1) 0 < 2 ^ bits ∧ (∀ t, z.getD (bytes - 1) 0 < 2 ^ t → bits ≤ t) ∧
        val w z < 2 ^ (w * (bytes - 1) + bits) ∧
        ∀ t, val w z < 2 ^ t → w * (bytes - 1) + bits ≤ t) :=
  mbiGetNumericalLength_spec w n z hz hd

/-- Witness for C14 as amended: three 32-bit digits, the highest one zero. -/
theorem C14_mbiGetNumericalLength_amended_witness :
    ∃ bytes bits, mbiGetNumericalLength 32 3 [0, 255, 0] = some (bytes, bits) ∧ bytes ≤ 3 ∧
      bits ≤ 32 ∧
      val 32 [0, 255, 0] < (2 ^ 32) ^ bytes ∧
      (∀ m, val 32 [0, 255, 0] < (2 ^ 32) ^ m → bytes ≤ m) ∧
      (val 32 [0, 255, 0] = 0 → bytes = 0 ∧ bits = 0) ∧
      (val 32 [0, 255, 0] ≠ 0 → 1 ≤ bytes ∧ 1 ≤ bits ∧
        [0, 255, 0].getD (bytes - 1) 0 < 2 ^ bits ∧
        (∀ t, [0, 255, 0].getD (bytes - 1) 0 < 2 ^ t → bits ≤ t) ∧
        val 32 [0, 255, 0] < 2 ^ (32 * (bytes - 1) + bits) ∧
        ∀ t, val 32 [0, 255, 0] < 2 ^ t → 32 * (bytes - 1) + bits ≤ t) :=
  C14_mbiGetNumericalLength_amended 32 3 [0, 255, 0] rfl (by decide)

/-- C15, the code at the failing input: entered with the flag `*carry` set, `mbiInc` on the
two digits `[5, 7]` yields `[6, 8]`, which is not the value plus one, because the flag is
not cleared when the lowest digit does not wrap; and on the single digit `[5]` it returns
`true` although the increment stays within the digit. -/
theorem C15_mbiInc_carry_set :
    mbiInc 32 2 [5, 7] true = ⟨[6, 8], false, false⟩ ∧
    val 32 [6, 8] ≠ (val 32 [5, 7] + 1) % (2 ^ 32) ^ 2 ∧
    (mbiInc 32 1 [5] true).ret = true ∧ val 32 [5] + 1 ≠ (2 ^ 32) ^ 1 := by
  refine ⟨?_, ?_, ?_, ?_⟩
  · rfl
  · decide
  · rfl
  · decide

/-- C16: for every `k` below the digit width and `2^k`-digit operands, the final addition
of the overflow buffer to the result in `mbiNaivMultiplication` returns no carry, so that
`assert(!carry)` holds and the routine returns. -/
theorem C16_naiv_final_carry (w k : Nat) (p a b : List Nat) (hk : k < w)
    (hp : p.length = 2 ^ (k + 1)) (hda : Digits w a) (hdb : Digits w b) (hdp : Digits w p) :
    (mbiAdd w (2 * 2 ^ k)
      (naivLoops w (2 ^ k) a b (mbiSetZero (2 ^ k * 2) p,
        mbiSetZero (2 ^ k * 2) (List.replicate (2 ^ k * 2) 0))).1
      (naivLoops w (2 ^ k) a b (mbiSetZero (2 ^ k * 2) p,
        mbiSetZero (2 ^ k * 2) (List.replicate (2 ^ k * 2) 0))).2 false).carry = false ∧
    (naivCore w k p a b).2 = false ∧
    (mbiNaivMultiplication w k p a b).isSome = true := by
  have h2 : 2 ^ (k + 1) = 2 * 2 ^ k := by rw [pow_succ]; omega
  obtain ⟨q, _, _, e, _⟩ := naivCore_spec w k p a b hk (by omega) hdp hda hdb
  have hc : (naivCore w k p a b).2 = false := by rw [e]
  refine ⟨hc, hc, ?_⟩
  simp only [mbiNaivMultiplication, hc]
  rfl

/-- Witness for C16: 4-digit operands of 32-bit digits, every digit `2^32 - 1`. -/
theorem C16_naiv_final_carry_witness :
    (mbiAdd 32 (2 * 2 ^ 2)
      (naivLoops 32 (2 ^ 2) (List.replicate 4 (2 ^ 32 - 1)) (List.replicate 4 (2 ^ 32 - 1))
        (mbiSetZero (2 ^ 2 * 2) (List.replicate 8 5),
          mbiSetZero (2 ^ 2 * 2) (List.replicate (2 ^ 2 * 2) 0))).1
      (naivLoops 32 (2 ^ 2) (List.replicate 4 (2 ^ 32 - 1)) (List.replicate 4 (2 ^ 32 - 1))
        (mbiSetZero (2 ^ 2 * 2) (List.replicate 8 5),
          mbiSetZero (2 ^ 2 * 2) (List.replicate (2 ^ 2 * 2) 0))).2 false).carry = false ∧
    (naivCore 32 2 (List.replicate 8 5) (List.replicate 4 (2 ^ 32 - 1))
      (List.replicate 4 (2 ^ 32 - 1))).2 = false ∧
    (mbiNaivMultiplication 32 2 (List.replicate 8 5) (List.replicate 4 (2 ^ 32 - 1))
      (List.replicate 4 (2 ^ 32 - 1))).isSome = true :=
  C16_naiv_final_carry 32 2 (List.replicate 8 5) (List.replicate 4 (2 ^ 32 - 1))
    (List.replicate 4 (2 ^ 32 - 1)) (by decide) (by simp)
    (fun d hd => by rw [List.eq_of_mem_replicate hd]; decide)
    (fun d hd => by rw [List.eq_of_mem_replicate hd]; decide)
    (fun d hd => by rw [List.eq_of_mem_replicate hd]; decide)

/-- C17: for `k >= 6` the recursive case of `mbiMultiply` reaches the point where the
counter `overflow` is applied, and the counter read as a signed number lies between `-2`
and `2` there; `mbiMultiply` returns the destination with that counter applied. -/
theorem C17_overflow_range (w k : Nat) (p a b : List Nat) (hk : 6 ≤ k) (hw : min k 5 < w)
    (hp : p.length = 2 ^ (k + 1)) (ha : a.length = 2 ^ k) (hb : b.length = 2 ^ k)
    (hdp : Digits w p) (hda : Digits w a) (hdb : Digits w b) :
    ∃ p1 overflow, karatsubaCounter w k (mbiMultiply w (k - 1)) p a b = some (p1, overflow) ∧
      -2 ≤ signedValue w overflow ∧ signedValue w overflow ≤ 2 ∧
      mbiMultiply w k p a b = some (karatsubaApply w k p1 overflow) := by
  obtain ⟨p1, ov, e, hov, _, _, _, hm⟩ := mbiMultiply_counter w k p a b hk hw hp ha hb hdp hda hdb
  have hw3 : 3 ≤ w := by
    have : min k 5 = 5 := Nat.min_eq_right (by omega)
    omega
  have hs := signedValue_of_le_two w ov hw3 hov
  refine ⟨p1, ov, e, ?_, ?_, hm⟩
  · rw [hs]; omega
  · rw [hs]; omega

/-- Witness for C17: 64-digit operands of 32-bit digits, every digit `2^32 - 1`. -/
theorem C17_overflow_range_witness :
    ∃ p1 overflow, karatsubaCounter 32 6 (mbiMultiply 32 (6 - 1)) (List.replicate 128 5)
        (List.replicate 64 (2 ^ 32 - 1)) (List.replicate 64 (2 ^ 32 - 1))
        = some (p1, overflow) ∧
      -2 ≤ signedValue 32 overflow ∧ signedValue 32 overflow ≤ 2 ∧
      mbiMultiply 32 6 (List.replicate 128 5) (List.replicate 64 (2 ^ 32 - 1))
        (List.replicate 64 (2 ^ 32 - 1)) = some (karatsubaApply 32 6 p1 overflow) :=
  C17_overflow_range 32 6 (List.replicate 128 5) (List.replicate 64 (2 ^ 32 - 1))
    (List.replicate 64 (2 ^ 32 - 1)) (by decide) (by decide) (by simp) (by simp) (by simp)
    (fun d hd => by rw [List.eq_of_mem_replicate hd]; decide)
    (fun d hd => by rw [List.eq_of_mem_replicate hd]; decide)
    (fun d hd => by rw [List.eq_of_mem_replicate hd]; decide)

/-- C18: in the recursive case for operands of `n = 2^k` digits, if the routine called for
the halves returns exact products (`MultSpec`), then after the cross-term correction the
`n`-digit scratch area `heap` and the counter `overflow` satisfy
`val heap + overflow * B^n = (val al + val ah) * (val bl + val bh)`, whatever the carries
of the two sums of halves are. -/
theorem C18_cross_term_invariant (w k : Nat) (hk : 1 ≤ k) (hw : 2 ≤ w)
    (mult : List Nat → List Nat → List Nat → Option (List Nat))
    (Hm : MultSpec w (2 ^ k / 2) mult) (p a b : List Nat)
    (hp : p.length = 2 ^ (k + 1)) (ha : a.length = 2 ^ k) (hb : b.length = 2 ^ k)
    (hdp : Digits w p) (hda : Digits w a) (hdb : Digits w b) :
    ∃ p1 heap overflow, karatsubaCross w k mult p a b = some (p1, heap, overflow) ∧
      p1.length = 2 ^ (k + 1) ∧ heap.length = 2 ^ k ∧ Digits w heap ∧ overflow ≤ 3 ∧
      val w heap + overflow * (2 ^ w) ^ (2 ^ k)
        = (val w (a.take (2 ^ k / 2)) + val w (a.drop (2 ^ k / 2)))
          * (val w (b.take (2 ^ k / 2)) + val w (b.drop (2 ^ k / 2))) :=
  karatsubaCross_full w k hk hw mult Hm p a b hp ha hb hdp hda hdb

/-- Witness for C18: 64-digit operands of 32-bit digits, every digit `2^32 - 1` (both sums
of halves overflow), the halves multiplied by `mbiMultiply` itself. -/
theorem C18_cross_term_invariant_witness :
    ∃ p1 heap overflow, karatsubaCross 32 6 (mbiMultiply 32 5) (List.replicate 128 5)
        (List.replicate 64 (2 ^ 32 - 1)) (List.replicate 64 (2 ^ 32 - 1))
        = some (p1, heap, overflow) ∧
      p1.length = 2 ^ (6 + 1) ∧ heap.length = 2 ^ 6 ∧ Digits 32 heap ∧ overflow ≤ 3 ∧
      val 32 heap + overflow * (2 ^ 32) ^ (2 ^ 6)
        = (val 32 ((List.replicate 64 (2 ^ 32 - 1)).take (2 ^ 6 / 2))
            + val 32 ((List.replicate 64 (2 ^ 32 - 1)).drop (2 ^ 6 / 2)))
          * (val 32 ((List.replicate 64 (2 ^ 32 - 1)).take (2 ^ 6 / 2))
            + val 32 ((List.replicate 64 (2 ^ 32 - 1)).drop (2 ^ 6 / 2))) :=
  C18_cross_term_invariant 32 6 (by decide) (by decide) (mbiMultiply 32 5)
    (mbiMultiply_spec 32 5 (by decide)) (List.replicate 128 5)
    (List.replicate 64 (2 ^ 32 - 1)) (List.replicate 64 (2 ^ 32 - 1))
    (by simp) (by simp) (by simp)
    (fun d hd => by rw [List.eq_of_mem_replicate hd]; decide)
    (fun d hd => by rw [List.eq_of_mem_replicate hd]; decide)
    (fun d hd => by rw [List.eq_of_mem_replicate hd]; decide)

/-- C19: for `k <= 7` (and `k` below the digit width) and `2^k`-digit operands,
`mbiNaivMultiplicationRestricted` returns the same `2^(k+1)` digits as
`mbiNaivMultiplication`, the digits of the product; for `k > 7` its assertion `k <= 7`
fails. -/
theorem C19_restricted_eq_naiv (w k : Nat) (p a b : List Nat) :
    (k ≤ 7 → k < w → p.length = 2 ^ (k + 1) → a.length = 2 ^ k → b.length = 2 ^ k →
      Digits w p → Digits w a → Digits w b →
      mbiNaivMultiplicationRestricted w k p a b = mbiNaivMultiplication w k p a b ∧
      ∃ q, mbiNaivMultiplicationRestricted w k p a b = some q ∧ q.length = 2 ^ (k + 1) ∧
        val w q = val w a * val w b) ∧
    (7 < k → mbiNaivMultiplicationRestricted w k p a b = none) :=
  mbiNaivMultiplicationRestricted_full w k p a b

/-- Witness for C19: 128-digit operands of 32-bit digits (`k = 7`, the largest size
admitted), and the failure for `k = 8`. -/
theorem C19_restricted_eq_naiv_witness :
    (mbiNaivMultiplicationRestricted 32 7 (List.replicate 256 5)
        (List.replicate 128 (2 ^ 32 - 1)) (List.replicate 128 (2 ^ 32 - 1))
      = mbiNaivMultiplication 32 7 (List.replicate 256 5)
        (List.replicate 128 (2 ^ 32 - 1)) (List.replicate 128 (2 ^ 32 - 1)) ∧
      ∃ q, mbiNaivMultiplicationRestricted 32 7 (List.replicate 256 5)
          (List.replicate 128 (2 ^ 32 - 1)) (List.replicate 128 (2 ^ 32 - 1)) = some q ∧
        q.length = 2 ^ (7 + 1) ∧
        val 32 q = val 32 (List.replicate 128 (2 ^ 32 - 1))
          * val 32 (List.replicate 128 (2 ^ 32 - 1))) ∧
    mbiNaivMultiplicationRestricted 32 8 (List.replicate 512 5)
        (List.replicate 256 (2 ^ 32 - 1)) (List.replicate 256 (2 ^ 32 - 1)) = none :=
  ⟨(C19_restricted_eq_naiv 32 7 (List.replicate 256 5) (List.replicate 128 (2 ^ 32 - 1))
      (List.replicate 128 (2 ^ 32 - 1))).1 (by decide) (by decide)
      ((List.length_replicate 256 5).trans (by decide))
      ((List.length_replicate 128 (2 ^ 32 - 1)).trans (by decide))
      ((List.length_replicate 128 (2 ^ 32 - 1)).trans (by decide))
      (fun d hd => by rw [List.eq_of_mem_replicate hd]; decide)
      (fun d hd => by rw [List.eq_of_mem_replicate hd]; decide)
      (fun d hd => by rw [List.eq_of_mem_replicate hd]; decide),
    (C19_restricted_eq_naiv 32 8 (List.replicate 512 5) (List.replicate 256 (2 ^ 32 - 1))
      (List.replicate 256 (2 ^ 32 - 1))).2 (by decide)⟩

/-- C20: for `n`-digit `add1` and `add2` and either incoming borrow `c`, `mbiCopySub` writes
`(val add1 - val add2 - c) mod B^n` to the destination and returns `true` exactly when
`val add1 < val add2 + c`; the outcome is that of `mbiCopy` followed by `mbiSub`, and it is
the same when the destination is the minuend itself. -/
theorem C20_mbiCopySub_correct (w n : Nat) (dest add1 add2 : List Nat) (c : Bool)
    (hdl : dest.length = n) (h1l : add1.length = n) (h2l : add2.length = n)
    (h1 : Digits w add1) (h2 : Digits w add2) :
    (mbiCopySub w n dest add1 add2 c).dest.length = n ∧
    Digits w (mbiCopySub w n dest add1 add2 c).dest ∧
    ((val w (mbiCopySub w n dest add1 add2 c).dest : Int)
      = ((val w add1 : Int) - (val w add2 : Int) - (c.toNat : Int))
          % (((2 ^ w) ^ n : Nat) : Int)) ∧
    ((mbiCopySub w n dest add1 add2 c).ret = true ↔ val w add1 < val w add2 + c.toNat) ∧
    (mbiCopySub w n dest add1 add2 c).carry = (mbiCopySub w n dest add1 add2 c).ret ∧
    mbiCopySub w n dest add1 add2 c = mbiSub w n (mbiCopy n dest add1) add2 c ∧
    mbiCopySubInPlace w n add1 add2 c = mbiSub w n add1 add2 c ∧
    mbiCopySubInPlace w n add1 add2 c = mbiCopySub w n dest add1 add2 c :=
  mbiCopySub_full w n dest add1 add2 c hdl h1l h2l h1 h2

/-- Witness for C20: two 32-bit digits, an incoming borrow, and a difference that wraps. -/
theorem C20_mbiCopySub_correct_witness :
    (mbiCopySub 32 2 [9, 9] [0, 5] [1, 5] true).dest.length = 2 ∧
    Digits 32 (mbiCopySub 32 2 [9, 9] [0, 5] [1, 5] true).dest ∧
    ((val 32 (mbiCopySub 32 2 [9, 9] [0, 5] [1, 5] true).dest : Int)
      = ((val 32 [0, 5] : Int) - (val 32 [1, 5] : Int) - (true.toNat : Int))
          % (((2 ^ 32) ^ 2 : Nat) : Int)) ∧
    ((mbiCopySub 32 2 [9, 9] [0, 5] [1, 5] true).ret = true
      ↔ val 32 [0, 5] < val 32 [1, 5] + true.toNat) ∧
    (mbiCopySub 32 2 [9, 9] [0, 5] [1, 5] true).carry
      = (mbiCopySub 32 2 [9, 9] [0, 5] [1, 5] true).ret ∧
    mbiCopySub 32 2 [9, 9] [0, 5] [1, 5] true
      = mbiSub 32 2 (mbiCopy 2 [9, 9] [0, 5]) [1, 5] true ∧
    mbiCopySubInPlace 32 2 [0, 5] [1, 5] true = mbiSub 32 2 [0, 5] [1, 5] true ∧
    mbiCopySubInPlace 32 2 [0, 5] [1, 5] true = mbiCopySub 32 2 [9, 9] [0, 5] [1, 5] true :=
  C20_mbiCopySub_correct 32 2 [9, 9] [0, 5] [1, 5] true rfl rfl rfl (by decide) (by decide)

/-! ## Further claims: bit shifts, the padded result, bounds of counters and indices -/

/-- C21, the code at the failing input: for the bit count `r = 32` on 32-bit digits
`mbiBitRightShift` takes no whole-digit shift, because its test is `r > 8*sizeof(bigint)`,
and evaluates `maske << r` with the count equal to the width of the type, which C leaves
undefined; the value required for the one-digit number `[5]` is `5 / 2^32 = 0`. -/
theorem C21_mbiBitRightShift_width :
    mbiBitRightShift 32 1 [5] 32 true = none ∧ cShiftLeft 32 (2 ^ 32 - 1) 32 = none ∧
    val 32 [5] / 2 ^ 32 = 0 ∧ 32 ≤ 32 * 1 := by
  refine ⟨?_, ?_, ?_, ?_⟩
  · exact mbiBitRightShift_width 32 1 [5] true
  · rfl
  · decide
  · decide

/-- C22: in `mbiMultiplikation` (operand lengths admitting a representable power of two),
the block `tempdest` after the call of `mbiMultiply` holds in its first `2 * 2^k` digits the
product; every digit of it at an index from `n1+n2` on is zero; the value of its first
`n1+n2` digits is the value of the whole result area; and these are the digits that
`mbiCopy( n1+n2, dest, tempdest )` leaves in `dest`. -/
theorem C22_padded_result_zero (w : Nat) (dest : List Nat) (n1 : Nat) (fak1 : List Nat)
    (n2 : Nat) (fak2 : List Nat) (hw0 : 0 < w) (hw : w ≤ 256)
    (hmax : max n1 n2 ≤ 2 ^ (w - 1)) (h1 : fak1.length = n1) (h2 : fak2.length = n2)
    (hd : n1 + n2 ≤ dest.length) (hd1 : Digits w fak1) (hd2 : Digits w fak2) :
    ∃ t, mbiMultiplikationTemp w n1 fak1 n2 fak2 = some t ∧
      2 * 2 ^ getFittingExponent w (max n1 n2) ≤ t.length ∧
      (∀ i, n1 + n2 ≤ i → i < 2 * 2 ^ getFittingExponent w (max n1 n2) → t.getD i 0 = 0) ∧
      val w (t.take (n1 + n2)) = val w (t.take (2 * 2 ^ getFittingExponent w (max n1 n2))) ∧
      val w (t.take (2 * 2 ^ getFittingExponent w (max n1 n2))) = val w fak1 * val w fak2 ∧
      mbiMultiplikation w dest n1 fak1 n2 fak2 = some ⟨mbiCopy (n1 + n2) dest t, false⟩ ∧
      (mbiCopy (n1 + n2) dest t).take (n1 + n2) = t.take (n1 + n2) := by
  obtain ⟨q, t, e, lq, _, hv, hz, ht, hne⟩ :=
    mbiMultiplikationTemp_spec w n1 fak1 n2 fak2 hw0 hw hmax h1 h2 hd1 hd2
  obtain ⟨_, hnk, _⟩ := getFittingExponent_spec w (max n1 n2) hw0 hw hmax
  have hn1 : n1 ≤ 2 ^ getFittingExponent w (max n1 n2) := le_trans (Nat.le_max_left _ _) hnk
  have hn2 : n2 ≤ 2 ^ getFittingExponent w (max n1 n2) := le_trans (Nat.le_max_right _ _) hnk
  have hle : n1 + n2 ≤ q.length := by rw [lq]; omega
  have htq : (q ++ t).take (2 * 2 ^ getFittingExponent w (max n1 n2)) = q :=
    List.take_left' lq
  have htn : (q ++ t).take (n1 + n2) = q.take (n1 + n2) := List.take_append_of_le_length hle
  have hcopy := copy_result (n1 + n2) dest q t hd hle
  refine ⟨q ++ t, e, ?_, ?_, ?_, ?_, ?_, ?_⟩
  · rw [List.length_append, lq]; exact Nat.le_add_right _ _
  · intro i hi hlt
    rw [List.getD_eq_getElem?_getD, List.getElem?_append_left (by rw [lq]; exact hlt),
      ← List.getD_eq_getElem?_getD]
    exact hz i hi
  · rw [htq, htn, ht]
  · rw [htq, hv]
  · rw [mbiMultiplikation_eq_temp w dest n1 fak1 n2 fak2 hne, e]
    rfl
  · rw [hcopy, htn]
    exact List.take_left' (length_take_of_le hle)

/-- Witness for C22: the operand lengths 5 and 17 of the repository's arbitrary-length
test, with 32-bit digits. -/
theorem C22_padded_result_zero_witness :
    ∃ t, mbiMultiplikationTemp 32 5 [1, 2, 3, 4, 5] 17 (List.replicate 17 1) = some t ∧
      2 * 2 ^ getFittingExponent 32 (max 5 17) ≤ t.length ∧
      (∀ i, 5 + 17 ≤ i → i < 2 * 2 ^ getFittingExponent 32 (max 5 17) → t.getD i 0 = 0) ∧
      val 32 (t.take (5 + 17)) = val 32 (t.take (2 * 2 ^ getFittingExponent 32 (max 5 17))) ∧
      val 32 (t.take (2 * 2 ^ getFittingExponent 32 (max 5 17)))
        = val 32 [1, 2, 3, 4, 5] * val 32 (List.replicate 17 1) ∧
      mbiMultiplikation 32 (List.replicate 22 9) 5 [1, 2, 3, 4, 5] 17 (List.replicate 17 1)
        = some ⟨mbiCopy (5 + 17) (List.replicate 22 9) t, false⟩ ∧
      (mbiCopy (5 + 17) (List.replicate 22 9) t).take (5 + 17) = t.take (5 + 17) :=
  C22_padded_result_zero 32 (List.replicate 22 9) 5 [1, 2, 3, 4, 5] 17
    (List.replicate 17 1) (by decide) (by decide) (by decide) (by decide) (by decide)
    (by decide) (by decide) (by decide)

/-- C23: for `k >= 6`, when `mbiMultiply` reaches its final step the unsigned counter
`overflow` is exactly `0`, `1` or `2`; the final step leaves the digits below the top
quarter unchanged and adds the counter to the top quarter; and each `mbiInc` it calls
returns no carry. -/
theorem C23_overflow_counter_applied (w k : Nat) (p a b : List Nat) (hk : 6 ≤ k)
    (hw : min k 5 < w) (hp : p.length = 2 ^ (k + 1)) (ha : a.length = 2 ^ k)
    (hb : b.length = 2 ^ k) (hdp : Digits w p) (hda : Digits w a) (hdb : Digits w b) :
    ∃ p1 overflow, karatsubaCounter w k (mbiMultiply w (k - 1)) p a b = some (p1, overflow) ∧
      (overflow = 0 ∨ overflow = 1 ∨ overflow = 2) ∧
      mbiMultiply w k p a b = some (karatsubaApply w k p1 overflow) ∧
      (karatsubaApply w k p1 overflow).length = 2 ^ (k + 1) ∧
      (karatsubaApply w k p1 overflow).take (2 ^ k + 2 ^ k / 2) = p1.take (2 ^ k + 2 ^ k / 2) ∧
      val w ((karatsubaApply w k p1 overflow).drop (2 ^ k + 2 ^ k / 2))
        = val w (p1.drop (2 ^ k + 2 ^ k / 2)) + overflow ∧
      (1 ≤ overflow → (mbiInc w (2 ^ k / 2) (p1.drop (2 ^ k + 2 ^ k / 2)) false).ret = false) ∧
      (overflow = 2 →
        (mbiInc w (2 ^ k / 2)
          (mbiInc w (2 ^ k / 2) (p1.drop (2 ^ k + 2 ^ k / 2)) false).dest false).ret
          = false) := by
  obtain ⟨p1, ov, e, hov, lp1, hdp1, hroom, hm⟩ :=
    mbiMultiply_counter w k p a b hk hw hp ha hb hdp hda hdb
  obtain ⟨j, rfl⟩ : ∃ j, k = j + 1 := ⟨k - 1, by omega⟩
  have hk2 : 2 ^ (j + 1) = 2 * 2 ^ j := by rw [pow_succ]; omega
  have half : 2 ^ (j + 1) / 2 = 2 ^ j := by
    rw [hk2]; exact Nat.mul_div_cancel_left _ (by decide)
  have hlen : p1.length = 2 * 2 ^ j + 2 ^ j + 2 ^ j := by
    rw [lp1, pow_succ, hk2]; omega
  rw [half] at hroom ⊢
  rw [hk2] at hroom ⊢
  obtain ⟨c1, c2, c3, c4, c5⟩ := karatsubaApply_counter w (j + 1) (2 ^ j) hk2
    (Nat.two_pow_pos j) p1 ov hlen hdp1 hov hroom
  have hcases : ov = 0 ∨ ov = 1 ∨ ov = 2 := by omega
  refine ⟨p1, ov, e, hcases, hm, ?_, c2, c3, c4, c5⟩
  rw [c1, lp1, pow_succ, hk2]

/-- Witness for C23: 64-digit operands of 32-bit digits, every digit `2^32 - 1`. -/
theorem C23_overflow_counter_applied_witness :
    ∃ p1 overflow, karatsubaCounter 32 6 (mbiMultiply 32 (6 - 1)) (List.replicate 128 5)
        (List.replicate 64 (2 ^ 32 - 1)) (List.replicate 64 (2 ^ 32 - 1))
        = some (p1, overflow) ∧
      (overflow = 0 ∨ overflow = 1 ∨ overflow = 2) ∧
      mbiMultiply 32 6 (List.replicate 128 5) (List.replicate 64 (2 ^ 32 - 1))
        (List.replicate 64 (2 ^ 32 - 1)) = some (karatsubaApply 32 6 p1 overflow) ∧
      (karatsubaApply 32 6 p1 overflow).length = 2 ^ (6 + 1) ∧
      (karatsubaApply 32 6 p1 overflow).take (2 ^ 6 + 2 ^ 6 / 2)
        = p1.take (2 ^ 6 + 2 ^ 6 / 2) ∧
      val 32 ((karatsubaApply 32 6 p1 overflow).drop (2 ^ 6 + 2 ^ 6 / 2))
        = val 32 (p1.drop (2 ^ 6 + 2 ^ 6 / 2)) + overflow ∧
      (1 ≤ overflow →
        (mbiInc 32 (2 ^ 6 / 2) (p1.drop (2 ^ 6 + 2 ^ 6 / 2)) false).ret = false) ∧
      (overflow = 2 →
        (mbiInc 32 (2 ^ 6 / 2)
          (mbiInc 32 (2 ^ 6 / 2) (p1.drop (2 ^ 6 + 2 ^ 6 / 2)) false).dest false).ret
          = false) :=
  C23_overflow_counter_applied 32 6 (List.replicate 128 5) (List.replicate 64 (2 ^ 32 - 1))
    (List.replicate 64 (2 ^ 32 - 1)) (by decide) (by decide)
    ((List.length_replicate 128 5).trans (by decide))
    ((List.length_replicate 64 (2 ^ 32 - 1)).trans (by decide))
    ((List.length_replicate 64 (2 ^ 32 - 1)).trans (by decide))
    (fun d hd => by rw [List.eq_of_mem_replicate hd]; decide)
    (fun d hd => by rw [List.eq_of_mem_replicate hd]; decide)
    (fun d hd => by rw [List.eq_of_mem_replicate hd]; decide)

/-- C24: in `mbiNaivMultiplication`, and for `k <= 7` in `mbiNaivMultiplicationRestricted`
with its 256-digit buffer, for `k` below the digit width and every pair `(i, j)`: on entry
to the iteration `(i, j)`, if the accumulation at offset `i+j` returns a carry then the
index `i+j+2` is below `2 * 2^k` and the entry incremented there does not wrap; hence the
iteration `i = j = 2^k - 1` returns no carry.  The state of an iteration is the state of
the previous one after `naivStep`, which increments `overflows[i+j+2]` exactly when the
accumulation carries. -/
theorem C24_overflow_index_bound (w k : Nat) (p a b : List Nat) (i j : Nat) (hk : k < w)
    (hp : p.length = 2 ^ (k + 1)) (hdp : Digits w p) (hda : Digits w a) (hdb : Digits w b)
    (hi : i < 2 ^ k) (hj : j < 2 ^ k) :
    (naivCarry w a b i j (naivStateAt w (2 ^ k) a b
        (mbiSetZero (2 ^ k * 2) p, mbiSetZero (2 ^ k * 2) (List.replicate (2 ^ k * 2) 0))
        i j) = true →
      i + j + 2 < 2 * 2 ^ k ∧
      (naivStateAt w (2 ^ k) a b
        (mbiSetZero (2 ^ k * 2) p, mbiSetZero (2 ^ k * 2) (List.replicate (2 ^ k * 2) 0))
        i j).2.getD (i + j + 2) 0 + 1 < 2 ^ w) ∧
    (k ≤ 7 →
      naivCarry w a b i j (naivStateAt w (2 ^ k) a b
        (mbiSetZero (2 ^ k * 2) p, mbiSetZero (2 ^ k * 2) (List.replicate 256 0)) i j)
        = true →
      i + j + 2 < 2 * 2 ^ k ∧
      (naivStateAt w (2 ^ k) a b
        (mbiSetZero (2 ^ k * 2) p, mbiSetZero (2 ^ k * 2) (List.replicate 256 0))
        i j).2.getD (i + j + 2) 0 + 1 < 2 ^ w) ∧
    (i + 1 = 2 ^ k → j + 1 = 2 ^ k →
      naivCarry w a b i j (naivStateAt w (2 ^ k) a b
        (mbiSetZero (2 ^ k * 2) p, mbiSetZero (2 ^ k * 2) (List.replicate (2 ^ k * 2) 0))
        i j) = false ∧
      (k ≤ 7 →
        naivCarry w a b i j (naivStateAt w (2 ^ k) a b
          (mbiSetZero (2 ^ k * 2) p, mbiSetZero (2 ^ k * 2) (List.replicate 256 0)) i j)
          = false)) ∧
    (∀ st, naivStateAt w (2 ^ k) a b st i (j + 1)
        = naivStep w a b i j (naivStateAt w (2 ^ k) a b st i j) ∧
      naivStateAt w (2 ^ k) a b st (i + 1) 0 = naivStateAt w (2 ^ k) a b st i (2 ^ k) ∧
      naivLoops w (2 ^ k) a b st = naivStateAt w (2 ^ k) a b st (2 ^ k) 0 ∧
      (naivStep w a b i j st).2
        = if naivCarry w a b i j st = true
          then st.2.set (i + j + 2) ((st.2.getD (i + j + 2) 0 + 1) % 2 ^ w) else st.2) := by
  have h2 : 2 ^ (k + 1) = 2 * 2 ^ k := by rw [pow_succ]; omega
  have hp2 : 2 * 2 ^ k ≤ p.length := by omega
  have hn := naiv_overflow_safe w k (List.replicate (2 ^ k * 2) 0) p a b hk
    (by rw [List.length_replicate]; omega) hp2 hdp hda hdb i j hi hj
  have hr : k ≤ 7 → _ := fun h7 => naiv_overflow_safe w k (List.replicate 256 0) p a b hk
    (by
      rw [List.length_replicate]
      have : 2 ^ k ≤ 2 ^ 7 := Nat.pow_le_pow_right (by decide) h7
      have e : (2 : Nat) ^ 7 = 128 := by decide
      omega) hp2 hdp hda hdb i j hi hj
  refine ⟨hn, hr, ?_, ?_⟩
  · intro hi1 hj1
    constructor
    · cases hc : naivCarry w a b i j (naivStateAt w (2 ^ k) a b
        (mbiSetZero (2 ^ k * 2) p, mbiSetZero (2 ^ k * 2) (List.replicate (2 ^ k * 2) 0))
        i j) with
      | false => rfl
      | true => have := (hn hc).1; omega
    · intro h7
      cases hc : naivCarry w a b i j (naivStateAt w (2 ^ k) a b
        (mbiSetZero (2 ^ k * 2) p, mbiSetZero (2 ^ k * 2) (List.replicate 256 0)) i j) with
      | false => rfl
      | true => have := (hr h7 hc).1; omega
  · intro st
    refine ⟨?_, ?_, ?_, rfl⟩
    · simp only [naivStateAt, List.range_succ, List.foldl_append, List.foldl_cons,
        List.foldl_nil]
    · simp only [naivStateAt, List.range_succ, List.foldl_append, List.foldl_cons,
        List.foldl_nil, List.range_zero]
    · simp only [naivStateAt, naivLoops, List.range_zero, List.foldl_nil]

/-- Witness for C24: two-digit operands of 32-bit digits, every digit `2^32 - 1`, at the
last iteration `i = j = 1`. -/
theorem C24_overflow_index_bound_witness :
    (naivCarry 32 [2 ^ 32 - 1, 2 ^ 32 - 1] [2 ^ 32 - 1, 2 ^ 32 - 1] 1 1
        (naivStateAt 32 (2 ^ 1) [2 ^ 32 - 1, 2 ^ 32 - 1] [2 ^ 32 - 1, 2 ^ 32 - 1]
        (mbiSetZero (2 ^ 1 * 2) [5, 5, 5, 5],
          mbiSetZero (2 ^ 1 * 2) (List.replicate (2 ^ 1 * 2) 0)) 1 1) = true →
      1 + 1 + 2 < 2 * 2 ^ 1 ∧
      (naivStateAt 32 (2 ^ 1) [2 ^ 32 - 1, 2 ^ 32 - 1] [2 ^ 32 - 1, 2 ^ 32 - 1]
        (mbiSetZero (2 ^ 1 * 2) [5, 5, 5, 5],
          mbiSetZero (2 ^ 1 * 2) (List.replicate (2 ^ 1 * 2) 0))
        1 1).2.getD (1 + 1 + 2) 0 + 1 < 2 ^ 32) ∧
    (1 ≤ 7 →
      naivCarry 32 [2 ^ 32 - 1, 2 ^ 32 - 1] [2 ^ 32 - 1, 2 ^ 32 - 1] 1 1
        (naivStateAt 32 (2 ^ 1) [2 ^ 32 - 1, 2 ^ 32 - 1] [2 ^ 32 - 1, 2 ^ 32 - 1]
        (mbiSetZero (2 ^ 1 * 2) [5, 5, 5, 5], mbiSetZero (2 ^ 1 * 2) (List.replicate 256 0))
        1 1) = true →
      1 + 1 + 2 < 2 * 2 ^ 1 ∧
      (naivStateAt 32 (2 ^ 1) [2 ^ 32 - 1, 2 ^ 32 - 1] [2 ^ 32 - 1, 2 ^ 32 - 1]
        (mbiSetZero (2 ^ 1 * 2) [5, 5, 5, 5], mbiSetZero (2 ^ 1 * 2) (List.replicate 256 0))
        1 1).2.getD (1 + 1 + 2) 0 + 1 < 2 ^ 32) ∧
    (1 + 1 = 2 ^ 1 → 1 + 1 = 2 ^ 1 →
      naivCarry 32 [2 ^ 32 - 1, 2 ^ 32 - 1] [2 ^ 32 - 1, 2 ^ 32 - 1] 1 1
        (naivStateAt 32 (2 ^ 1) [2 ^ 32 - 1, 2 ^ 32 - 1] [2 ^ 32 - 1, 2 ^ 32 - 1]
        (mbiSetZero (2 ^ 1 * 2) [5, 5, 5, 5],
          mbiSetZero (2 ^ 1 * 2) (List.replicate (2 ^ 1 * 2) 0)) 1 1) = false ∧
      (1 ≤ 7 →
        naivCarry 32 [2 ^ 32 - 1, 2 ^ 32 - 1] [2 ^ 32 - 1, 2 ^ 32 - 1] 1 1
          (naivStateAt 32 (2 ^ 1) [2 ^ 32 - 1, 2 ^ 32 - 1] [2 ^ 32 - 1, 2 ^ 32 - 1]
          (mbiSetZero (2 ^ 1 * 2) [5, 5, 5, 5],
            mbiSetZero (2 ^ 1 * 2) (List.replicate 256 0)) 1 1) = false)) ∧
    (∀ st, naivStateAt 32 (2 ^ 1) [2 ^ 32 - 1, 2 ^ 32 - 1] [2 ^ 32 - 1, 2 ^ 32 - 1] st 1
          (1 + 1)
        = naivStep 32 [2 ^ 32 - 1, 2 ^ 32 - 1] [2 ^ 32 - 1, 2 ^ 32 - 1] 1 1
          (naivStateAt 32 (2 ^ 1) [2 ^ 32 - 1, 2 ^ 32 - 1] [2 ^ 32 - 1, 2 ^ 32 - 1] st 1 1) ∧
      naivStateAt 32 (2 ^ 1) [2 ^ 32 - 1, 2 ^ 32 - 1] [2 ^ 32 - 1, 2 ^ 32 - 1] st (1 + 1) 0
        = naivStateAt 32 (2 ^ 1) [2 ^ 32 - 1, 2 ^ 32 - 1] [2 ^ 32 - 1, 2 ^ 32 - 1] st 1
          (2 ^ 1) ∧
      naivLoops 32 (2 ^ 1) [2 ^ 32 - 1, 2 ^ 32 - 1] [2 ^ 32 - 1, 2 ^ 32 - 1] st
        = naivStateAt 32 (2 ^ 1) [2 ^ 32 - 1, 2 ^ 32 - 1] [2 ^ 32 - 1, 2 ^ 32 - 1] st
          (2 ^ 1) 0 ∧
      (naivStep 32 [2 ^ 32 - 1, 2 ^ 32 - 1] [2 ^ 32 - 1, 2 ^ 32 - 1] 1 1 st).2
        = if naivCarry 32 [2 ^ 32 - 1, 2 ^ 32 - 1] [2 ^ 32 - 1, 2 ^ 32 - 1] 1 1 st = true
          then st.2.set (1 + 1 + 2) ((st.2.getD (1 + 1 + 2) 0 + 1) % 2 ^ 32) else st.2) :=
  C24_overflow_index_bound 32 1 [5, 5, 5, 5] [2 ^ 32 - 1, 2 ^ 32 - 1]
    [2 ^ 32 - 1, 2 ^ 32 - 1] 1 1 (by decide) (by decide) (by decide) (by decide)
    (by decide) (by decide) (by decide)

/-- C25, the code at the failing input: comparing the two-digit number `[0, 0]` with an
operand of length `0`, the zero-stripping loop of `mbiCompare2` reduces `n1` to `0` and
then evaluates `z1[n1-1]`, a read outside the operand; the same happens with the operands
exchanged. -/
theorem C25_mbiCompare2_zero_length :
    mbiCompare2 2 [0, 0] 0 [] = none ∧ mbiCompare2Strip [0, 0] 0 2 = none ∧
    mbiCompare2 0 [] 2 [0, 0] = none ∧ mbiCompare2 2 [0, 1] 0 [] = some 1 := by
  refine ⟨?_, ?_, ?_, ?_⟩ <;> rfl

end BigIntMult
